import Mathlib

/-!
# NiagaraTextToolkit: the text layout core of `NTPDataInterface.cpp`

A shallow embedding of the layout code of
`Source/NiagaraTextParticles/Private/NTPDataInterface.cpp`.

Conventions of the embedding.

* An `FString` is the list of its character codes, each already converted with
  `(int32)InputText[i]`; `int32` values are `Int`. Every index and count the code
  computes is bounded by `InputText.Len()`, itself an `int32`, so no arithmetic wraps.
* `float` values are rationals (exact arithmetic).
* A `TArray` is a `List`; `Add` appends at the end.
* An array read whose index is not guarded by the bound of the enclosing loop is
  modelled as a lookup that may fail: the functions return `Option`, and `none`
  means an out-of-range access. Reads such as `Lines[i]` inside
  `for (i = 0; i < Lines.Num(); ++i)` are modelled by traversing the list.
* A loop over the text that looks one character ahead (`i + 1 < Len && Text[i + 1] == LF`)
  and may advance `i` inside its body is a recursion on the remaining text, with the
  index `i` carried along.
-/

namespace NTP

/-! ## Data model -/

/-- The `FVector2f` of the engine: one character position. -/
structure FVector2f where
  X : ℚ
  Y : ℚ
deriving DecidableEq, Repr, Inhabited

/-- The `FVector4` of the engine: one glyph rectangle `(USize, VSize, StartU, StartV)`. -/
structure FVector4 where
  X : ℚ
  Y : ℚ
  Z : ℚ
  W : ℚ
deriving DecidableEq, Repr, Inhabited

/-- Code of the line feed character. -/
abbrev LF : Int := 10

/-- Code of the carriage return character. -/
abbrev CR : Int := 13

/-- Code of the space character. -/
abbrev SPACE : Int := 32

/-- Code of the horizontal tab character. -/
abbrev TAB : Int := 9

/-- `IsWhitespaceChar` (lines 19-25). -/
def IsWhitespaceChar (Code : Int) : Bool :=
  Code == SPACE || Code == TAB || Code == LF || Code == CR

/-- `TArray::IsValidIndex`. -/
def IsValidIndex {α : Type} (xs : List α) (Index : Int) : Bool :=
  decide (0 ≤ Index) && decide (Index < (xs.length : Int))

/-- `TArray::operator[]` at an `int32` index: `none` when the index is out of range. -/
def getAt {α : Type} (xs : List α) (Index : Int) : Option α :=
  if 0 ≤ Index then xs[Index.toNat]? else none

/-- The mutable locals and out-parameters of `ProcessTextWithWhitespace` and
`ProcessTextWithoutWhitespace` while their main loop runs. `FilteredIndex` is used by the
second function only. -/
structure ProcState where
  bInsideWord : Bool
  CurrentWordStartIndex : Int
  CurrentWordCharCount : Int
  FilteredIndex : Int
  OutUnicode : List Int
  OutCharacterPositions : List FVector2f
  OutLineStartIndices : List Int
  OutWordStartIndices : List Int
  OutWordCharacterCounts : List Int
deriving DecidableEq, Repr

/-- The six out-parameters of the two `ProcessText...` functions after they return
(the `LayoutResult` of the specification: codes, positions, line and word arrays). -/
structure LayoutResult where
  Unicode : List Int
  CharacterPositions : List FVector2f
  LineStartIndices : List Int
  LineCharacterCounts : List Int
  WordStartIndices : List Int
  WordCharacterCounts : List Int
deriving DecidableEq, Repr

/-! ## The whitespace pipelines -/

/-- State on entry of the main loop (lines 525-531 and 614-622): the out-arrays are the
empty arrays `InitPerInstanceData` passes in, and `OutLineStartIndices.Add(0)` has run. -/
def initState : ProcState :=
  { bInsideWord := false
    CurrentWordStartIndex := -1
    CurrentWordCharCount := 0
    FilteredIndex := 0
    OutUnicode := []
    OutCharacterPositions := []
    OutLineStartIndices := [0]
    OutWordStartIndices := []
    OutWordCharacterCounts := [] }

/-- The word bookkeeping at the top of the loop body (lines 538-556 and 628-646, the same
text in both functions but for the index stored in `CurrentWordStartIndex`: `i` in the
first, `FilteredIndex` in the second; it is passed as `Index`). -/
def wordStep (Code : Int) (Index : Int) (st : ProcState) : ProcState :=
  if !IsWhitespaceChar Code then
    if !st.bInsideWord then
      { st with bInsideWord := true, CurrentWordStartIndex := Index, CurrentWordCharCount := 0 + 1 }
    else
      { st with CurrentWordCharCount := st.CurrentWordCharCount + 1 }
  else
    if st.bInsideWord then
      { st with
        bInsideWord := false
        OutWordStartIndices := st.OutWordStartIndices ++ [st.CurrentWordStartIndex]
        OutWordCharacterCounts := st.OutWordCharacterCounts ++ [st.CurrentWordCharCount] }
    else st

/-- The flush after the loop (lines 583-587 and 678-682). -/
def flushWord (st : ProcState) : ProcState :=
  if st.bInsideWord then
    { st with
      OutWordStartIndices := st.OutWordStartIndices ++ [st.CurrentWordStartIndex]
      OutWordCharacterCounts := st.OutWordCharacterCounts ++ [st.CurrentWordCharCount] }
  else st

/-- `OutUnicode.Add(Code); OutCharacterPositions.Add(P)`. -/
def emit (Code : Int) (P : FVector2f) (st : ProcState) : ProcState :=
  { st with
    OutUnicode := st.OutUnicode ++ [Code]
    OutCharacterPositions := st.OutCharacterPositions ++ [P] }

/-- `OutLineStartIndices.Add(Index)`. -/
def addLineStart (Index : Int) (st : ProcState) : ProcState :=
  { st with OutLineStartIndices := st.OutLineStartIndices ++ [Index] }

/-- Main loop of `ProcessTextWithWhitespace` (lines 533-581). The first list is the text
from index `i` on. -/
def keepLoop (Pos : List FVector2f) : List Int → Nat → ProcState → Option ProcState
  | [], _, st => some st
  | Code :: rest, i, st =>
    let st1 := wordStep Code (i : Int) st
    match Pos[i]? with
    | none => none
    | some P =>
      let st2 := emit Code P st1
      if Code = LF then
        keepLoop Pos rest (i + 1) (addLineStart (i : Int) st2)
      else if Code = CR then
        match rest with
        | [] => keepLoop Pos [] (i + 1) (addLineStart (i : Int) st2)
        | Next :: rest2 =>
          if Next = LF then
            match Pos[i + 1]? with
            | none => none
            | some P2 =>
              keepLoop Pos rest2 (i + 1 + 1) (addLineStart ((i + 1 : Nat) : Int) (emit LF P2 st2))
          else
            keepLoop Pos (Next :: rest2) (i + 1) (addLineStart (i : Int) st2)
      else
        keepLoop Pos rest (i + 1) st2

/-- Main loop of `ProcessTextWithoutWhitespace` (lines 623-676). -/
def dropLoop (Pos : List FVector2f) : List Int → Nat → ProcState → Option ProcState
  | [], _, st => some st
  | Code :: rest, i, st =>
    let st1 := wordStep Code st.FilteredIndex st
    if Code = LF then
      dropLoop Pos rest (i + 1) (addLineStart st1.FilteredIndex st1)
    else if Code = CR then
      match rest with
      | [] => dropLoop Pos [] (i + 1) (addLineStart st1.FilteredIndex st1)
      | Next :: rest2 =>
        if Next = LF then
          dropLoop Pos rest2 (i + 1 + 1) (addLineStart st1.FilteredIndex st1)
        else
          dropLoop Pos (Next :: rest2) (i + 1) (addLineStart st1.FilteredIndex st1)
    else if IsWhitespaceChar Code then
      dropLoop Pos rest (i + 1) st1
    else
      match Pos[i]? with
      | none => none
      | some P =>
        let st2 := emit Code P st1
        dropLoop Pos rest (i + 1) { st2 with FilteredIndex := st2.FilteredIndex + 1 }

/-- One round of the loop that fills `OutLineCharacterCounts` (lines 591-601 and 686-696):
the value added for `LineIdx`. -/
def lineCountAt (Starts : List Int) (NumUnicode : Int) (LineIdx : Nat) : Option Int :=
  if (LineIdx : Int) < (Starts.length : Int) - 1 then
    match getAt Starts ((LineIdx : Int) + 1), getAt Starts (LineIdx : Int) with
    | some b, some a => some (b - a)
    | _, _ => none
  else
    match getAt Starts (LineIdx : Int) with
    | some a => some (NumUnicode - a)
    | none => none

/-- The loop `for (LineIdx = 0; LineIdx < OutLineStartIndices.Num(); ++LineIdx)`
(lines 589-601 and 684-696). -/
def buildLineCounts (Starts : List Int) (NumUnicode : Int) : Option (List Int) :=
  (List.range Starts.length).mapM (lineCountAt Starts NumUnicode)

/-- What both functions do after their main loop: flush the pending word and derive the
per-line counts. -/
def finish (st : ProcState) : Option LayoutResult :=
  let st1 := flushWord st
  match buildLineCounts st1.OutLineStartIndices (st1.OutUnicode.length : Int) with
  | none => none
  | some Counts =>
    some
      { Unicode := st1.OutUnicode
        CharacterPositions := st1.OutCharacterPositions
        LineStartIndices := st1.OutLineStartIndices
        LineCharacterCounts := Counts
        WordStartIndices := st1.OutWordStartIndices
        WordCharacterCounts := st1.OutWordCharacterCounts }

/-- `UNTPDataInterface::ProcessTextWithWhitespace` (lines 514-602), the Keep-Whitespace
pipeline. -/
def ProcessTextWithWhitespace (InputText : List Int)
    (CharacterPositionsUnfiltered : List FVector2f) : Option LayoutResult :=
  match keepLoop CharacterPositionsUnfiltered InputText 0 initState with
  | none => none
  | some st => finish st

/-- `UNTPDataInterface::ProcessTextWithoutWhitespace` (lines 604-697), the Drop-Whitespace
pipeline. -/
def ProcessTextWithoutWhitespace (InputText : List Int)
    (CharacterPositionsUnfiltered : List FVector2f) : Option LayoutResult :=
  match dropLoop CharacterPositionsUnfiltered InputText 0 initState with
  | none => none
  | some st => finish st

/-! ## The layout driver: `GetCharacterPositions` and its helpers -/

/-- `ENTPTextHorizontalAlignment` as used by the `switch` of lines 458-475. -/
inductive ENTPTextHorizontalAlignment where
  | NTP_THA_Left
  | NTP_THA_Center
  | NTP_THA_Right
deriving DecidableEq, Repr

/-- `ENTPTextVerticalAlignment` as used by the `switch` of lines 484-501. -/
inductive ENTPTextVerticalAlignment where
  | NTP_TVA_Top
  | NTP_TVA_Center
  | NTP_TVA_Bottom
deriving DecidableEq, Repr

/-- The Line Splitter loop (lines 413-442). Arguments: the text from index `i` on,
`CurrentLine`, `LinesUnfiltered`; result: `LinesUnfiltered` and `CurrentLine` after the
loop. -/
def splitLoop : List Int → List Int → List (List Int) → List (List Int) × List Int
  | [], CurrentLine, Lines => (Lines, CurrentLine)
  | Code :: rest, CurrentLine, Lines =>
    let Current1 := CurrentLine ++ [Code]
    if Code = CR then
      match rest with
      | [] => splitLoop [] [] (Lines ++ [Current1])
      | Next :: rest2 =>
        if Next = LF then
          splitLoop rest2 [] (Lines ++ [Current1 ++ [LF]])
        else
          splitLoop (Next :: rest2) [] (Lines ++ [Current1])
    else if Code = LF then
      splitLoop rest [] (Lines ++ [Current1])
    else
      splitLoop rest Current1 Lines

/-- The Line Splitter (lines 407-449): `LinesUnfiltered` from `UnicodeUnfiltered`. -/
def splitLines (UnicodeUnfiltered : List Int) : List (List Int) :=
  if 0 < UnicodeUnfiltered.length then
    let r := splitLoop UnicodeUnfiltered [] []
    if !r.2.isEmpty then r.1 ++ [r.2] else r.1
  else []

/-- The guarded width read
`float W = 0.0f; if (UVRects.IsValidIndex(Code)) W = (float)UVRects[Code].X;`. -/
def charWidth (UVRects : List FVector4) (Code : Int) : Option ℚ :=
  if IsValidIndex UVRects Code then
    match getAt UVRects Code with
    | some R => some R.X
    | none => none
  else some 0

/-- Inner loop of `BuildHorizontalLineMetrics` (lines 712-723) for one line. Arguments:
the line from index `j` on, `CumulativeWidth`, the row filled so far. -/
def cumulativeWidths (UVRects : List FVector4) : List Int → ℚ → List ℚ → Option (List ℚ)
  | [], _, Row => some Row
  | Code :: rest, CumulativeWidth, Row =>
    match charWidth UVRects Code with
    | none => none
    | some Width =>
      cumulativeWidths UVRects rest (CumulativeWidth + Width) (Row ++ [CumulativeWidth + Width])

/-- `UNTPDataInterface::BuildHorizontalLineMetrics` (lines 699-725). -/
def BuildHorizontalLineMetrics (UVRects : List FVector4) (Lines : List (List Int)) :
    Option (List (List ℚ)) :=
  Lines.mapM (fun Line => cumulativeWidths UVRects Line 0 [])

/-- The loop computing `GlobalMaxHeight` (lines 737-745). -/
def globalMaxHeight (UVRects : List FVector4) : ℚ :=
  UVRects.foldl (fun GlobalMaxHeight R => if R.Y > GlobalMaxHeight then R.Y else GlobalMaxHeight) 0

/-- The loop filling `OutCumulativeHeightsPerLine` (lines 749-754). -/
def cumulativeHeights (LineHeight : ℚ) : List (List Int) → ℚ → List ℚ → List ℚ
  | [], _, Out => Out
  | _ :: rest, CumulativeHeight, Out =>
    cumulativeHeights LineHeight rest (CumulativeHeight + LineHeight)
      (Out ++ [CumulativeHeight + LineHeight])

/-- `UNTPDataInterface::BuildVerticalLineMetrics` (lines 727-755): the pair
`(OutCumulativeHeightsPerLine, OutLineHeight)`. -/
def BuildVerticalLineMetrics (UVRects : List FVector4) (Lines : List (List Int)) :
    List ℚ × ℚ :=
  (cumulativeHeights (globalMaxHeight UVRects) Lines 0 [], globalMaxHeight UVRects)

/-- The loop over the characters of line `i` shared by the three horizontal functions
(lines 769-779, 804-814, 839-849); `Offset` is the expression of line 777, 812 or 847 as a
function of `CumulativeWidthsPerCharacter[i][j]` and `CharWidth`. -/
def horizontalLineLoop (UVRects : List FVector4) (CW : List (List ℚ)) (Offset : ℚ → ℚ → ℚ)
    (i : Nat) : List Int → Nat → List ℚ → Option (List ℚ)
  | [], _, Out => some Out
  | Code :: rest, j, Out =>
    match charWidth UVRects Code with
    | none => none
    | some CharWidth =>
      match CW[i]? with
      | none => none
      | some Row =>
        match Row[j]? with
        | none => none
        | some C =>
          horizontalLineLoop UVRects CW Offset i rest (j + 1) (Out ++ [Offset C CharWidth])

/-- Loop over the lines of `GetHorizontalPositionsLeftAligned` (lines 765-780). -/
def leftLoop (UVRects : List FVector4) (CW : List (List ℚ)) :
    List (List Int) → Nat → List ℚ → Option (List ℚ)
  | [], _, Out => some Out
  | Line :: rest, i, Out =>
    match horizontalLineLoop UVRects CW (fun C CharWidth => C - CharWidth * (1 / 2)) i Line 0 Out with
    | none => none
    | some Out1 => leftLoop UVRects CW rest (i + 1) Out1

/-- `UNTPDataInterface::GetHorizontalPositionsLeftAligned` (lines 757-783). -/
def GetHorizontalPositionsLeftAligned (UVRects : List FVector4) (_Unicode : List Int)
    (Lines : List (List Int)) : Option (List ℚ) :=
  match BuildHorizontalLineMetrics UVRects Lines with
  | none => none
  | some CW => leftLoop UVRects CW Lines 0 []

/-- Read of `CumulativeWidthsPerCharacter[i][Line.Num() - 1]` (lines 802 and 837). -/
def lineTotalWidth (CW : List (List ℚ)) (i : Nat) (Line : List Int) : Option ℚ :=
  match CW[i]? with
  | none => none
  | some Row => getAt Row ((Line.length : Int) - 1)

/-- Loop over the lines of `GetHorizontalPositionsCenterAligned` (lines 793-815). -/
def centerLoop (UVRects : List FVector4) (CW : List (List ℚ)) :
    List (List Int) → Nat → List ℚ → Option (List ℚ)
  | [], _, Out => some Out
  | Line :: rest, i, Out =>
    if Line.length = 0 then
      centerLoop UVRects CW rest (i + 1) Out
    else
      match lineTotalWidth CW i Line with
      | none => none
      | some Total =>
        match horizontalLineLoop UVRects CW
            (fun C CharWidth => C - Total * (1 / 2) - CharWidth * (1 / 2)) i Line 0 Out with
        | none => none
        | some Out1 => centerLoop UVRects CW rest (i + 1) Out1

/-- `UNTPDataInterface::GetHorizontalPositionsCenterAligned` (lines 785-818). -/
def GetHorizontalPositionsCenterAligned (UVRects : List FVector4) (_Unicode : List Int)
    (Lines : List (List Int)) : Option (List ℚ) :=
  match BuildHorizontalLineMetrics UVRects Lines with
  | none => none
  | some CW => centerLoop UVRects CW Lines 0 []

/-- Loop over the lines of `GetHorizontalPositionsRightAligned` (lines 828-850). -/
def rightLoop (UVRects : List FVector4) (CW : List (List ℚ)) :
    List (List Int) → Nat → List ℚ → Option (List ℚ)
  | [], _, Out => some Out
  | Line :: rest, i, Out =>
    if Line.length = 0 then
      rightLoop UVRects CW rest (i + 1) Out
    else
      match lineTotalWidth CW i Line with
      | none => none
      | some LineTotalWidth =>
        match horizontalLineLoop UVRects CW
            (fun C CharWidth => C - CharWidth * (1 / 2) - LineTotalWidth) i Line 0 Out with
        | none => none
        | some Out1 => rightLoop UVRects CW rest (i + 1) Out1

/-- `UNTPDataInterface::GetHorizontalPositionsRightAligned` (lines 820-853). -/
def GetHorizontalPositionsRightAligned (UVRects : List FVector4) (_Unicode : List Int)
    (Lines : List (List Int)) : Option (List ℚ) :=
  match BuildHorizontalLineMetrics UVRects Lines with
  | none => none
  | some CW => rightLoop UVRects CW Lines 0 []

/-- The loop over the lines shared by the three vertical functions (lines 866-875, 890-899,
917-926); `Offset` is the expression of line 869, 893 or 920 as a function of
`CumulativeHeightsPerLine[i]`. The inner loop adds the same value once per character. -/
def verticalLoop (CH : List ℚ) (Offset : ℚ → ℚ) :
    List (List Int) → Nat → List ℚ → Option (List ℚ)
  | [], _, Out => some Out
  | Line :: rest, i, Out =>
    match CH[i]? with
    | none => none
    | some H => verticalLoop CH Offset rest (i + 1) (Out ++ List.replicate Line.length (Offset H))

/-- `UNTPDataInterface::GetVerticalPositionsTopAligned` (lines 855-878). -/
def GetVerticalPositionsTopAligned (UVRects : List FVector4) (_Unicode : List Int)
    (Lines : List (List Int)) : Option (List ℚ) :=
  let CH := (BuildVerticalLineMetrics UVRects Lines).1
  let LineHeight := (BuildVerticalLineMetrics UVRects Lines).2
  let FirstLineHalfHeight := LineHeight * (1 / 2)
  verticalLoop CH (fun H => H - LineHeight * (1 / 2) - FirstLineHalfHeight) Lines 0 []

/-- `UNTPDataInterface::GetVerticalPositionsCenterAligned` (lines 880-902). -/
def GetVerticalPositionsCenterAligned (UVRects : List FVector4) (_Unicode : List Int)
    (Lines : List (List Int)) : Option (List ℚ) :=
  let CH := (BuildVerticalLineMetrics UVRects Lines).1
  let LineHeight := (BuildVerticalLineMetrics UVRects Lines).2
  match getAt CH ((Lines.length : Int) - 1) with
  | none => none
  | some Last =>
    let HalfTotalHeight := Last * (1 / 2)
    verticalLoop CH (fun H => H - HalfTotalHeight - LineHeight * (1 / 2)) Lines 0 []

/-- `UNTPDataInterface::GetVerticalPositionsBottomAligned` (lines 904-929). -/
def GetVerticalPositionsBottomAligned (UVRects : List FVector4) (_Unicode : List Int)
    (Lines : List (List Int)) : Option (List ℚ) :=
  let CH := (BuildVerticalLineMetrics UVRects Lines).1
  let LineHeight := (BuildVerticalLineMetrics UVRects Lines).2
  let LastLineIndex : Int := if 0 < Lines.length then (Lines.length : Int) - 1 else 0
  let Anchor : Option ℚ :=
    if 0 < Lines.length then
      match getAt CH LastLineIndex with
      | none => none
      | some Last => some (Last - LineHeight * (1 / 2))
    else some 0
  match Anchor with
  | none => none
  | some A => verticalLoop CH (fun H => H - LineHeight * (1 / 2) - A) Lines 0 []

/-- `Anchor` of `GetVerticalPositionsBottomAligned` (lines 914-915). -/
def bottomAnchor (UVRects : List FVector4) (Lines : List (List Int)) : Option ℚ :=
  let CH := (BuildVerticalLineMetrics UVRects Lines).1
  let LineHeight := (BuildVerticalLineMetrics UVRects Lines).2
  let LastLineIndex : Int := if 0 < Lines.length then (Lines.length : Int) - 1 else 0
  if 0 < Lines.length then
    match getAt CH LastLineIndex with
    | none => none
    | some Last => some (Last - LineHeight * (1 / 2))
  else some 0

/-- `HorizontalPositions` of `GetCharacterPositions` (lines 453-476). -/
def horizontalPositions (UVRects : List FVector4) (UnicodeUnfiltered : List Int)
    (LinesUnfiltered : List (List Int)) (XAlignment : ENTPTextHorizontalAlignment) :
    Option (List ℚ) :=
  if 0 < LinesUnfiltered.length then
    match XAlignment with
    | .NTP_THA_Left => GetHorizontalPositionsLeftAligned UVRects UnicodeUnfiltered LinesUnfiltered
    | .NTP_THA_Center => GetHorizontalPositionsCenterAligned UVRects UnicodeUnfiltered LinesUnfiltered
    | .NTP_THA_Right => GetHorizontalPositionsRightAligned UVRects UnicodeUnfiltered LinesUnfiltered
  else some []

/-- `VerticalPositions` of `GetCharacterPositions` (lines 479-502). -/
def verticalPositions (UVRects : List FVector4) (UnicodeUnfiltered : List Int)
    (LinesUnfiltered : List (List Int)) (YAlignment : ENTPTextVerticalAlignment) :
    Option (List ℚ) :=
  if 0 < LinesUnfiltered.length then
    match YAlignment with
    | .NTP_TVA_Top => GetVerticalPositionsTopAligned UVRects UnicodeUnfiltered LinesUnfiltered
    | .NTP_TVA_Center => GetVerticalPositionsCenterAligned UVRects UnicodeUnfiltered LinesUnfiltered
    | .NTP_TVA_Bottom => GetVerticalPositionsBottomAligned UVRects UnicodeUnfiltered LinesUnfiltered
  else some []

/-- The final loop of `GetCharacterPositions` (lines 504-509), one round:
`FVector2f(HorizontalPositions[i], VerticalPositions[i])`. -/
def zipAt (HorizontalPositions VerticalPositions : List ℚ) (i : Nat) : Option FVector2f :=
  match HorizontalPositions[i]?, VerticalPositions[i]? with
  | some x, some y => some ⟨x, y⟩
  | _, _ => none

/-- `UNTPDataInterface::GetCharacterPositions` (lines 388-512). `UnicodeUnfiltered` is the
text itself (lines 390-403 copy it code by code). -/
def GetCharacterPositions (UVRects : List FVector4) (InputString : List Int)
    (XAlignment : ENTPTextHorizontalAlignment) (YAlignment : ENTPTextVerticalAlignment) :
    Option (List FVector2f) :=
  let UnicodeUnfiltered := InputString
  let NumCharsUnfiltered := UnicodeUnfiltered.length
  let LinesUnfiltered := splitLines UnicodeUnfiltered
  match horizontalPositions UVRects UnicodeUnfiltered LinesUnfiltered XAlignment with
  | none => none
  | some HorizontalPositions =>
    match verticalPositions UVRects UnicodeUnfiltered LinesUnfiltered YAlignment with
    | none => none
    | some VerticalPositions =>
      (List.range NumCharsUnfiltered).mapM (zipAt HorizontalPositions VerticalPositions)

/-- `UNTPDataInterface::InitPerInstanceData` (lines 331-363), the layout driver, with the
glyph table `GetUVRectsFromFont(FontAsset)` given as `UVRects`. -/
def InitPerInstanceData (UVRects : List FVector4) (InputText : List Int)
    (HorizontalAlignment : ENTPTextHorizontalAlignment)
    (VerticalAlignment : ENTPTextVerticalAlignment) (bSpawnWhitespaceCharacters : Bool) :
    Option LayoutResult :=
  match GetCharacterPositions UVRects InputText HorizontalAlignment VerticalAlignment with
  | none => none
  | some CharacterPositionsUnfiltered =>
    if bSpawnWhitespaceCharacters then
      ProcessTextWithWhitespace InputText CharacterPositionsUnfiltered
    else
      ProcessTextWithoutWhitespace InputText CharacterPositionsUnfiltered

/-! ## The accessors called by the particle scripts -/

/-- The `FVector3f` of the engine. -/
structure FVector3f where
  X : ℚ
  Y : ℚ
  Z : ℚ
deriving DecidableEq, Repr, Inhabited

/-- `FNDIFontUVInfoInstanceData` (lines 36-45): the per-instance data the accessors read. -/
structure FNDIFontUVInfoInstanceData where
  UVRects : List FVector4
  Unicode : List Int
  CharacterPositions : List FVector2f
  LineStartIndices : List Int
  LineCharacterCounts : List Int
  WordStartIndices : List Int
  WordCharacterCounts : List Int
deriving DecidableEq, Repr

/-- The instance data `InitPerInstanceData` stores (lines 335 and 355-360): the glyph table
and the six arrays of the layout result. -/
def instanceDataOf (UVRects : List FVector4) (r : LayoutResult) : FNDIFontUVInfoInstanceData :=
  { UVRects := UVRects
    Unicode := r.Unicode
    CharacterPositions := r.CharacterPositions
    LineStartIndices := r.LineStartIndices
    LineCharacterCounts := r.LineCharacterCounts
    WordStartIndices := r.WordStartIndices
    WordCharacterCounts := r.WordCharacterCounts }

/-- `FMath::Clamp` of the engine on `int32`. -/
def Clamp (X Min Max : Int) : Int :=
  if X < Min then Min else if X < Max then X else Max

/-- One round of the loop of `UNTPDataInterface::GetCharacterUVVM` (lines 1213-1248): the
four outputs `(USize, VSize, UStart, VStart)` for `CharacterIndex`. -/
def GetCharacterUVVM (D : FNDIFontUVInfoInstanceData) (CharacterIndex : Int) :
    Option FVector4 :=
  let NumRects : Int := (D.UVRects.length : Int)
  let UnicodeIndex : Option Int :=
    if IsValidIndex D.Unicode CharacterIndex then getAt D.Unicode CharacterIndex else some (-1)
  match UnicodeIndex with
  | none => none
  | some UnicodeIndex =>
    if NumRects > 0 ∧ UnicodeIndex ≥ 0 ∧ UnicodeIndex < NumRects then
      match getAt D.UVRects UnicodeIndex with
      | none => none
      | some UVRect => some ⟨UVRect.X, UVRect.Y, UVRect.Z, UVRect.W⟩
    else some ⟨0, 0, 0, 0⟩

/-- One round of the loop of `UNTPDataInterface::GetCharacterPositionVM`
(lines 1260-1280): the output `OutPosition` for `Index`. -/
def GetCharacterPositionVM (D : FNDIFontUVInfoInstanceData) (Index : Int) : Option FVector3f :=
  let NumChars : Int := (D.Unicode.length : Int)
  if NumChars ≤ 0 then some ⟨0, 0, 0⟩
  else
    let Index1 := Clamp Index 0 (NumChars - 1)
    let Position2 : Option FVector2f :=
      if IsValidIndex D.CharacterPositions Index1 then getAt D.CharacterPositions Index1
      else some ⟨0, 0⟩
    match Position2 with
    | none => none
    | some P => some ⟨0, -P.X, -P.Y⟩

/-- `UNTPDataInterface::GetTextCharacterCountVM` (lines 1283-1294): the output `OutLen`. -/
def GetTextCharacterCountVM (D : FNDIFontUVInfoInstanceData) : Int :=
  (D.Unicode.length : Int)

/-- `UNTPDataInterface::GetTextLineCountVM` (lines 1296-1307): the output
`OutTotalLines`. -/
def GetTextLineCountVM (D : FNDIFontUVInfoInstanceData) : Int :=
  (D.LineStartIndices.length : Int)

/-- One round of the loop of `UNTPDataInterface::GetLineCharacterCountVM`
(lines 1318-1330): the output `OutLineCharacterCount` for `LineIndex`. -/
def GetLineCharacterCountVM (D : FNDIFontUVInfoInstanceData) (LineIndex : Int) : Option Int :=
  let NumLines : Int := (D.LineStartIndices.length : Int)
  if NumLines > 0 ∧ LineIndex ≥ 0 ∧ LineIndex < NumLines ∧
      IsValidIndex D.LineCharacterCounts LineIndex = true then
    getAt D.LineCharacterCounts LineIndex
  else some 0

/-- `UNTPDataInterface::GetTextWordCountVM` (lines 1333-1344): the output
`OutWordCount`. -/
def GetTextWordCountVM (D : FNDIFontUVInfoInstanceData) : Int :=
  (D.WordStartIndices.length : Int)

/-- One round of the loop of `UNTPDataInterface::GetWordCharacterCountVM`
(lines 1355-1367): the output `OutWordCharacterCount` for `WordIndex`. -/
def GetWordCharacterCountVM (D : FNDIFontUVInfoInstanceData) (WordIndex : Int) : Option Int :=
  let NumWords : Int := (D.WordStartIndices.length : Int)
  if NumWords > 0 ∧ WordIndex ≥ 0 ∧ WordIndex < NumWords ∧
      IsValidIndex D.WordCharacterCounts WordIndex = true then
    getAt D.WordCharacterCounts WordIndex
  else some 0

/-! ## The upload of the line arrays to the render thread -/

/-- The conversion `(uint32)x` of an `int32` value `x` (lines 224 and 250): the value
modulo 2^32. -/
def castUInt32 (x : Int) : Nat :=
  (x % 4294967296).toNat

/-- The content of `TempLineStartIndices` and of `TempLineCounts` in
`FNDIFontUVInfoProxy::ConsumePerInstanceDataFromGameThread` (lines 218-230 and 244-256): the
entries of the array converted to `uint32`, or the single entry 0 when the array is empty. -/
def uploadUInt32 (Values : List Int) : List Nat :=
  if 0 < Values.length then Values.map castUInt32 else [0]

/-! ## Auxiliary definitions used in the statements and proofs -/

/-- Closed form of the per-line counts: consecutive differences of the start indices, the
last entry being `NumUnicode - lastStart`. -/
def lineCountsOf (NumUnicode : Int) : List Int → List Int
  | [] => []
  | [a] => [NumUnicode - a]
  | a :: b :: rest => (b - a) :: lineCountsOf NumUnicode (b :: rest)

/-- The line starts `keepLoop` adds while it scans the text from index `i` on. -/
def keepLineStarts : List Int → Nat → List Int
  | [], _ => []
  | Code :: rest, i =>
    if Code = LF then (i : Int) :: keepLineStarts rest (i + 1)
    else if Code = CR then
      match rest with
      | [] => [(i : Int)]
      | Next :: rest2 =>
        if Next = LF then ((i + 1 : Nat) : Int) :: keepLineStarts rest2 (i + 1 + 1)
        else (i : Int) :: keepLineStarts (Next :: rest2) (i + 1)
    else keepLineStarts rest (i + 1)

/-- The line starts `dropLoop` adds while it scans the text, `e` characters having been
emitted so far. -/
def dropLineStarts : List Int → Nat → List Int
  | [], _ => []
  | Code :: rest, e =>
    if Code = LF then (e : Int) :: dropLineStarts rest e
    else if Code = CR then
      match rest with
      | [] => [(e : Int)]
      | Next :: rest2 =>
        if Next = LF then (e : Int) :: dropLineStarts rest2 e
        else (e : Int) :: dropLineStarts (Next :: rest2) e
    else if IsWhitespaceChar Code then dropLineStarts rest e
    else dropLineStarts rest (e + 1)

/-- The run that is closed when a whitespace character or the end of the text is met. -/
def closeRun (cur : Option (Nat × List Int)) : List (Nat × List Int) :=
  match cur with
  | none => []
  | some w => [w]

/-- The run that is open after a non-whitespace character `c` met at emitted index `idx`. -/
def extendRun (cur : Option (Nat × List Int)) (idx : Nat) (c : Int) : Nat × List Int :=
  match cur with
  | none => (idx, [c])
  | some w => (w.1, w.2 ++ [c])

/-- The maximal runs of non-whitespace characters of a text, each with the index of its
first character among the emitted characters. `adv` tells whether whitespace is emitted
(and so advances the index), `idx` is the index of the next emitted character and `cur`
the run that is open on entry. -/
def runsAux (adv : Bool) : List Int → Nat → Option (Nat × List Int) → List (Nat × List Int)
  | [], _, cur => closeRun cur
  | c :: rest, idx, cur =>
    if IsWhitespaceChar c then
      closeRun cur ++ runsAux adv rest (if adv then idx + 1 else idx) none
    else
      runsAux adv rest (idx + 1) (some (extendRun cur idx c))

/-- The word state of the loop describes the open run `cur`. -/
def Link (st : ProcState) (cur : Option (Nat × List Int)) : Prop :=
  match cur with
  | none => st.bInsideWord = false
  | some w =>
    st.bInsideWord = true ∧ st.CurrentWordStartIndex = (w.1 : Int) ∧
      st.CurrentWordCharCount = (w.2.length : Int)

/-- The characters of a text that are not whitespace. -/
def nonWhitespace (Text : List Int) : List Int :=
  Text.filter (fun c => !IsWhitespaceChar c)

/-- The positions of the characters of a text that are not whitespace, `Pos` holding one
position per character. -/
def nonWhitespacePositions (Text : List Int) (Pos : List FVector2f) : List FVector2f :=
  ((Text.zip Pos).filter (fun p => !IsWhitespaceChar p.1)).map Prod.snd

/-- Number of LF of a text that are not immediately preceded by a CR; `Prev` is the code
that stands before the text, if any. -/
def countLoneLF (Prev : Option Int) : List Int → Nat
  | [] => 0
  | c :: rest => (if c = LF ∧ Prev ≠ some CR then 1 else 0) + countLoneLF (some c) rest

/-- Number of CR of a text that are not immediately followed by a LF. -/
def countLoneCR : List Int → Nat
  | [] => 0
  | c :: rest => (if c = CR ∧ rest.head? ≠ some LF then 1 else 0) + countLoneCR rest

/-- Number of CR LF pairs of a text. -/
def countCRLF : List Int → Nat
  | [] => 0
  | c :: rest => (if c = CR ∧ rest.head? = some LF then 1 else 0) + countCRLF rest

/-- Number of newline events of a text, in the words of the specification: an LF not
immediately preceded by CR, a CR not immediately followed by LF, or a CR LF pair counted
once. -/
def newlineEvents (Text : List Int) : Nat :=
  countLoneLF none Text + countLoneCR Text + countCRLF Text

/-- The whitespace characters in the words of the specification: space, tab, LF, CR. -/
def isSpaceTabLFCR (c : Int) : Bool :=
  decide (c = SPACE ∨ c = TAB ∨ c = LF ∨ c = CR)

/-- The maximal runs of non-whitespace characters of a text, in order: the text is cut at
every whitespace character and the empty pieces are dropped. -/
def wordRuns (Text : List Int) : List (List Int) :=
  (Text.splitOnP isSpaceTabLFCR).filter (fun w => !w.isEmpty)

/-- The word arrays of a result describe the runs `Runs`: there are as many words as runs,
and for every `k` the `wordCounts[k]` codes starting at index `wordStarts[k]` are the
characters of the `k`-th run. -/
def WordsAre (Runs : List (List Int)) (r : LayoutResult) : Prop :=
  r.WordStartIndices.length = Runs.length ∧
    r.WordCharacterCounts.length = Runs.length ∧
    ∀ (k : Nat) (hk : k < Runs.length),
      ∃ s n : Nat,
        r.WordStartIndices[k]? = some (s : Int) ∧
          r.WordCharacterCounts[k]? = some (n : Int) ∧
          n = (Runs[k]).length ∧ (r.Unicode.drop s).take n = Runs[k]

/-- The characters of a text that a pipeline emits: all of them when whitespace is kept
(`adv = true`), the non-whitespace ones otherwise. -/
def emitted (adv : Bool) (Text : List Int) : List Int :=
  if adv then Text else nonWhitespace Text

/-- The characters of the open run. -/
def openChars (cur : Option (Nat × List Int)) : List Int :=
  match cur with
  | none => []
  | some w => w.2

/-- The lines the Line Splitter produces from the remaining text when `CurrentLine` holds
`cur`: the lines closed by the loop, then the final line if it is not empty. -/
def linesFrom : List Int → List Int → List (List Int)
  | [], cur => if cur.isEmpty then [] else [cur]
  | Code :: rest, cur =>
    if Code = CR then
      match rest with
      | [] => [cur ++ [Code]]
      | Next :: rest2 =>
        if Next = LF then (cur ++ [Code] ++ [LF]) :: linesFrom rest2 []
        else (cur ++ [Code]) :: linesFrom (Next :: rest2) []
    else if Code = LF then (cur ++ [Code]) :: linesFrom rest []
    else linesFrom rest (cur ++ [Code])

/-- The width of a code: the `X` entry of the glyph table when the code is a valid index
of the table, 0 otherwise. -/
def widthOf (UVRects : List FVector4) (Code : Int) : ℚ :=
  if IsValidIndex UVRects Code then (UVRects.getD Code.toNat default).X else 0

/-- The running sums of the widths of the characters of a line, starting from `acc`. -/
def cumulativeWidthsOf (UVRects : List FVector4) : List Int → ℚ → List ℚ
  | [], _ => []
  | c :: rest, acc =>
    (acc + widthOf UVRects c) :: cumulativeWidthsOf UVRects rest (acc + widthOf UVRects c)

/-- The horizontal offsets of the characters of one line, for the offset expression
`Offset` applied to the cumulative width and the width of each character. -/
def lineOffsets (UVRects : List FVector4) (Offset : ℚ → ℚ → ℚ) (Line : List Int) : List ℚ :=
  List.zipWith (fun C c => Offset C (widthOf UVRects c)) (cumulativeWidthsOf UVRects Line 0) Line

/-- The total width of a line: its last cumulative width. -/
def totalWidthOf (UVRects : List FVector4) (Line : List Int) : ℚ :=
  (cumulativeWidthsOf UVRects Line 0).getD (Line.length - 1) 0

/-- The running sums of the line height, one per line, starting from `acc`. -/
def cumulativeHeightsOf (LineHeight : ℚ) : List (List Int) → ℚ → List ℚ
  | [], _ => []
  | _ :: rest, acc => (acc + LineHeight) :: cumulativeHeightsOf LineHeight rest (acc + LineHeight)

/-- The vertical offsets of the characters of the lines `Lines`, line `k` having the
cumulative height `Heights[k]`: the offset of a line, once per character. -/
def columnOffsets (Offset : ℚ → ℚ) (Heights : List ℚ) (Lines : List (List Int)) : List ℚ :=
  (List.zipWith (fun H Line => List.replicate Line.length (Offset H)) Heights Lines).flatten

/-- The width of a line: the sum of the widths of its characters. -/
def lineWidth (UVRects : List FVector4) (Line : List Int) : ℚ :=
  (Line.map (widthOf UVRects)).sum

/-- The Left-aligned offset of character `j` of a line, in the words of the specification:
the sum of the widths of the characters `0..j` of the line minus half the width of
character `j`. -/
def leftOffset (UVRects : List FVector4) (Line : List Int) (j : Nat) : ℚ :=
  ((Line.take (j + 1)).map (widthOf UVRects)).sum - widthOf UVRects (Line.getD j 0) / 2

/-- A horizontal layout given character by character: one entry per character of the
lines, in line order, the entry of character `j` of a line `Line` being `offset Line j`. -/
def perCharacter (Lines : List (List Int)) (offset : List Int → Nat → ℚ) : List ℚ :=
  (Lines.map (fun Line => (List.range Line.length).map (offset Line))).flatten

/-- The number `h` is the maximum height entry of the table: it is the height of an entry
and no entry is higher. -/
def IsMaxHeight (UVRects : List FVector4) (h : ℚ) : Prop :=
  (∃ R ∈ UVRects, R.Y = h) ∧ ∀ R ∈ UVRects, R.Y ≤ h

/-- The cumulative height of line `i` for the line height `LineHeight`, in the words of the
specification: (line index + 1) × lineHeight. -/
def cumulativeHeightAt (LineHeight : ℚ) (i : Nat) : ℚ :=
  ((i : ℚ) + 1) * LineHeight

/-- A vertical layout given line by line, the first line having the index `i`: one entry
per character of the lines, in line order, every character of line `k` getting `offset k`. -/
def perLineFrom (offset : Nat → ℚ) : List (List Int) → Nat → List ℚ
  | [], _ => []
  | Line :: rest, i => List.replicate Line.length (offset i) ++ perLineFrom offset rest (i + 1)

/-- A vertical layout given line by line: every character of line `k` gets `offset k`. -/
def perLine (Lines : List (List Int)) (offset : Nat → ℚ) : List ℚ :=
  perLineFrom offset Lines 0

/-- The Bottom-aligned offset of line `i` of `N` lines, in the words of the specification:
cumulativeHeight(i) − cumulativeHeight(N − 1). -/
def bottomOffset (LineHeight : ℚ) (N i : Nat) : ℚ :=
  cumulativeHeightAt LineHeight i - cumulativeHeightAt LineHeight (N - 1)

/-- The Center-aligned offset of line `i` of `N` lines, in the words of the specification:
cumulativeHeight(i) − cumulativeHeight(N − 1)/2 − lineHeight/2. -/
def centerOffset (LineHeight : ℚ) (N i : Nat) : ℚ :=
  cumulativeHeightAt LineHeight i - cumulativeHeightAt LineHeight (N - 1) / 2 - LineHeight / 2

/-- The text is not empty and its last character is neither LF nor CR: the text ends inside
a line that has no terminator. -/
def endsOpen (Text : List Int) : Bool :=
  match Text.getLast? with
  | some c => decide (c ≠ LF ∧ c ≠ CR)
  | none => false

/-- The start indices of consecutive blocks of the given lengths, the first block starting
at `base`. -/
def blockStarts (base : Nat) : List Nat → List Nat
  | [] => []
  | n :: ns => base :: blockStarts (base + n) ns

/-- The start of the open run if there is one, the index of the next emitted character
otherwise. -/
def runBase (cur : Option (Nat × List Int)) (idx : Nat) : Nat :=
  match cur with
  | none => idx
  | some w => w.1

/-- The runs are apart: every run starts at `lo` or later, ends at `total` or before, and
the next run starts after at least one more character. -/
def Spaced (total : Nat) : Nat → List (Nat × List Int) → Prop
  | _, [] => True
  | lo, p :: L => lo ≤ p.1 ∧ p.1 + p.2.length ≤ total ∧ Spaced total (p.1 + p.2.length + 1) L

/-- Number of whitespace characters among the first `s` characters of a text. -/
def whitespaceBefore (Text : List Int) (s : Nat) : Nat :=
  ((Text.take s).filter IsWhitespaceChar).length

/-- A run of the Keep-Whitespace scan of `Text`, seen from the Drop-Whitespace scan: same
characters, the start index counting only the non-whitespace characters before it. -/
def dropRun (Text : List Int) (p : Nat × List Int) : Nat × List Int :=
  ((nonWhitespace (Text.take p.1)).length, p.2)

/-- The line is a body that holds no LF and no CR, followed by the terminator `Term`. -/
def Terminated (Line Term : List Int) : Prop :=
  ∃ Body : List Int, Line = Body ++ Term ∧ ∀ c ∈ Body, c ≠ LF ∧ c ≠ CR

/-- The boundary shape of a list of lines: every line is a body without LF and CR followed
by a terminator `[LF]`, `[CR]` or `[CR, LF]`, the last line alone being allowed the empty
terminator, and a line with the terminator `[CR]` is not followed by a line that begins
with LF. -/
def LinesShape : List (List Int) → Prop
  | [] => True
  | Line :: rest =>
    (∃ Term : List Int, Terminated Line Term ∧
      (Term = [LF] ∨ Term = [CR] ∨ Term = [CR, LF] ∨ (Term = [] ∧ rest = [])) ∧
      (Term = [CR] → ∀ Next, rest.head? = some Next → Next.head? ≠ some LF)) ∧
    LinesShape rest

/-- The line arrays of a result are in order: the line starts begin with 0, are
non-decreasing and lie between 0 and the number of codes, the line counts lie between 0
and the number of codes, and the values uploaded as `uint32` for both arrays are the
entries themselves. -/
def LineArraysInOrder (r : LayoutResult) : Prop :=
  r.LineStartIndices.head? = some 0 ∧
    r.LineStartIndices.Pairwise (fun a b => a ≤ b) ∧
    (∀ x ∈ r.LineStartIndices, 0 ≤ x ∧ x ≤ (r.Unicode.length : Int)) ∧
    (∀ c ∈ r.LineCharacterCounts, 0 ≤ c ∧ c ≤ (r.Unicode.length : Int)) ∧
    (uploadUInt32 r.LineStartIndices).map (fun (n : Nat) => (n : Int)) = r.LineStartIndices ∧
    (uploadUInt32 r.LineCharacterCounts).map (fun (n : Nat) => (n : Int)) =
      r.LineCharacterCounts

/-! ## Sample inputs -/

/-- The text `ab cd`. -/
def textAbCd : List Int := [97, 98, 32, 99, 100]

/-- The text `a`, CR, LF, `b`. -/
def textCRLF : List Int := [97, 13, 10, 98]

/-- The text `a`, CR, `b`. -/
def textCR : List Int := [97, 13, 98]

/-- The text `a`, LF, `b`. -/
def textLF : List Int := [97, 10, 98]

/-- The text `a`, LF. -/
def textALF : List Int := [97, 10]

/-- A position array with `n` distinct entries: entry `k` is `(k, 2k)`. -/
def samplePositions (n : Nat) : List FVector2f :=
  (List.range n).map (fun k => ⟨(k : ℚ), 2 * (k : ℚ)⟩)

/-- A glyph table whose single entry has the height -1. -/
def tableNegative : List FVector4 := [⟨1, -1, 0, 0⟩]

/-- The text `ab`. -/
def textAB : List Int := [97, 98]

/-- Two positions for the text `ab`. -/
def positionsAB : List FVector2f := [⟨1, 0⟩, ⟨2, 0⟩]

/-- The layout result of the text `ab` with the positions `positionsAB`. -/
def resultAB : LayoutResult :=
  { Unicode := [97, 98]
    CharacterPositions := [⟨1, 0⟩, ⟨2, 0⟩]
    LineStartIndices := [0]
    LineCharacterCounts := [2]
    WordStartIndices := [0]
    WordCharacterCounts := [2] }

/-- A glyph table with the 98 entries 0..97, all 2 wide and 3 high: `a` (97) has an entry,
`b` (98) has none. -/
def letterTable : List FVector4 := List.replicate 98 ⟨2, 3, 0, 0⟩

/-- A glyph table with two entries: code 0 is 2 wide and 3 high, code 1 is 4 wide and 5
high. -/
def sampleTable : List FVector4 := [⟨2, 3, 0, 0⟩, ⟨4, 5, 0, 0⟩]

/-- Two lines over `sampleTable`: the codes 0, 1 and 7 (7 has no table entry), then the
code 1 alone. -/
def sampleLines : List (List Int) := [[0, 1, 7], [1]]

/-! ## Lemmas on the helpers -/

theorem mapM_eq_some_map {α β : Type} (f : α → Option β) (g : α → β) (l : List α)
    (h : ∀ x ∈ l, f x = some (g x)) : l.mapM f = some (l.map g) := by
  induction l with
  | nil => rfl
  | cons a l ih =>
    rw [List.mapM_cons, h a (by simp), ih (fun x hx => h x (by simp [hx]))]
    rfl

theorem mapM_map_comp {α β γ : Type} (f : β → Option γ) (g : α → β) (l : List α) :
    (l.map g).mapM f = l.mapM (f ∘ g) := by
  induction l with
  | nil => simp only [List.map_nil, List.mapM_nil]
  | cons a l ih => simp only [List.map_cons, List.mapM_cons, ih, Function.comp]

theorem getAt_natCast {α : Type} (xs : List α) (k : Nat) : getAt xs (k : Int) = xs[k]? := by
  simp [getAt]

theorem getAt_natCast_succ {α : Type} (xs : List α) (k : Nat) :
    getAt xs ((k : Int) + 1) = xs[k + 1]? := by
  have h : ((k : Int) + 1) = ((k + 1 : Nat) : Int) := by push_cast; rfl
  rw [h, getAt_natCast]

theorem scan_induction {P : List Int → Prop} (hnil : P [])
    (hcrlf : ∀ rest, P rest → P (CR :: LF :: rest))
    (hstep : ∀ c rest, (c = CR → rest.head? ≠ some LF) → P rest → P (c :: rest)) :
    ∀ l, P l := by
  have key : ∀ l, P l ∧ ∀ c, P (c :: l) := by
    intro l
    induction l with
    | nil => exact ⟨hnil, fun c => hstep c [] (by simp) hnil⟩
    | cons a l ih =>
      refine ⟨ih.2 a, fun c => ?_⟩
      by_cases h : c = CR ∧ a = LF
      · rw [h.1, h.2]; exact hcrlf l ih.1
      · refine hstep c (a :: l) (fun hc => ?_) (ih.2 a)
        simp only [List.head?_cons, ne_eq, Option.some.injEq]
        exact fun ha => h ⟨hc, ha⟩
  exact fun l => (key l).1

theorem lineCountAt_single (a n : Int) : lineCountAt [a] n 0 = some (n - a) := by
  simp [lineCountAt, getAt]

theorem lineCountAt_zero (a b : Int) (rest : List Int) (n : Int) :
    lineCountAt (a :: b :: rest) n 0 = some (b - a) := by
  have h : (0 : Int) < ((rest.length : Int) + 1 + 1) - 1 := by omega
  simp [lineCountAt, getAt, h]

theorem lineCountAt_succ (a b : Int) (rest : List Int) (n : Int) (k : Nat) :
    lineCountAt (a :: b :: rest) n (k + 1) = lineCountAt (b :: rest) n k := by
  unfold lineCountAt
  simp only [getAt_natCast, getAt_natCast_succ, List.length_cons, List.getElem?_cons_succ]
  by_cases h : (k : Int) < ((rest.length + 1 : Nat) : Int) - 1
  · have h2 : ((k + 1 : Nat) : Int) < ((rest.length + 1 + 1 : Nat) : Int) - 1 := by
      push_cast at h ⊢; omega
    rw [if_pos h, if_pos h2]
  · have h2 : ¬ ((k + 1 : Nat) : Int) < ((rest.length + 1 + 1 : Nat) : Int) - 1 := by
      push_cast at h ⊢; omega
    rw [if_neg h, if_neg h2]

theorem buildLineCounts_eq (Starts : List Int) (n : Int) :
    buildLineCounts Starts n = some (lineCountsOf n Starts) := by
  unfold buildLineCounts
  induction Starts with
  | nil => rfl
  | cons a rest ih =>
    cases rest with
    | nil =>
      simp only [List.length_singleton, List.range_succ_eq_map, List.range_zero, List.map_nil,
        List.mapM_cons, List.mapM_nil, lineCountAt_single, lineCountsOf]
      rfl
    | cons b rest =>
      have hcomp : lineCountAt (a :: b :: rest) n ∘ Nat.succ = lineCountAt (b :: rest) n := by
        funext k
        exact lineCountAt_succ a b rest n k
      rw [List.length_cons, List.range_succ_eq_map, List.mapM_cons, lineCountAt_zero,
        mapM_map_comp, hcomp, ih]
      rfl

theorem sum_lineCountsOf (n a : Int) (rest : List Int) :
    (lineCountsOf n (a :: rest)).sum = n - a := by
  induction rest generalizing a with
  | nil => simp [lineCountsOf]
  | cons b rest ih =>
    simp only [lineCountsOf, List.sum_cons, ih b]
    ring

theorem length_lineCountsOf (n : Int) (Starts : List Int) :
    (lineCountsOf n Starts).length = Starts.length := by
  induction Starts with
  | nil => rfl
  | cons a rest ih =>
    cases rest with
    | nil => rfl
    | cons b rest => simp only [lineCountsOf, List.length_cons, ih]

theorem finish_eq (st : ProcState) :
    finish st = some
      { Unicode := st.OutUnicode
        CharacterPositions := st.OutCharacterPositions
        LineStartIndices := st.OutLineStartIndices
        LineCharacterCounts := lineCountsOf (st.OutUnicode.length : Int) st.OutLineStartIndices
        WordStartIndices := (flushWord st).OutWordStartIndices
        WordCharacterCounts := (flushWord st).OutWordCharacterCounts } := by
  have h1 : (flushWord st).OutUnicode = st.OutUnicode := by
    unfold flushWord; split <;> rfl
  have h2 : (flushWord st).OutCharacterPositions = st.OutCharacterPositions := by
    unfold flushWord; split <;> rfl
  have h3 : (flushWord st).OutLineStartIndices = st.OutLineStartIndices := by
    unfold flushWord; split <;> rfl
  simp only [finish, buildLineCounts_eq, h1, h2, h3]

theorem keepLineStarts_LF (rest : List Int) (i : Nat) :
    keepLineStarts (LF :: rest) i = (i : Int) :: keepLineStarts rest (i + 1) := by
  rw [keepLineStarts.eq_def]; simp

theorem keepLineStarts_CRLF (rest : List Int) (i : Nat) :
    keepLineStarts (CR :: LF :: rest) i =
      ((i + 1 : Nat) : Int) :: keepLineStarts rest (i + 1 + 1) := by
  rw [keepLineStarts.eq_def]; simp

theorem keepLineStarts_CR (rest : List Int) (i : Nat) (h : rest.head? ≠ some LF) :
    keepLineStarts (CR :: rest) i = (i : Int) :: keepLineStarts rest (i + 1) := by
  rw [keepLineStarts.eq_def]
  cases rest with
  | nil => simp [keepLineStarts]
  | cons n rest2 =>
    have hn : n ≠ LF := by simpa using h
    simp [hn]

theorem keepLineStarts_other (c : Int) (rest : List Int) (i : Nat) (h1 : c ≠ LF)
    (h2 : c ≠ CR) : keepLineStarts (c :: rest) i = keepLineStarts rest (i + 1) := by
  rw [keepLineStarts.eq_def]; simp [h1, h2]

theorem dropLineStarts_LF (rest : List Int) (e : Nat) :
    dropLineStarts (LF :: rest) e = (e : Int) :: dropLineStarts rest e := by
  rw [dropLineStarts.eq_def]; simp

theorem dropLineStarts_CRLF (rest : List Int) (e : Nat) :
    dropLineStarts (CR :: LF :: rest) e = (e : Int) :: dropLineStarts rest e := by
  rw [dropLineStarts.eq_def]; simp

theorem dropLineStarts_CR (rest : List Int) (e : Nat) (h : rest.head? ≠ some LF) :
    dropLineStarts (CR :: rest) e = (e : Int) :: dropLineStarts rest e := by
  rw [dropLineStarts.eq_def]
  cases rest with
  | nil => simp [dropLineStarts]
  | cons n rest2 =>
    have hn : n ≠ LF := by simpa using h
    simp [hn]

theorem dropLineStarts_ws (c : Int) (rest : List Int) (e : Nat) (h1 : c ≠ LF)
    (h2 : c ≠ CR) (h3 : IsWhitespaceChar c = true) :
    dropLineStarts (c :: rest) e = dropLineStarts rest e := by
  rw [dropLineStarts.eq_def]; simp [h1, h2, h3]

theorem dropLineStarts_nonws (c : Int) (rest : List Int) (e : Nat)
    (h3 : IsWhitespaceChar c = false) :
    dropLineStarts (c :: rest) e = dropLineStarts rest (e + 1) := by
  have h1 : c ≠ LF := by intro h; subst h; exact absurd h3 (by decide)
  have h2 : c ≠ CR := by intro h; subst h; exact absurd h3 (by decide)
  rw [dropLineStarts.eq_def]; simp [h1, h2, h3]

theorem wordStep_OutUnicode (c idx : Int) (st : ProcState) :
    (wordStep c idx st).OutUnicode = st.OutUnicode := by
  unfold wordStep; split <;> split <;> rfl

theorem wordStep_OutCharacterPositions (c idx : Int) (st : ProcState) :
    (wordStep c idx st).OutCharacterPositions = st.OutCharacterPositions := by
  unfold wordStep; split <;> split <;> rfl

theorem wordStep_OutLineStartIndices (c idx : Int) (st : ProcState) :
    (wordStep c idx st).OutLineStartIndices = st.OutLineStartIndices := by
  unfold wordStep; split <;> split <;> rfl

theorem wordStep_FilteredIndex (c idx : Int) (st : ProcState) :
    (wordStep c idx st).FilteredIndex = st.FilteredIndex := by
  unfold wordStep; split <;> split <;> rfl

/-- Effect of the word bookkeeping on a whitespace character: the open run is closed. -/
theorem wordStep_ws (c idx : Int) (st : ProcState) (cur : Option (Nat × List Int))
    (hc : IsWhitespaceChar c = true) (hl : Link st cur) :
    Link (wordStep c idx st) none ∧
      (wordStep c idx st).OutWordStartIndices =
        st.OutWordStartIndices ++ (closeRun cur).map (fun p => (p.1 : Int)) ∧
      (wordStep c idx st).OutWordCharacterCounts =
        st.OutWordCharacterCounts ++ (closeRun cur).map (fun p => (p.2.length : Int)) := by
  cases cur with
  | none =>
    have hb : st.bInsideWord = false := hl
    simp [wordStep, hc, hb, Link, closeRun]
  | some w =>
    obtain ⟨hb, hs, hn⟩ := hl
    simp [wordStep, hc, hb, hs, hn, Link, closeRun]

/-- Effect of the word bookkeeping on a non-whitespace character met at emitted index
`idx`: the open run is extended, or a new one is opened at `idx`. -/
theorem wordStep_nonws (c : Int) (idx : Nat) (st : ProcState) (cur : Option (Nat × List Int))
    (hc : IsWhitespaceChar c = false) (hl : Link st cur) :
    Link (wordStep c (idx : Int) st) (some (extendRun cur idx c)) ∧
      (wordStep c (idx : Int) st).OutWordStartIndices = st.OutWordStartIndices ∧
      (wordStep c (idx : Int) st).OutWordCharacterCounts = st.OutWordCharacterCounts := by
  cases cur with
  | none =>
    have hb : st.bInsideWord = false := hl
    simp [wordStep, hc, hb, Link, extendRun]
  | some w =>
    obtain ⟨hb, hs, hn⟩ := hl
    simp [wordStep, hc, hb, hs, hn, Link, extendRun]

theorem flushWord_words (st : ProcState) (cur : Option (Nat × List Int)) (hl : Link st cur) :
    (flushWord st).OutWordStartIndices =
        st.OutWordStartIndices ++ (closeRun cur).map (fun p => (p.1 : Int)) ∧
      (flushWord st).OutWordCharacterCounts =
        st.OutWordCharacterCounts ++ (closeRun cur).map (fun p => (p.2.length : Int)) := by
  cases cur with
  | none =>
    have hb : st.bInsideWord = false := hl
    simp [flushWord, hb, closeRun]
  | some w =>
    obtain ⟨hb, hs, hn⟩ := hl
    simp [flushWord, hb, hs, hn, closeRun]

theorem take_drop_succ {α : Type} (Pos : List α) (i n : Nat) (P : α) (h : Pos[i]? = some P) :
    (Pos.drop i).take (n + 1) = P :: (Pos.drop (i + 1)).take n := by
  obtain ⟨hi, hP⟩ := List.getElem?_eq_some.mp h
  rw [List.drop_eq_getElem_cons hi, List.take_succ_cons, hP]

theorem getElem?_of_lt {α : Type} (Pos : List α) (i : Nat) (h : i < Pos.length) :
    ∃ P, Pos[i]? = some P := ⟨Pos[i], List.getElem?_eq_getElem h⟩

/-- What the main loop of `ProcessTextWithWhitespace` computes, when the position array
has an entry for every remaining character. -/
theorem keepLoop_spec (Pos : List FVector2f) (rest : List Int) :
    ∀ (i : Nat) (st : ProcState) (cur : Option (Nat × List Int)),
      i + rest.length ≤ Pos.length → Link st cur →
      ∃ st2, keepLoop Pos rest i st = some st2 ∧
        st2.OutUnicode = st.OutUnicode ++ rest ∧
        st2.OutCharacterPositions =
          st.OutCharacterPositions ++ (Pos.drop i).take rest.length ∧
        st2.OutLineStartIndices = st.OutLineStartIndices ++ keepLineStarts rest i ∧
        (flushWord st2).OutWordStartIndices =
          st.OutWordStartIndices ++ (runsAux true rest i cur).map (fun p => (p.1 : Int)) ∧
        (flushWord st2).OutWordCharacterCounts =
          st.OutWordCharacterCounts ++
            (runsAux true rest i cur).map (fun p => (p.2.length : Int)) := by
  induction rest using scan_induction with
  | hnil =>
    intro i st cur _ hl
    obtain ⟨h1, h2⟩ := flushWord_words st cur hl
    exact ⟨st, rfl, by simp, by simp, by simp [keepLineStarts], by simpa [runsAux] using h1,
      by simpa [runsAux] using h2⟩
  | hcrlf rest ih =>
    intro i st cur hlen hl
    simp only [List.length_cons] at hlen
    obtain ⟨P, hP⟩ := getElem?_of_lt Pos i (by omega)
    obtain ⟨P2, hP2⟩ := getElem?_of_lt Pos (i + 1) (by omega)
    obtain ⟨hl1, hw1, hw2⟩ := wordStep_ws CR (i : Int) st cur (by decide) hl
    have hl2 : Link (addLineStart ((i + 1 : Nat) : Int)
        (emit LF P2 (emit CR P (wordStep CR (i : Int) st)))) none := hl1
    obtain ⟨st2, hrun, hu, hp, hls, hws, hwc⟩ := ih (i + 1 + 1) _ none (by omega) hl2
    refine ⟨st2, ?_, ?_, ?_, ?_, ?_, ?_⟩
    · rw [keepLoop]
      simp only [hP, hP2]
      simpa using hrun
    · rw [hu]; simp [addLineStart, emit, wordStep_OutUnicode]
    · rw [hp, List.length_cons, List.length_cons, take_drop_succ Pos i _ P hP,
        take_drop_succ Pos (i + 1) _ P2 hP2]
      simp [addLineStart, emit, wordStep_OutCharacterPositions]
    · rw [hls, keepLineStarts_CRLF]; simp [addLineStart, emit, wordStep_OutLineStartIndices]
    · rw [hws]
      simp only [addLineStart, emit, hw1]
      simp [runsAux, IsWhitespaceChar, closeRun]
    · rw [hwc]
      simp only [addLineStart, emit, hw2]
      simp [runsAux, IsWhitespaceChar, closeRun]
  | hstep c rest hnot ih =>
    intro i st cur hlen hl
    simp only [List.length_cons] at hlen
    obtain ⟨P, hP⟩ := getElem?_of_lt Pos i (by omega)
    by_cases hws : IsWhitespaceChar c = true
    · obtain ⟨hl1, hw1, hw2⟩ := wordStep_ws c (i : Int) st cur hws hl
      by_cases hnl : c = LF ∨ c = CR
      · have hl2 : Link (addLineStart (i : Int) (emit c P (wordStep c (i : Int) st))) none := hl1
        obtain ⟨st2, hrun, hu, hp, hls, hws2, hwc⟩ := ih (i + 1) _ none (by omega) hl2
        refine ⟨st2, ?_, ?_, ?_, ?_, ?_, ?_⟩
        · rcases hnl with h | h
          · subst h; rw [keepLoop]; simp only [hP]; simpa using hrun
          · subst h
            have hh := hnot rfl
            cases rest with
            | nil => rw [keepLoop]; simp only [hP]; simpa using hrun
            | cons n rest2 =>
              have hn : n ≠ LF := by simpa using hh
              rw [keepLoop]; simp only [hP]; simpa [hn] using hrun
        · rw [hu]; simp [addLineStart, emit, wordStep_OutUnicode]
        · rw [hp, List.length_cons, take_drop_succ Pos i _ P hP]
          simp [addLineStart, emit, wordStep_OutCharacterPositions]
        · rw [hls]
          rcases hnl with h | h
          · subst h
            rw [keepLineStarts_LF]; simp [addLineStart, emit, wordStep_OutLineStartIndices]
          · subst h
            rw [keepLineStarts_CR _ _ (hnot rfl)]
            simp [addLineStart, emit, wordStep_OutLineStartIndices]
        · rw [hws2]
          simp only [addLineStart, emit, hw1]
          simp [runsAux, hws, closeRun]
        · rw [hwc]
          simp only [addLineStart, emit, hw2]
          simp [runsAux, hws, closeRun]
      · have hLF : c ≠ LF := fun h => hnl (Or.inl h)
        have hCR : c ≠ CR := fun h => hnl (Or.inr h)
        have hl2 : Link (emit c P (wordStep c (i : Int) st)) none := hl1
        obtain ⟨st2, hrun, hu, hp, hls, hws2, hwc⟩ := ih (i + 1) _ none (by omega) hl2
        refine ⟨st2, ?_, ?_, ?_, ?_, ?_, ?_⟩
        · rw [keepLoop]; simp only [hP]; simpa [hLF, hCR] using hrun
        · rw [hu]; simp [emit, wordStep_OutUnicode]
        · rw [hp, List.length_cons, take_drop_succ Pos i _ P hP]
          simp [emit, wordStep_OutCharacterPositions]
        · rw [hls, keepLineStarts_other c rest i hLF hCR]; simp [emit, wordStep_OutLineStartIndices]
        · rw [hws2]
          simp only [emit, hw1]
          simp [runsAux, hws, closeRun]
        · rw [hwc]
          simp only [emit, hw2]
          simp [runsAux, hws, closeRun]
    · have hws0 : IsWhitespaceChar c = false := by simpa using hws
      have hLF : c ≠ LF := by
        intro h; subst h; exact hws (by decide)
      have hCR : c ≠ CR := by
        intro h; subst h; exact hws (by decide)
      obtain ⟨hl1, hw1, hw2⟩ := wordStep_nonws c i st cur hws0 hl
      have hl2 : Link (emit c P (wordStep c (i : Int) st)) (some (extendRun cur i c)) := hl1
      obtain ⟨st2, hrun, hu, hp, hls, hws2, hwc⟩ := ih (i + 1) _ _ (by omega) hl2
      refine ⟨st2, ?_, ?_, ?_, ?_, ?_, ?_⟩
      · rw [keepLoop]; simp only [hP]; simpa [hLF, hCR] using hrun
      · rw [hu]; simp [emit, wordStep_OutUnicode]
      · rw [hp, List.length_cons, take_drop_succ Pos i _ P hP]
        simp [emit, wordStep_OutCharacterPositions]
      · rw [hls, keepLineStarts_other c rest i hLF hCR]; simp [emit, wordStep_OutLineStartIndices]
      · rw [hws2]
        simp only [emit, hw1]
        simp [runsAux, hws0, closeRun]
      · rw [hwc]
        simp only [emit, hw2]
        simp [runsAux, hws0, closeRun]

theorem nonWhitespace_cons_ws (c : Int) (rest : List Int) (h : IsWhitespaceChar c = true) :
    nonWhitespace (c :: rest) = nonWhitespace rest := by
  simp [nonWhitespace, h]

theorem nonWhitespace_cons_nonws (c : Int) (rest : List Int)
    (h : IsWhitespaceChar c = false) : nonWhitespace (c :: rest) = c :: nonWhitespace rest := by
  simp [nonWhitespace, h]

theorem nonWhitespacePositions_cons_ws (c : Int) (rest : List Int) (Pos : List FVector2f)
    (i : Nat) (hi : i < Pos.length) (h : IsWhitespaceChar c = true) :
    nonWhitespacePositions (c :: rest) (Pos.drop i) =
      nonWhitespacePositions rest (Pos.drop (i + 1)) := by
  unfold nonWhitespacePositions
  rw [List.drop_eq_getElem_cons hi, List.zip_cons_cons, List.filter_cons]
  simp [h]

theorem nonWhitespacePositions_cons_nonws (c : Int) (rest : List Int) (Pos : List FVector2f)
    (i : Nat) (P : FVector2f) (hP : Pos[i]? = some P) (h : IsWhitespaceChar c = false) :
    nonWhitespacePositions (c :: rest) (Pos.drop i) =
      P :: nonWhitespacePositions rest (Pos.drop (i + 1)) := by
  obtain ⟨hi, hPi⟩ := List.getElem?_eq_some.mp hP
  unfold nonWhitespacePositions
  rw [List.drop_eq_getElem_cons hi, List.zip_cons_cons, List.filter_cons]
  simp [h, hPi]

/-- What the main loop of `ProcessTextWithoutWhitespace` computes, when the position array
has an entry for every remaining character; `e` is the value of `FilteredIndex`. -/
theorem dropLoop_spec (Pos : List FVector2f) (rest : List Int) :
    ∀ (i : Nat) (st : ProcState) (cur : Option (Nat × List Int)) (e : Nat),
      i + rest.length ≤ Pos.length → Link st cur → st.FilteredIndex = (e : Int) →
      ∃ st2, dropLoop Pos rest i st = some st2 ∧
        st2.OutUnicode = st.OutUnicode ++ nonWhitespace rest ∧
        st2.OutCharacterPositions =
          st.OutCharacterPositions ++ nonWhitespacePositions rest (Pos.drop i) ∧
        st2.OutLineStartIndices = st.OutLineStartIndices ++ dropLineStarts rest e ∧
        (flushWord st2).OutWordStartIndices =
          st.OutWordStartIndices ++ (runsAux false rest e cur).map (fun p => (p.1 : Int)) ∧
        (flushWord st2).OutWordCharacterCounts =
          st.OutWordCharacterCounts ++
            (runsAux false rest e cur).map (fun p => (p.2.length : Int)) := by
  induction rest using scan_induction with
  | hnil =>
    intro i st cur e _ hl _
    obtain ⟨h1, h2⟩ := flushWord_words st cur hl
    exact ⟨st, rfl, by simp [nonWhitespace], by simp [nonWhitespacePositions],
      by simp [dropLineStarts], by simpa [runsAux] using h1, by simpa [runsAux] using h2⟩
  | hcrlf rest ih =>
    intro i st cur e hlen hl he
    simp only [List.length_cons] at hlen
    obtain ⟨hl1, hw1, hw2⟩ := wordStep_ws CR st.FilteredIndex st cur (by decide) hl
    have hl2 : Link (addLineStart (wordStep CR st.FilteredIndex st).FilteredIndex
        (wordStep CR st.FilteredIndex st)) none := hl1
    have he2 : (addLineStart (wordStep CR st.FilteredIndex st).FilteredIndex
        (wordStep CR st.FilteredIndex st)).FilteredIndex = (e : Int) := by
      simp [addLineStart, wordStep_FilteredIndex, he]
    obtain ⟨st2, hrun, hu, hp, hls, hws, hwc⟩ := ih (i + 1 + 1) _ none e (by omega) hl2 he2
    refine ⟨st2, ?_, ?_, ?_, ?_, ?_, ?_⟩
    · rw [dropLoop.eq_def]
      simpa using hrun
    · rw [hu, nonWhitespace_cons_ws CR _ (by decide), nonWhitespace_cons_ws LF _ (by decide)]
      simp [addLineStart, wordStep_OutUnicode]
    · rw [hp, nonWhitespacePositions_cons_ws CR _ Pos i (by omega) (by decide),
        nonWhitespacePositions_cons_ws LF _ Pos (i + 1) (by omega) (by decide)]
      simp [addLineStart, wordStep_OutCharacterPositions]
    · rw [hls, dropLineStarts_CRLF]
      simp [addLineStart, wordStep_OutLineStartIndices, wordStep_FilteredIndex, he]
    · rw [hws]
      simp only [addLineStart, hw1]
      simp [runsAux, IsWhitespaceChar, closeRun]
    · rw [hwc]
      simp only [addLineStart, hw2]
      simp [runsAux, IsWhitespaceChar, closeRun]
  | hstep c rest hnot ih =>
    intro i st cur e hlen hl he
    simp only [List.length_cons] at hlen
    obtain ⟨P, hP⟩ := getElem?_of_lt Pos i (by omega)
    by_cases hws : IsWhitespaceChar c = true
    · obtain ⟨hl1, hw1, hw2⟩ := wordStep_ws c st.FilteredIndex st cur hws hl
      by_cases hnl : c = LF ∨ c = CR
      · have hl2 : Link (addLineStart (wordStep c st.FilteredIndex st).FilteredIndex
            (wordStep c st.FilteredIndex st)) none := hl1
        have he2 : (addLineStart (wordStep c st.FilteredIndex st).FilteredIndex
            (wordStep c st.FilteredIndex st)).FilteredIndex = (e : Int) := by
          simp [addLineStart, wordStep_FilteredIndex, he]
        obtain ⟨st2, hrun, hu, hp, hls, hws2, hwc⟩ := ih (i + 1) _ none e (by omega) hl2 he2
        refine ⟨st2, ?_, ?_, ?_, ?_, ?_, ?_⟩
        · rcases hnl with h | h
          · subst h; rw [dropLoop.eq_def]; simpa using hrun
          · subst h
            have hh := hnot rfl
            cases rest with
            | nil => rw [dropLoop.eq_def]; simpa using hrun
            | cons n rest2 =>
              have hn : n ≠ LF := by simpa using hh
              rw [dropLoop.eq_def]; simpa [hn] using hrun
        · rw [hu, nonWhitespace_cons_ws c _ hws]
          simp [addLineStart, wordStep_OutUnicode]
        · rw [hp, nonWhitespacePositions_cons_ws c _ Pos i (by omega) hws]
          simp [addLineStart, wordStep_OutCharacterPositions]
        · rw [hls]
          rcases hnl with h | h
          · subst h
            rw [dropLineStarts_LF]
            simp [addLineStart, wordStep_OutLineStartIndices, wordStep_FilteredIndex, he]
          · subst h
            rw [dropLineStarts_CR _ _ (hnot rfl)]
            simp [addLineStart, wordStep_OutLineStartIndices, wordStep_FilteredIndex, he]
        · rw [hws2]
          simp only [addLineStart, hw1]
          simp [runsAux, hws, closeRun]
        · rw [hwc]
          simp only [addLineStart, hw2]
          simp [runsAux, hws, closeRun]
      · have hLF : c ≠ LF := fun h => hnl (Or.inl h)
        have hCR : c ≠ CR := fun h => hnl (Or.inr h)
        have he2 : (wordStep c st.FilteredIndex st).FilteredIndex = (e : Int) := by
          simp [wordStep_FilteredIndex, he]
        obtain ⟨st2, hrun, hu, hp, hls, hws2, hwc⟩ := ih (i + 1) _ none e (by omega) hl1 he2
        refine ⟨st2, ?_, ?_, ?_, ?_, ?_, ?_⟩
        · rw [dropLoop.eq_def]; simpa [hLF, hCR, hws] using hrun
        · rw [hu, nonWhitespace_cons_ws c _ hws]
          simp [wordStep_OutUnicode]
        · rw [hp, nonWhitespacePositions_cons_ws c _ Pos i (by omega) hws]
          simp [wordStep_OutCharacterPositions]
        · rw [hls, dropLineStarts_ws c rest e hLF hCR hws]
          simp [wordStep_OutLineStartIndices]
        · rw [hws2]
          simp only [hw1]
          simp [runsAux, hws, closeRun]
        · rw [hwc]
          simp only [hw2]
          simp [runsAux, hws, closeRun]
    · have hws0 : IsWhitespaceChar c = false := by simpa using hws
      have hLF : c ≠ LF := by
        intro h; subst h; exact hws (by decide)
      have hCR : c ≠ CR := by
        intro h; subst h; exact hws (by decide)
      have hidx : st.FilteredIndex = (e : Int) := he
      obtain ⟨hl1, hw1, hw2⟩ := wordStep_nonws c e st cur hws0 hl
      rw [← hidx] at hl1 hw1 hw2
      have hl2 : Link ({ emit c P (wordStep c st.FilteredIndex st) with
          FilteredIndex := (emit c P (wordStep c st.FilteredIndex st)).FilteredIndex + 1 })
          (some (extendRun cur e c)) := hl1
      have he2 : ({ emit c P (wordStep c st.FilteredIndex st) with
          FilteredIndex := (emit c P (wordStep c st.FilteredIndex st)).FilteredIndex + 1 }
            : ProcState).FilteredIndex = ((e + 1 : Nat) : Int) := by
        simp [emit, wordStep_FilteredIndex, he]
      obtain ⟨st2, hrun, hu, hp, hls, hws2, hwc⟩ := ih (i + 1) _ _ (e + 1) (by omega) hl2 he2
      refine ⟨st2, ?_, ?_, ?_, ?_, ?_, ?_⟩
      · rw [dropLoop.eq_def]; simp only [hP]; simpa [hLF, hCR, hws0] using hrun
      · rw [hu, nonWhitespace_cons_nonws c _ hws0]
        simp [emit, wordStep_OutUnicode]
      · rw [hp, nonWhitespacePositions_cons_nonws c _ Pos i P hP hws0]
        simp [emit, wordStep_OutCharacterPositions]
      · rw [hls, dropLineStarts_nonws c rest e hws0]
        simp [emit, wordStep_OutLineStartIndices]
      · rw [hws2]
        simp only [emit, hw1]
        simp [runsAux, hws0]
      · rw [hwc]
        simp only [emit, hw2]
        simp [runsAux, hws0]

/-- Closed form of `ProcessTextWithWhitespace` when the position array has an entry for
every character of the text. -/
theorem ProcessTextWithWhitespace_eq (InputText : List Int) (Pos : List FVector2f)
    (h : InputText.length ≤ Pos.length) :
    ProcessTextWithWhitespace InputText Pos = some
      { Unicode := InputText
        CharacterPositions := Pos.take InputText.length
        LineStartIndices := 0 :: keepLineStarts InputText 0
        LineCharacterCounts :=
          lineCountsOf (InputText.length : Int) (0 :: keepLineStarts InputText 0)
        WordStartIndices := (runsAux true InputText 0 none).map (fun p => (p.1 : Int))
        WordCharacterCounts :=
          (runsAux true InputText 0 none).map (fun p => (p.2.length : Int)) } := by
  have hl : Link initState none := rfl
  obtain ⟨st2, hrun, hu, hp, hls, hws, hwc⟩ :=
    keepLoop_spec Pos InputText 0 initState none (by omega) hl
  unfold ProcessTextWithWhitespace
  rw [hrun]
  simp only [finish_eq, hu, hp, hls, hws, hwc]
  simp [initState]

/-- Closed form of `ProcessTextWithoutWhitespace` when the position array has an entry for
every character of the text. -/
theorem ProcessTextWithoutWhitespace_eq (InputText : List Int) (Pos : List FVector2f)
    (h : InputText.length ≤ Pos.length) :
    ProcessTextWithoutWhitespace InputText Pos = some
      { Unicode := nonWhitespace InputText
        CharacterPositions := nonWhitespacePositions InputText Pos
        LineStartIndices := 0 :: dropLineStarts InputText 0
        LineCharacterCounts :=
          lineCountsOf ((nonWhitespace InputText).length : Int) (0 :: dropLineStarts InputText 0)
        WordStartIndices := (runsAux false InputText 0 none).map (fun p => (p.1 : Int))
        WordCharacterCounts :=
          (runsAux false InputText 0 none).map (fun p => (p.2.length : Int)) } := by
  have hl : Link initState none := rfl
  obtain ⟨st2, hrun, hu, hp, hls, hws, hwc⟩ :=
    dropLoop_spec Pos InputText 0 initState none 0 (by omega) hl rfl
  unfold ProcessTextWithoutWhitespace
  rw [hrun]
  simp only [finish_eq, hu, hp, hls, hws, hwc]
  simp [initState]

theorem nonWhitespace_eq_map_fst (Text : List Int) (Pos : List FVector2f)
    (h : Text.length ≤ Pos.length) :
    nonWhitespace Text =
      ((Text.zip Pos).filter (fun p => !IsWhitespaceChar p.1)).map Prod.fst := by
  induction Text generalizing Pos with
  | nil => simp [nonWhitespace]
  | cons c rest ih =>
    cases Pos with
    | nil => simp at h
    | cons P Pos =>
      have h2 : rest.length ≤ Pos.length := by simpa using h
      have ih2 := ih Pos h2
      unfold nonWhitespace at ih2 ⊢
      rw [List.zip_cons_cons, List.filter_cons, List.filter_cons]
      by_cases hc : IsWhitespaceChar c = true
      · simp [hc, ih2]
      · simp [hc, ih2]

theorem length_nonWhitespacePositions (Text : List Int) (Pos : List FVector2f)
    (h : Text.length ≤ Pos.length) :
    (nonWhitespacePositions Text Pos).length = (nonWhitespace Text).length := by
  rw [nonWhitespace_eq_map_fst Text Pos h]
  simp [nonWhitespacePositions]

theorem zip_nonWhitespace (Text : List Int) (Pos : List FVector2f)
    (h : Text.length ≤ Pos.length) :
    List.zip (nonWhitespace Text) (nonWhitespacePositions Text Pos) =
      (Text.zip Pos).filter (fun p => !IsWhitespaceChar p.1) := by
  rw [nonWhitespace_eq_map_fst Text Pos h]
  unfold nonWhitespacePositions
  exact (List.zip_of_prod rfl rfl).symm

theorem getElem?_lineCountsOf (n : Int) (Starts : List Int) (k : Nat) :
    (k + 1 < Starts.length →
        (lineCountsOf n Starts)[k]? = some (Starts.getD (k + 1) 0 - Starts.getD k 0)) ∧
      (k + 1 = Starts.length → (lineCountsOf n Starts)[k]? = some (n - Starts.getD k 0)) := by
  induction Starts generalizing k with
  | nil => simp
  | cons a rest ih =>
    cases rest with
    | nil =>
      constructor
      · intro hk; simp at hk
      · intro hk
        have hk0 : k = 0 := by simpa using hk
        subst hk0
        simp [lineCountsOf]
    | cons b rest =>
      cases k with
      | zero => simp [lineCountsOf]
      | succ k =>
        have ih2 := ih k
        constructor
        · intro hk
          have hk2 : k + 1 < (b :: rest).length := by simpa using hk
          simpa [lineCountsOf] using ih2.1 hk2
        · intro hk
          have hk2 : k + 1 = (b :: rest).length := by simpa using hk
          simpa [lineCountsOf] using ih2.2 hk2

theorem countLoneLF_eq_none (Prev : Option Int) (rest : List Int)
    (h : Prev ≠ some CR ∨ rest.head? ≠ some LF) :
    countLoneLF Prev rest = countLoneLF none rest := by
  cases rest with
  | nil => rfl
  | cons c rest =>
    simp only [countLoneLF]
    rcases h with h | h
    · simp [h]
    · have hc : c ≠ LF := by simpa using h
      simp [hc]

theorem newlineEvents_CRLF (rest : List Int) :
    newlineEvents (CR :: LF :: rest) = newlineEvents rest + 1 := by
  have h := countLoneLF_eq_none (some LF) rest (Or.inl (by decide))
  simp only [newlineEvents, countLoneLF, countLoneCR, countCRLF, h]
  simp
  omega

theorem newlineEvents_LF (rest : List Int) :
    newlineEvents (LF :: rest) = newlineEvents rest + 1 := by
  have h := countLoneLF_eq_none (some LF) rest (Or.inl (by decide))
  simp only [newlineEvents, countLoneLF, countLoneCR, countCRLF, h]
  simp
  omega

theorem newlineEvents_CR (rest : List Int) (hr : rest.head? ≠ some LF) :
    newlineEvents (CR :: rest) = newlineEvents rest + 1 := by
  have h := countLoneLF_eq_none (some CR) rest (Or.inr hr)
  simp only [newlineEvents, countLoneLF, countLoneCR, countCRLF, h]
  simp [hr]
  omega

theorem newlineEvents_other (c : Int) (rest : List Int) (h1 : c ≠ LF) (h2 : c ≠ CR) :
    newlineEvents (c :: rest) = newlineEvents rest := by
  have h := countLoneLF_eq_none (some c) rest (Or.inl (by simpa using h2))
  simp only [newlineEvents, countLoneLF, countLoneCR, countCRLF, h]
  simp [h1, h2]

theorem length_keepLineStarts (Text : List Int) :
    ∀ i, (keepLineStarts Text i).length = newlineEvents Text := by
  induction Text using scan_induction with
  | hnil => intro i; rfl
  | hcrlf rest ih =>
    intro i
    rw [keepLineStarts_CRLF, newlineEvents_CRLF, List.length_cons, ih]
  | hstep c rest hnot ih =>
    intro i
    by_cases hLF : c = LF
    · subst hLF
      rw [keepLineStarts_LF, newlineEvents_LF, List.length_cons, ih]
    · by_cases hCR : c = CR
      · subst hCR
        rw [keepLineStarts_CR _ _ (hnot rfl), newlineEvents_CR _ (hnot rfl), List.length_cons, ih]
      · rw [keepLineStarts_other c rest i hLF hCR, newlineEvents_other c rest hLF hCR, ih]

theorem length_dropLineStarts (Text : List Int) :
    ∀ e, (dropLineStarts Text e).length = newlineEvents Text := by
  induction Text using scan_induction with
  | hnil => intro e; rfl
  | hcrlf rest ih =>
    intro e
    rw [dropLineStarts_CRLF, newlineEvents_CRLF, List.length_cons, ih]
  | hstep c rest hnot ih =>
    intro e
    by_cases hLF : c = LF
    · subst hLF
      rw [dropLineStarts_LF, newlineEvents_LF, List.length_cons, ih]
    · by_cases hCR : c = CR
      · subst hCR
        rw [dropLineStarts_CR _ _ (hnot rfl), newlineEvents_CR _ (hnot rfl), List.length_cons, ih]
      · rw [newlineEvents_other c rest hLF hCR]
        by_cases hws : IsWhitespaceChar c = true
        · rw [dropLineStarts_ws c rest e hLF hCR hws, ih]
        · rw [dropLineStarts_nonws c rest e (by simpa using hws), ih]

theorem isSpaceTabLFCR_eq (c : Int) : isSpaceTabLFCR c = IsWhitespaceChar c := by
  by_cases h1 : c = SPACE <;> by_cases h2 : c = TAB <;> by_cases h3 : c = LF <;>
    by_cases h4 : c = CR <;> simp [IsWhitespaceChar, isSpaceTabLFCR, h1, h2, h3, h4]

theorem length_nonWhitespace_le (Text : List Int) :
    (nonWhitespace Text).length ≤ Text.length :=
  List.length_filter_le _ _

/-- The lengths of the runs found from a point on add up to the length of the open run plus
the number of non-whitespace characters that remain. -/
theorem sum_runsAux (adv : Bool) (rest : List Int) :
    ∀ (idx : Nat) (cur : Option (Nat × List Int)),
      ((runsAux adv rest idx cur).map (fun p => (p.2.length : Int))).sum =
        ((openChars cur).length : Int) + ((nonWhitespace rest).length : Int) := by
  induction rest with
  | nil =>
    intro idx cur
    cases cur <;> simp [runsAux, closeRun, openChars, nonWhitespace]
  | cons c rest ih =>
    intro idx cur
    by_cases hws : IsWhitespaceChar c = true
    · rw [nonWhitespace_cons_ws c rest hws]
      simp only [runsAux, hws, if_true, List.map_append, List.sum_append, ih]
      cases cur <;> simp [closeRun, openChars]
    · have hws0 : IsWhitespaceChar c = false := by simpa using hws
      have hstep : runsAux adv (c :: rest) idx cur =
          runsAux adv rest (idx + 1) (some (extendRun cur idx c)) := by
        simp [runsAux, hws0]
      rw [nonWhitespace_cons_nonws c rest hws0, hstep, ih]
      cases cur
      · simp only [extendRun, openChars, List.length_cons, List.length_nil]
        push_cast
        ring
      · simp only [extendRun, openChars, List.length_append, List.length_cons,
          List.length_nil]
        push_cast
        ring

theorem openChars_extendRun (cur : Option (Nat × List Int)) (idx : Nat) (c : Int) :
    openChars (some (extendRun cur idx c)) = openChars cur ++ [c] := by
  cases cur <;> simp [openChars, extendRun]

/-- The runs found by the scan are the non-empty pieces of the text cut at its whitespace
characters, the first piece being preceded by the open run. -/
theorem map_snd_runsAux (adv : Bool) (rest : List Int) :
    ∀ (idx : Nat) (cur : Option (Nat × List Int)), (∀ w, cur = some w → w.2 ≠ []) →
      (runsAux adv rest idx cur).map Prod.snd =
        ((rest.splitOnP IsWhitespaceChar).modifyHead (fun l => openChars cur ++ l)).filter
          (fun w => !w.isEmpty) := by
  induction rest with
  | nil =>
    intro idx cur hcur
    cases cur with
    | none => simp [runsAux, closeRun, openChars]
    | some w =>
      have hw : w.2 ≠ [] := hcur w rfl
      simp [runsAux, closeRun, openChars, hw]
  | cons c rest ih =>
    intro idx cur hcur
    by_cases hws : IsWhitespaceChar c = true
    · have hstep : runsAux adv (c :: rest) idx cur =
          closeRun cur ++ runsAux adv rest (if adv then idx + 1 else idx) none := by
        simp [runsAux, hws]
      have hid : (fun l : List Int => openChars none ++ l) = id := by
        funext l; simp [openChars]
      rw [hstep, List.map_append, ih _ none (by simp), hid, List.modifyHead_id,
        List.splitOnP_cons, if_pos hws, List.modifyHead_cons, List.filter_cons]
      cases cur with
      | none => simp [closeRun, openChars]
      | some w =>
        have hw : w.2 ≠ [] := hcur w rfl
        simp [closeRun, openChars, hw]
    · have hws0 : IsWhitespaceChar c = false := by simpa using hws
      have hstep : runsAux adv (c :: rest) idx cur =
          runsAux adv rest (idx + 1) (some (extendRun cur idx c)) := by
        simp [runsAux, hws0]
      have hne : ∀ w, some (extendRun cur idx c) = some w → w.2 ≠ [] := by
        intro w hw
        have hw2 : extendRun cur idx c = w := by simpa using hw
        rw [← hw2]
        cases cur <;> simp [extendRun]
      have hfun : ((fun l : List Int => openChars cur ++ l) ∘ List.cons c) =
          (fun l : List Int => openChars (some (extendRun cur idx c)) ++ l) := by
        funext l
        simp [openChars_extendRun]
      rw [hstep, ih _ _ hne, List.splitOnP_cons, if_neg hws, List.modifyHead_modifyHead, hfun]

theorem wordRuns_eq_runsAux (adv : Bool) (Text : List Int) :
    wordRuns Text = (runsAux adv Text 0 none).map Prod.snd := by
  have hp : isSpaceTabLFCR = IsWhitespaceChar := funext isSpaceTabLFCR_eq
  have hid : (fun l : List Int => openChars none ++ l) = id := by
    funext l; simp [openChars]
  rw [map_snd_runsAux adv Text 0 none (by simp), hid, List.modifyHead_id]
  simp [wordRuns, hp]

theorem emitted_append (adv : Bool) (a b : List Int) :
    emitted adv (a ++ b) = emitted adv a ++ emitted adv b := by
  cases adv <;> simp [emitted, nonWhitespace]

theorem emitted_of_nonws (adv : Bool) (w : List Int)
    (h : ∀ c ∈ w, IsWhitespaceChar c = false) : emitted adv w = w := by
  cases adv
  · simp only [emitted, nonWhitespace, Bool.false_eq_true, if_false]
    rw [List.filter_eq_self]
    intro c hc
    simp [h c hc]
  · simp [emitted]

theorem take_drop_middle (a w b : List Int) :
    ((a ++ w ++ b).drop a.length).take w.length = w := by
  simp

/-- Every run found by the scan is read back from the emitted characters at its start
index. `pre` is the text already scanned. -/
theorem runsAux_take_drop (adv : Bool) (rest : List Int) :
    ∀ (pre : List Int) (idx : Nat) (cur : Option (Nat × List Int)),
      idx = (emitted adv pre).length →
      (∀ w, cur = some w → ∃ pre0, pre = pre0 ++ w.2 ∧ w.1 = (emitted adv pre0).length ∧
        ∀ c ∈ w.2, IsWhitespaceChar c = false) →
      ∀ p ∈ runsAux adv rest idx cur,
        ((emitted adv (pre ++ rest)).drop p.1).take p.2.length = p.2 := by
  have hclose : ∀ (pre rest : List Int) (cur : Option (Nat × List Int)),
      (∀ w, cur = some w → ∃ pre0, pre = pre0 ++ w.2 ∧ w.1 = (emitted adv pre0).length ∧
        ∀ c ∈ w.2, IsWhitespaceChar c = false) →
      ∀ p ∈ closeRun cur,
        ((emitted adv (pre ++ rest)).drop p.1).take p.2.length = p.2 := by
    intro pre rest cur hcur p hp
    cases cur with
    | none => simp [closeRun] at hp
    | some w =>
      have hpw : p = w := by simpa [closeRun] using hp
      subst hpw
      obtain ⟨pre0, hpre, hs, hnw⟩ := hcur p rfl
      rw [hpre, emitted_append, emitted_append, emitted_of_nonws adv p.2 hnw, hs]
      exact take_drop_middle _ _ _
  induction rest with
  | nil =>
    intro pre idx cur _ hcur p hp
    exact hclose pre [] cur hcur p (by simpa [runsAux] using hp)
  | cons c rest ih =>
    intro pre idx cur hidx hcur p hp
    have happ : pre ++ c :: rest = (pre ++ [c]) ++ rest := by simp
    by_cases hws : IsWhitespaceChar c = true
    · have hstep : runsAux adv (c :: rest) idx cur =
          closeRun cur ++ runsAux adv rest (if adv then idx + 1 else idx) none := by
        simp [runsAux, hws]
      rw [hstep, List.mem_append] at hp
      rcases hp with hp | hp
      · exact hclose pre (c :: rest) cur hcur p hp
      · rw [happ]
        refine ih (pre ++ [c]) _ none ?_ (by simp) p hp
        cases adv
        · simp [emitted, nonWhitespace, hws, hidx]
        · simp [emitted, hidx]
    · have hws0 : IsWhitespaceChar c = false := by simpa using hws
      have hstep : runsAux adv (c :: rest) idx cur =
          runsAux adv rest (idx + 1) (some (extendRun cur idx c)) := by
        simp [runsAux, hws0]
      rw [hstep] at hp
      rw [happ]
      refine ih (pre ++ [c]) _ (some (extendRun cur idx c)) ?_ ?_ p hp
      · cases adv
        · simp [emitted, nonWhitespace, hws0, hidx]
        · simp [emitted, hidx]
      · intro w hw
        have hw2 : extendRun cur idx c = w := by simpa using hw
        subst hw2
        cases cur with
        | none =>
          refine ⟨pre, by simp [extendRun], by simp [extendRun, hidx], ?_⟩
          intro x hx
          have hx2 : x = c := by simpa [extendRun] using hx
          rw [hx2]; exact hws0
        | some w0 =>
          obtain ⟨pre0, hpre, hs, hnw⟩ := hcur w0 rfl
          refine ⟨pre0, by simp [extendRun, hpre], by simp [extendRun, hs], ?_⟩
          intro x hx
          have hx2 : x ∈ w0.2 ∨ x = c := by simpa [extendRun] using hx
          rcases hx2 with hx2 | hx2
          · exact hnw x hx2
          · rw [hx2]; exact hws0

/-- The word arrays computed from the scan describe the maximal runs of the text. -/
theorem wordsAre_of_runsAux (adv : Bool) (Text : List Int) (r : LayoutResult)
    (hu : r.Unicode = emitted adv Text)
    (hs : r.WordStartIndices = (runsAux adv Text 0 none).map (fun p => (p.1 : Int)))
    (hc : r.WordCharacterCounts = (runsAux adv Text 0 none).map (fun p => (p.2.length : Int))) :
    WordsAre (wordRuns Text) r := by
  have hruns := wordRuns_eq_runsAux adv Text
  have hlen : (wordRuns Text).length = (runsAux adv Text 0 none).length := by
    rw [hruns, List.length_map]
  refine ⟨by rw [hs, hlen, List.length_map], by rw [hc, hlen, List.length_map], ?_⟩
  intro k hk
  have hk2 : k < (runsAux adv Text 0 none).length := by omega
  have hmem : (runsAux adv Text 0 none)[k] ∈ runsAux adv Text 0 none :=
    List.getElem_mem hk2
  have htd := runsAux_take_drop adv Text [] 0 none (by cases adv <;> simp [emitted, nonWhitespace])
    (by simp) _ hmem
  have hrk : (wordRuns Text)[k] = ((runsAux adv Text 0 none)[k]).2 := by
    simp [hruns]
  refine ⟨((runsAux adv Text 0 none)[k]).1, ((runsAux adv Text 0 none)[k]).2.length, ?_, ?_, ?_, ?_⟩
  · rw [hs]; simp [hk2]
  · rw [hc]; simp [hk2]
  · rw [hrk]
  · rw [hu, hrk]
    simpa using htd

theorem splitLoop_CRLF (rest cur : List Int) (lines : List (List Int)) :
    splitLoop (CR :: LF :: rest) cur lines = splitLoop rest [] (lines ++ [cur ++ [CR] ++ [LF]]) := by
  rw [splitLoop.eq_def]; simp

theorem splitLoop_CR (rest cur : List Int) (lines : List (List Int))
    (h : rest.head? ≠ some LF) :
    splitLoop (CR :: rest) cur lines = splitLoop rest [] (lines ++ [cur ++ [CR]]) := by
  rw [splitLoop.eq_def]
  cases rest with
  | nil => simp
  | cons n rest2 =>
    have hn : n ≠ LF := by simpa using h
    simp [hn]

theorem splitLoop_LF (rest cur : List Int) (lines : List (List Int)) :
    splitLoop (LF :: rest) cur lines = splitLoop rest [] (lines ++ [cur ++ [LF]]) := by
  rw [splitLoop.eq_def]; simp

theorem splitLoop_other (c : Int) (rest cur : List Int) (lines : List (List Int))
    (h1 : c ≠ LF) (h2 : c ≠ CR) :
    splitLoop (c :: rest) cur lines = splitLoop rest (cur ++ [c]) lines := by
  rw [splitLoop.eq_def]; simp [h1, h2]

theorem linesFrom_CRLF (rest cur : List Int) :
    linesFrom (CR :: LF :: rest) cur = (cur ++ [CR] ++ [LF]) :: linesFrom rest [] := by
  rw [linesFrom.eq_def]; simp

theorem linesFrom_CR (rest cur : List Int) (h : rest.head? ≠ some LF) :
    linesFrom (CR :: rest) cur = (cur ++ [CR]) :: linesFrom rest [] := by
  rw [linesFrom.eq_def]
  cases rest with
  | nil => simp [linesFrom]
  | cons n rest2 =>
    have hn : n ≠ LF := by simpa using h
    simp [hn]

theorem linesFrom_LF (rest cur : List Int) :
    linesFrom (LF :: rest) cur = (cur ++ [LF]) :: linesFrom rest [] := by
  rw [linesFrom.eq_def]; simp

theorem linesFrom_other (c : Int) (rest cur : List Int) (h1 : c ≠ LF) (h2 : c ≠ CR) :
    linesFrom (c :: rest) cur = linesFrom rest (cur ++ [c]) := by
  rw [linesFrom.eq_def]; simp [h1, h2]

/-- The Line Splitter loop adds to `LinesUnfiltered` the lines of `linesFrom`, but for the
final line, which it leaves in `CurrentLine`. -/
theorem splitLoop_eq (rest : List Int) :
    ∀ (cur : List Int) (lines : List (List Int)),
      (splitLoop rest cur lines).1 ++
          (if (splitLoop rest cur lines).2.isEmpty then [] else [(splitLoop rest cur lines).2]) =
        lines ++ linesFrom rest cur := by
  induction rest using scan_induction with
  | hnil => intro cur lines; simp [splitLoop, linesFrom]
  | hcrlf rest ih =>
    intro cur lines
    rw [splitLoop_CRLF, linesFrom_CRLF, ih]; simp
  | hstep c rest hnot ih =>
    intro cur lines
    by_cases hLF : c = LF
    · subst hLF
      rw [splitLoop_LF, linesFrom_LF, ih]; simp
    · by_cases hCR : c = CR
      · subst hCR
        rw [splitLoop_CR _ _ _ (hnot rfl), linesFrom_CR _ _ (hnot rfl), ih]; simp
      · rw [splitLoop_other c _ _ _ hLF hCR, linesFrom_other c _ _ hLF hCR, ih]

theorem splitLines_eq (Text : List Int) : splitLines Text = linesFrom Text [] := by
  unfold splitLines
  by_cases h : 0 < Text.length
  · have h2 := splitLoop_eq Text [] []
    rw [if_pos h]
    by_cases he : (splitLoop Text [] []).2.isEmpty = true
    · simpa [he] using h2
    · simpa [he] using h2
  · have ht : Text = [] := by
      cases Text with
      | nil => rfl
      | cons a l => simp at h
    subst ht
    simp [linesFrom]

/-- The lines of the Line Splitter, put end to end, are the text. -/
theorem flatten_linesFrom (rest : List Int) :
    ∀ cur : List Int, (linesFrom rest cur).flatten = cur ++ rest := by
  induction rest using scan_induction with
  | hnil =>
    intro cur
    cases cur <;> simp [linesFrom]
  | hcrlf rest ih =>
    intro cur
    rw [linesFrom_CRLF, List.flatten_cons, ih]; simp
  | hstep c rest hnot ih =>
    intro cur
    by_cases hLF : c = LF
    · subst hLF
      rw [linesFrom_LF, List.flatten_cons, ih]; simp
    · by_cases hCR : c = CR
      · subst hCR
        rw [linesFrom_CR _ _ (hnot rfl), List.flatten_cons, ih]; simp
      · rw [linesFrom_other c _ _ hLF hCR, ih]; simp

/-- No line of the Line Splitter is empty. -/
theorem linesFrom_ne_nil (rest : List Int) :
    ∀ cur : List Int, ∀ l ∈ linesFrom rest cur, l ≠ [] := by
  induction rest using scan_induction with
  | hnil =>
    intro cur l hl
    cases cur with
    | nil => simp [linesFrom] at hl
    | cons a cur =>
      have : l = a :: cur := by simpa [linesFrom] using hl
      simp [this]
  | hcrlf rest ih =>
    intro cur l hl
    rw [linesFrom_CRLF, List.mem_cons] at hl
    rcases hl with hl | hl
    · simp [hl]
    · exact ih [] l hl
  | hstep c rest hnot ih =>
    intro cur l hl
    by_cases hLF : c = LF
    · subst hLF
      rw [linesFrom_LF, List.mem_cons] at hl
      rcases hl with hl | hl
      · simp [hl]
      · exact ih [] l hl
    · by_cases hCR : c = CR
      · subst hCR
        rw [linesFrom_CR _ _ (hnot rfl), List.mem_cons] at hl
        rcases hl with hl | hl
        · simp [hl]
        · exact ih [] l hl
      · rw [linesFrom_other c _ _ hLF hCR] at hl
        exact ih _ l hl

/-- Every line start added by `keepLoop` is an index of the scanned text. -/
theorem keepLineStarts_bounds (rest : List Int) :
    ∀ (i : Nat), ∀ x ∈ keepLineStarts rest i,
      ∃ s : Nat, x = (s : Int) ∧ i ≤ s ∧ s < i + rest.length := by
  induction rest using scan_induction with
  | hnil => intro i x hx; simp [keepLineStarts] at hx
  | hcrlf rest ih =>
    intro i x hx
    rw [keepLineStarts_CRLF, List.mem_cons] at hx
    rcases hx with hx | hx
    · exact ⟨i + 1, hx, by omega, by simp⟩
    · obtain ⟨s, hs, h1, h2⟩ := ih _ x hx
      exact ⟨s, hs, by omega, by simp only [List.length_cons]; omega⟩
  | hstep c rest hnot ih =>
    intro i x hx
    have hrec : x ∈ keepLineStarts rest (i + 1) →
        ∃ s : Nat, x = (s : Int) ∧ i ≤ s ∧ s < i + (c :: rest).length := by
      intro hx
      obtain ⟨s, hs, h1, h2⟩ := ih _ x hx
      exact ⟨s, hs, by omega, by simp only [List.length_cons]; omega⟩
    by_cases hLF : c = LF
    · subst hLF
      rw [keepLineStarts_LF, List.mem_cons] at hx
      rcases hx with hx | hx
      · exact ⟨i, hx, by omega, by simp⟩
      · exact hrec hx
    · by_cases hCR : c = CR
      · subst hCR
        rw [keepLineStarts_CR _ _ (hnot rfl), List.mem_cons] at hx
        rcases hx with hx | hx
        · exact ⟨i, hx, by omega, by simp⟩
        · exact hrec hx
      · rw [keepLineStarts_other c rest i hLF hCR] at hx
        exact hrec hx

/-- Every line start added by `dropLoop` is the number of characters emitted before the
line that follows the newline: the codes from it on are the non-whitespace characters of
the later lines of the Line Splitter. -/
theorem dropLineStarts_spec (rest : List Int) :
    ∀ (cur : List Int) (e k : Nat), k < (dropLineStarts rest e).length →
      ∃ s : Nat, (dropLineStarts rest e)[k]? = some (s : Int) ∧ e ≤ s ∧
        s ≤ e + (nonWhitespace rest).length ∧
        (nonWhitespace rest).drop (s - e) =
          nonWhitespace ((linesFrom rest cur).drop (k + 1)).flatten := by
  have hnl : ∀ (rest2 : List Int) (first : List Int) (e k : Nat),
      (∀ (cur : List Int) (e k : Nat), k < (dropLineStarts rest2 e).length →
        ∃ s : Nat, (dropLineStarts rest2 e)[k]? = some (s : Int) ∧ e ≤ s ∧
          s ≤ e + (nonWhitespace rest2).length ∧
          (nonWhitespace rest2).drop (s - e) =
            nonWhitespace ((linesFrom rest2 cur).drop (k + 1)).flatten) →
      k < ((e : Int) :: dropLineStarts rest2 e).length →
      ∃ s : Nat, ((e : Int) :: dropLineStarts rest2 e)[k]? = some (s : Int) ∧ e ≤ s ∧
        s ≤ e + (nonWhitespace rest2).length ∧
        (nonWhitespace rest2).drop (s - e) =
          nonWhitespace ((first :: linesFrom rest2 []).drop (k + 1)).flatten := by
    intro rest2 first e k ih hk
    cases k with
    | zero =>
      refine ⟨e, by simp, le_refl _, by omega, ?_⟩
      simp [flatten_linesFrom]
    | succ k =>
      have hk2 : k < (dropLineStarts rest2 e).length := by simpa using hk
      obtain ⟨s, hs, h1, h2, h3⟩ := ih [] e k hk2
      exact ⟨s, by simpa using hs, h1, h2, by simpa using h3⟩
  induction rest using scan_induction with
  | hnil => intro cur e k hk; simp [dropLineStarts] at hk
  | hcrlf rest ih =>
    intro cur e k hk
    rw [dropLineStarts_CRLF] at hk ⊢
    rw [linesFrom_CRLF, nonWhitespace_cons_ws CR _ (by decide),
      nonWhitespace_cons_ws LF _ (by decide)]
    exact hnl rest _ e k ih hk
  | hstep c rest hnot ih =>
    intro cur e k hk
    by_cases hLF : c = LF
    · subst hLF
      rw [dropLineStarts_LF] at hk ⊢
      rw [linesFrom_LF, nonWhitespace_cons_ws LF _ (by decide)]
      exact hnl rest _ e k ih hk
    · by_cases hCR : c = CR
      · subst hCR
        rw [dropLineStarts_CR _ _ (hnot rfl)] at hk ⊢
        rw [linesFrom_CR _ _ (hnot rfl), nonWhitespace_cons_ws CR _ (by decide)]
        exact hnl rest _ e k ih hk
      · rw [linesFrom_other c _ _ hLF hCR]
        by_cases hws : IsWhitespaceChar c = true
        · rw [dropLineStarts_ws c rest e hLF hCR hws] at hk ⊢
          rw [nonWhitespace_cons_ws c _ hws]
          exact ih _ e k hk
        · have hws0 : IsWhitespaceChar c = false := by simpa using hws
          rw [dropLineStarts_nonws c rest e hws0] at hk ⊢
          rw [nonWhitespace_cons_nonws c _ hws0]
          obtain ⟨s, hs, h1, h2, h3⟩ := ih (cur ++ [c]) (e + 1) k hk
          refine ⟨s, hs, by omega, by simp only [List.length_cons]; omega, ?_⟩
          have hse : s - e = (s - (e + 1)) + 1 := by omega
          rw [hse, List.drop_succ_cons]
          exact h3

theorem charWidth_eq (UVRects : List FVector4) (Code : Int) :
    charWidth UVRects Code = some (widthOf UVRects Code) := by
  unfold charWidth widthOf
  by_cases h : IsValidIndex UVRects Code = true
  · have h2 : 0 ≤ Code ∧ Code < (UVRects.length : Int) := by
      simpa [IsValidIndex] using h
    have h3 : Code.toNat < UVRects.length := by omega
    simp [h, getAt, h2.1, List.getD, List.getElem?_eq_getElem h3]
  · simp [h]

theorem cumulativeWidths_eq (UVRects : List FVector4) (Line : List Int) :
    ∀ (acc : ℚ) (Row : List ℚ),
      cumulativeWidths UVRects Line acc Row = some (Row ++ cumulativeWidthsOf UVRects Line acc) := by
  induction Line with
  | nil => intro acc Row; simp [cumulativeWidths, cumulativeWidthsOf]
  | cons c rest ih =>
    intro acc Row
    simp [cumulativeWidths, cumulativeWidthsOf, charWidth_eq, ih]

theorem length_cumulativeWidthsOf (UVRects : List FVector4) (Line : List Int) :
    ∀ acc : ℚ, (cumulativeWidthsOf UVRects Line acc).length = Line.length := by
  induction Line with
  | nil => intro acc; rfl
  | cons c rest ih => intro acc; simp [cumulativeWidthsOf, ih]

theorem BuildHorizontalLineMetrics_eq (UVRects : List FVector4) (Lines : List (List Int)) :
    BuildHorizontalLineMetrics UVRects Lines =
      some (Lines.map (fun Line => cumulativeWidthsOf UVRects Line 0)) := by
  unfold BuildHorizontalLineMetrics
  apply mapM_eq_some_map
  intro Line _
  simp [cumulativeWidths_eq]

theorem drop_eq_cons {α : Type} (xs : List α) (i : Nat) (a : α) (t : List α)
    (h : xs.drop i = a :: t) : xs[i]? = some a ∧ xs.drop (i + 1) = t := by
  have hi : i < xs.length := by
    by_contra hcon
    rw [List.drop_eq_nil_of_le (by omega)] at h
    simp at h
  rw [List.drop_eq_getElem_cons hi] at h
  injection h with h1 h2
  exact ⟨by rw [List.getElem?_eq_getElem hi, h1], h2⟩

/-- The loop over the characters of a line adds one offset per remaining character. -/
theorem horizontalLineLoop_eq (UVRects : List FVector4) (CW : List (List ℚ))
    (Offset : ℚ → ℚ → ℚ) (i : Nat) (Row : List ℚ) (hRow : CW[i]? = some Row)
    (rest : List Int) :
    ∀ (j : Nat) (Out : List ℚ), j + rest.length ≤ Row.length →
      horizontalLineLoop UVRects CW Offset i rest j Out =
        some (Out ++ List.zipWith (fun C c => Offset C (widthOf UVRects c)) (Row.drop j) rest) := by
  induction rest with
  | nil => intro j Out _; simp [horizontalLineLoop]
  | cons c rest ih =>
    intro j Out hj
    simp only [List.length_cons] at hj
    have hlt : j < Row.length := by omega
    rw [horizontalLineLoop, charWidth_eq]
    simp only [hRow, List.getElem?_eq_getElem hlt]
    rw [ih (j + 1) _ (by omega), List.drop_eq_getElem_cons hlt, List.zipWith_cons_cons]
    simp only [List.append_assoc, List.singleton_append]

theorem horizontalLineLoop_line (UVRects : List FVector4) (CW : List (List ℚ))
    (Offset : ℚ → ℚ → ℚ) (i : Nat) (Line : List Int) (Out : List ℚ)
    (hRow : CW[i]? = some (cumulativeWidthsOf UVRects Line 0)) :
    horizontalLineLoop UVRects CW Offset i Line 0 Out =
      some (Out ++ lineOffsets UVRects Offset Line) := by
  rw [horizontalLineLoop_eq UVRects CW Offset i _ hRow Line 0 Out
    (by simp [length_cumulativeWidthsOf])]
  simp [lineOffsets]

theorem lineTotalWidth_eq (UVRects : List FVector4) (CW : List (List ℚ)) (i : Nat)
    (Line : List Int) (hne : Line.length ≠ 0)
    (hRow : CW[i]? = some (cumulativeWidthsOf UVRects Line 0)) :
    lineTotalWidth CW i Line = some (totalWidthOf UVRects Line) := by
  have hpos : (0 : Int) ≤ (Line.length : Int) - 1 := by omega
  have hnat : ((Line.length : Int) - 1).toNat = Line.length - 1 := by omega
  have hlt : Line.length - 1 < (cumulativeWidthsOf UVRects Line 0).length := by
    rw [length_cumulativeWidthsOf]; omega
  simp [lineTotalWidth, hRow, getAt, hpos, hnat, totalWidthOf, List.getD,
    List.getElem?_eq_getElem hlt]

theorem leftLoop_eq (UVRects : List FVector4) (CW : List (List ℚ)) (rest : List (List Int)) :
    ∀ (i : Nat) (Out : List ℚ),
      CW.drop i = rest.map (fun Line => cumulativeWidthsOf UVRects Line 0) →
      leftLoop UVRects CW rest i Out =
        some (Out ++ (rest.map (lineOffsets UVRects
          (fun C CharWidth => C - CharWidth * (1 / 2)))).flatten) := by
  induction rest with
  | nil => intro i Out _; simp [leftLoop]
  | cons Line rest ih =>
    intro i Out h
    obtain ⟨h1, h2⟩ := drop_eq_cons CW i _ _ (by simpa using h)
    rw [leftLoop, horizontalLineLoop_line UVRects CW _ i Line Out h1]
    simp only []
    rw [ih (i + 1) _ h2]
    simp

theorem centerLoop_eq (UVRects : List FVector4) (CW : List (List ℚ))
    (rest : List (List Int)) :
    ∀ (i : Nat) (Out : List ℚ),
      CW.drop i = rest.map (fun Line => cumulativeWidthsOf UVRects Line 0) →
      centerLoop UVRects CW rest i Out =
        some (Out ++ (rest.map (fun Line => lineOffsets UVRects
          (fun C CharWidth => C - totalWidthOf UVRects Line * (1 / 2) - CharWidth * (1 / 2))
          Line)).flatten) := by
  induction rest with
  | nil => intro i Out _; simp [centerLoop]
  | cons Line rest ih =>
    intro i Out h
    obtain ⟨h1, h2⟩ := drop_eq_cons CW i _ _ (by simpa using h)
    by_cases hlen : Line.length = 0
    · have hnil : Line = [] := List.length_eq_zero.mp hlen
      rw [centerLoop, if_pos hlen, ih (i + 1) _ h2]
      simp [hnil, lineOffsets]
    · rw [centerLoop, if_neg hlen, lineTotalWidth_eq UVRects CW i Line hlen h1]
      simp only []
      rw [horizontalLineLoop_line UVRects CW _ i Line Out h1]
      simp only []
      rw [ih (i + 1) _ h2]
      simp

theorem rightLoop_eq (UVRects : List FVector4) (CW : List (List ℚ))
    (rest : List (List Int)) :
    ∀ (i : Nat) (Out : List ℚ),
      CW.drop i = rest.map (fun Line => cumulativeWidthsOf UVRects Line 0) →
      rightLoop UVRects CW rest i Out =
        some (Out ++ (rest.map (fun Line => lineOffsets UVRects
          (fun C CharWidth => C - CharWidth * (1 / 2) - totalWidthOf UVRects Line)
          Line)).flatten) := by
  induction rest with
  | nil => intro i Out _; simp [rightLoop]
  | cons Line rest ih =>
    intro i Out h
    obtain ⟨h1, h2⟩ := drop_eq_cons CW i _ _ (by simpa using h)
    by_cases hlen : Line.length = 0
    · have hnil : Line = [] := List.length_eq_zero.mp hlen
      rw [rightLoop, if_pos hlen, ih (i + 1) _ h2]
      simp [hnil, lineOffsets]
    · rw [rightLoop, if_neg hlen, lineTotalWidth_eq UVRects CW i Line hlen h1]
      simp only []
      rw [horizontalLineLoop_line UVRects CW _ i Line Out h1]
      simp only []
      rw [ih (i + 1) _ h2]
      simp

/-- Closed form of `GetHorizontalPositionsLeftAligned`. -/
theorem GetHorizontalPositionsLeftAligned_eq (UVRects : List FVector4) (Unicode : List Int)
    (Lines : List (List Int)) :
    GetHorizontalPositionsLeftAligned UVRects Unicode Lines =
      some (Lines.map (lineOffsets UVRects
        (fun C CharWidth => C - CharWidth * (1 / 2)))).flatten := by
  unfold GetHorizontalPositionsLeftAligned
  rw [BuildHorizontalLineMetrics_eq]
  simp only []
  rw [leftLoop_eq UVRects _ Lines 0 [] (by simp)]
  simp

/-- Closed form of `GetHorizontalPositionsCenterAligned`. -/
theorem GetHorizontalPositionsCenterAligned_eq (UVRects : List FVector4)
    (Unicode : List Int) (Lines : List (List Int)) :
    GetHorizontalPositionsCenterAligned UVRects Unicode Lines =
      some (Lines.map (fun Line => lineOffsets UVRects
        (fun C CharWidth => C - totalWidthOf UVRects Line * (1 / 2) - CharWidth * (1 / 2))
        Line)).flatten := by
  unfold GetHorizontalPositionsCenterAligned
  rw [BuildHorizontalLineMetrics_eq]
  simp only []
  rw [centerLoop_eq UVRects _ Lines 0 [] (by simp)]
  simp

/-- Closed form of `GetHorizontalPositionsRightAligned`. -/
theorem GetHorizontalPositionsRightAligned_eq (UVRects : List FVector4)
    (Unicode : List Int) (Lines : List (List Int)) :
    GetHorizontalPositionsRightAligned UVRects Unicode Lines =
      some (Lines.map (fun Line => lineOffsets UVRects
        (fun C CharWidth => C - CharWidth * (1 / 2) - totalWidthOf UVRects Line)
        Line)).flatten := by
  unfold GetHorizontalPositionsRightAligned
  rw [BuildHorizontalLineMetrics_eq]
  simp only []
  rw [rightLoop_eq UVRects _ Lines 0 [] (by simp)]
  simp

theorem length_lineOffsets (UVRects : List FVector4) (Offset : ℚ → ℚ → ℚ) (Line : List Int) :
    (lineOffsets UVRects Offset Line).length = Line.length := by
  simp [lineOffsets, length_cumulativeWidthsOf]

theorem length_flatten_lineOffsets (UVRects : List FVector4)
    (Offset : List Int → ℚ → ℚ → ℚ) (Lines : List (List Int)) :
    ((Lines.map (fun Line => lineOffsets UVRects (Offset Line) Line)).flatten).length =
      Lines.flatten.length := by
  induction Lines with
  | nil => rfl
  | cons Line rest ih =>
    simp only [List.map_cons, List.flatten_cons, List.length_append, ih, length_lineOffsets]

theorem cumulativeHeights_eq (LineHeight : ℚ) (Lines : List (List Int)) :
    ∀ (acc : ℚ) (Out : List ℚ),
      cumulativeHeights LineHeight Lines acc Out =
        Out ++ cumulativeHeightsOf LineHeight Lines acc := by
  induction Lines with
  | nil => intro acc Out; simp [cumulativeHeights, cumulativeHeightsOf]
  | cons Line rest ih =>
    intro acc Out
    simp [cumulativeHeights, cumulativeHeightsOf, ih]

theorem length_cumulativeHeightsOf (LineHeight : ℚ) (Lines : List (List Int)) :
    ∀ acc : ℚ, (cumulativeHeightsOf LineHeight Lines acc).length = Lines.length := by
  induction Lines with
  | nil => intro acc; rfl
  | cons Line rest ih => intro acc; simp [cumulativeHeightsOf, ih]

theorem BuildVerticalLineMetrics_eq (UVRects : List FVector4) (Lines : List (List Int)) :
    BuildVerticalLineMetrics UVRects Lines =
      (cumulativeHeightsOf (globalMaxHeight UVRects) Lines 0, globalMaxHeight UVRects) := by
  simp [BuildVerticalLineMetrics, cumulativeHeights_eq]

/-- The loop over the lines of the vertical functions adds the offset of each line once per
character. -/
theorem verticalLoop_eq (CH : List ℚ) (Offset : ℚ → ℚ) (rest : List (List Int)) :
    ∀ (i : Nat) (Out : List ℚ), i + rest.length ≤ CH.length →
      verticalLoop CH Offset rest i Out =
        some (Out ++ columnOffsets Offset (CH.drop i) rest) := by
  induction rest with
  | nil => intro i Out _; simp [verticalLoop, columnOffsets]
  | cons Line rest ih =>
    intro i Out hi
    simp only [List.length_cons] at hi
    have hlt : i < CH.length := by omega
    rw [verticalLoop]
    simp only [List.getElem?_eq_getElem hlt]
    rw [ih (i + 1) _ (by omega), List.drop_eq_getElem_cons hlt]
    simp only [columnOffsets, List.zipWith_cons_cons, List.flatten_cons, List.append_assoc]

theorem length_columnOffsets (Offset : ℚ → ℚ) (Lines : List (List Int)) :
    ∀ Heights : List ℚ, Lines.length ≤ Heights.length →
      (columnOffsets Offset Heights Lines).length = Lines.flatten.length := by
  induction Lines with
  | nil => intro Heights _; simp [columnOffsets]
  | cons Line rest ih =>
    intro Heights h
    cases Heights with
    | nil => simp at h
    | cons H Heights =>
      have h2 : rest.length ≤ Heights.length := by simpa using h
      have ih2 := ih Heights h2
      simp only [columnOffsets] at ih2 ⊢
      simp only [List.zipWith_cons_cons, List.flatten_cons, List.length_append,
        List.length_replicate, ih2]

/-- Closed form of `GetVerticalPositionsTopAligned`. -/
theorem GetVerticalPositionsTopAligned_eq (UVRects : List FVector4) (Unicode : List Int)
    (Lines : List (List Int)) :
    GetVerticalPositionsTopAligned UVRects Unicode Lines =
      some (columnOffsets
        (fun H => H - globalMaxHeight UVRects * (1 / 2) - globalMaxHeight UVRects * (1 / 2))
        (cumulativeHeightsOf (globalMaxHeight UVRects) Lines 0) Lines) := by
  unfold GetVerticalPositionsTopAligned
  simp only [BuildVerticalLineMetrics_eq]
  rw [verticalLoop_eq _ _ Lines 0 [] (by simp [length_cumulativeHeightsOf])]
  simp

theorem getAt_last (Heights : List ℚ) (n : Nat) (hn : 0 < n) (hlen : Heights.length = n) :
    getAt Heights ((n : Int) - 1) = some (Heights.getD (n - 1) 0) := by
  have hpos : (0 : Int) ≤ (n : Int) - 1 := by omega
  have hnat : ((n : Int) - 1).toNat = n - 1 := by omega
  have hlt : n - 1 < Heights.length := by omega
  simp [getAt, hpos, hnat, List.getD, List.getElem?_eq_getElem hlt]

/-- Closed form of `GetVerticalPositionsCenterAligned` on at least one line. -/
theorem GetVerticalPositionsCenterAligned_eq (UVRects : List FVector4) (Unicode : List Int)
    (Lines : List (List Int)) (hne : 0 < Lines.length) :
    GetVerticalPositionsCenterAligned UVRects Unicode Lines =
      some (columnOffsets
        (fun H => H -
          (cumulativeHeightsOf (globalMaxHeight UVRects) Lines 0).getD (Lines.length - 1) 0 *
            (1 / 2) - globalMaxHeight UVRects * (1 / 2))
        (cumulativeHeightsOf (globalMaxHeight UVRects) Lines 0) Lines) := by
  unfold GetVerticalPositionsCenterAligned
  simp only [BuildVerticalLineMetrics_eq]
  rw [getAt_last _ Lines.length hne (length_cumulativeHeightsOf _ _ _)]
  simp only []
  rw [verticalLoop_eq _ _ Lines 0 [] (by simp [length_cumulativeHeightsOf])]
  simp

/-- Closed form of `GetVerticalPositionsBottomAligned` on at least one line. -/
theorem GetVerticalPositionsBottomAligned_eq (UVRects : List FVector4) (Unicode : List Int)
    (Lines : List (List Int)) (hne : 0 < Lines.length) :
    GetVerticalPositionsBottomAligned UVRects Unicode Lines =
      some (columnOffsets
        (fun H => H - globalMaxHeight UVRects * (1 / 2) -
          ((cumulativeHeightsOf (globalMaxHeight UVRects) Lines 0).getD (Lines.length - 1) 0 -
            globalMaxHeight UVRects * (1 / 2)))
        (cumulativeHeightsOf (globalMaxHeight UVRects) Lines 0) Lines) := by
  unfold GetVerticalPositionsBottomAligned
  simp only [BuildVerticalLineMetrics_eq, if_pos hne]
  rw [getAt_last _ Lines.length hne (length_cumulativeHeightsOf _ _ _)]
  simp only []
  rw [verticalLoop_eq _ _ Lines 0 [] (by simp [length_cumulativeHeightsOf])]
  simp

/-- The horizontal positions are computed, one per character of the lines. -/
theorem horizontalPositions_total (UVRects : List FVector4) (Unicode : List Int)
    (Lines : List (List Int)) (XAlignment : ENTPTextHorizontalAlignment) :
    ∃ H, horizontalPositions UVRects Unicode Lines XAlignment = some H ∧
      H.length = Lines.flatten.length := by
  unfold horizontalPositions
  by_cases hne : 0 < Lines.length
  · rw [if_pos hne]
    cases XAlignment with
    | NTP_THA_Left =>
      exact ⟨_, GetHorizontalPositionsLeftAligned_eq UVRects Unicode Lines,
        length_flatten_lineOffsets UVRects (fun _ C W => C - W * (1 / 2)) Lines⟩
    | NTP_THA_Center =>
      exact ⟨_, GetHorizontalPositionsCenterAligned_eq UVRects Unicode Lines,
        length_flatten_lineOffsets UVRects
          (fun Line C W => C - totalWidthOf UVRects Line * (1 / 2) - W * (1 / 2)) Lines⟩
    | NTP_THA_Right =>
      exact ⟨_, GetHorizontalPositionsRightAligned_eq UVRects Unicode Lines,
        length_flatten_lineOffsets UVRects
          (fun Line C W => C - W * (1 / 2) - totalWidthOf UVRects Line) Lines⟩
  · have hnil : Lines = [] := by
      cases Lines with
      | nil => rfl
      | cons a l => simp at hne
    subst hnil
    exact ⟨[], by simp, rfl⟩

/-- The vertical positions are computed, one per character of the lines. -/
theorem verticalPositions_total (UVRects : List FVector4) (Unicode : List Int)
    (Lines : List (List Int)) (YAlignment : ENTPTextVerticalAlignment) :
    ∃ V, verticalPositions UVRects Unicode Lines YAlignment = some V ∧
      V.length = Lines.flatten.length := by
  unfold verticalPositions
  by_cases hne : 0 < Lines.length
  · rw [if_pos hne]
    have hlen : Lines.length ≤ (cumulativeHeightsOf (globalMaxHeight UVRects) Lines 0).length := by
      rw [length_cumulativeHeightsOf]
    cases YAlignment with
    | NTP_TVA_Top =>
      exact ⟨_, GetVerticalPositionsTopAligned_eq UVRects Unicode Lines,
        length_columnOffsets _ Lines _ hlen⟩
    | NTP_TVA_Center =>
      exact ⟨_, GetVerticalPositionsCenterAligned_eq UVRects Unicode Lines hne,
        length_columnOffsets _ Lines _ hlen⟩
    | NTP_TVA_Bottom =>
      exact ⟨_, GetVerticalPositionsBottomAligned_eq UVRects Unicode Lines hne,
        length_columnOffsets _ Lines _ hlen⟩
  · have hnil : Lines = [] := by
      cases Lines with
      | nil => rfl
      | cons a l => simp at hne
    subst hnil
    exact ⟨[], by simp, rfl⟩

theorem flatten_splitLines (Text : List Int) : (splitLines Text).flatten = Text := by
  rw [splitLines_eq, flatten_linesFrom]; simp

theorem zipAt_eq (H V : List ℚ) (i : Nat) (hH : i < H.length) (hV : i < V.length) :
    zipAt H V i = some ⟨H.getD i 0, V.getD i 0⟩ := by
  simp [zipAt, List.getD, List.getElem?_eq_getElem hH, List.getElem?_eq_getElem hV]

/-- `GetCharacterPositions` returns one position per character of the text. -/
theorem GetCharacterPositions_total (UVRects : List FVector4) (InputString : List Int)
    (XAlignment : ENTPTextHorizontalAlignment) (YAlignment : ENTPTextVerticalAlignment) :
    ∃ P, GetCharacterPositions UVRects InputString XAlignment YAlignment = some P ∧
      P.length = InputString.length := by
  obtain ⟨H, hH, hHlen⟩ :=
    horizontalPositions_total UVRects InputString (splitLines InputString) XAlignment
  obtain ⟨V, hV, hVlen⟩ :=
    verticalPositions_total UVRects InputString (splitLines InputString) YAlignment
  rw [flatten_splitLines] at hHlen hVlen
  refine ⟨(List.range InputString.length).map (fun i => ⟨H.getD i 0, V.getD i 0⟩), ?_, by simp⟩
  unfold GetCharacterPositions
  simp only [hH, hV]
  apply mapM_eq_some_map
  intro i hi
  have hi2 : i < InputString.length := by simpa using hi
  exact zipAt_eq H V i (by omega) (by omega)

theorem cumulativeWidthsOf_eq_range (UVRects : List FVector4) (Line : List Int) :
    ∀ acc : ℚ, cumulativeWidthsOf UVRects Line acc =
      (List.range Line.length).map
        (fun j => acc + ((Line.take (j + 1)).map (widthOf UVRects)).sum) := by
  induction Line with
  | nil => intro acc; rfl
  | cons c rest ih =>
    intro acc
    rw [cumulativeWidthsOf, ih, List.length_cons, List.range_succ_eq_map, List.map_cons,
      List.map_map]
    congr 1
    · simp
    · apply List.map_congr_left
      intro j _
      simp only [Function.comp, Nat.succ_eq_add_one, List.take_succ_cons, List.map_cons,
        List.sum_cons]
      ring

/-- The offsets of the characters of a line, character by character. -/
theorem lineOffsets_eq_range (UVRects : List FVector4) (Offset : ℚ → ℚ → ℚ)
    (Line : List Int) :
    lineOffsets UVRects Offset Line =
      (List.range Line.length).map
        (fun j => Offset (((Line.take (j + 1)).map (widthOf UVRects)).sum)
          (widthOf UVRects (Line.getD j 0))) := by
  apply List.ext_getElem
  · simp [lineOffsets, length_cumulativeWidthsOf]
  · intro j h1 h2
    have hj : j < Line.length := by simpa using h2
    simp [lineOffsets, cumulativeWidthsOf_eq_range, List.getD, List.getElem?_eq_getElem hj]

theorem totalWidthOf_eq (UVRects : List FVector4) (Line : List Int) :
    totalWidthOf UVRects Line = lineWidth UVRects Line := by
  cases hL : Line with
  | nil => simp [totalWidthOf, lineWidth, cumulativeWidthsOf]
  | cons c rest =>
    have hlt : (c :: rest).length - 1 < (List.range (c :: rest).length).length := by simp
    simp only [totalWidthOf, lineWidth, cumulativeWidthsOf_eq_range, List.getD,
      List.get?_eq_getElem?]
    rw [List.getElem?_map, List.getElem?_eq_getElem hlt]
    simp
    rw [List.take_of_length_le (by simp)]

theorem perCharacter_eq_lineOffsets (UVRects : List FVector4)
    (Offset : List Int → ℚ → ℚ → ℚ) (Lines : List (List Int)) :
    (Lines.map (fun Line => lineOffsets UVRects (Offset Line) Line)).flatten =
      perCharacter Lines (fun Line j =>
        Offset Line (((Line.take (j + 1)).map (widthOf UVRects)).sum)
          (widthOf UVRects (Line.getD j 0))) := by
  simp only [perCharacter, lineOffsets_eq_range]

theorem length_perCharacter (Lines : List (List Int)) (offset : List Int → Nat → ℚ) :
    (perCharacter Lines offset).length = Lines.flatten.length := by
  induction Lines with
  | nil => rfl
  | cons Line rest ih =>
    simp only [perCharacter] at ih ⊢
    simp only [List.map_cons, List.flatten_cons, List.length_append, ih, List.length_map,
      List.length_range]

/-- The entry of character `j` of a line, in a layout given character by character. -/
theorem getElem?_perCharacter (Before After : List (List Int)) (Line : List Int)
    (offset : List Int → Nat → ℚ) (j : Nat) (hj : j < Line.length) :
    (perCharacter (Before ++ Line :: After) offset)[Before.flatten.length + j]? =
      some (offset Line j) := by
  have hlen := length_perCharacter Before offset
  simp only [perCharacter] at hlen ⊢
  rw [List.map_append, List.flatten_append, List.map_cons, List.flatten_cons,
    List.getElem?_append_right (by omega), hlen, Nat.add_sub_cancel_left,
    List.getElem?_append_left (by simpa using hj)]
  simp [hj]

/-- The loop computing `GlobalMaxHeight`, started from `init`: the result is at least
`init` and every height, and it is `init` or the height of an entry. -/
theorem foldl_maxHeight (UVRects : List FVector4) :
    ∀ init : ℚ,
      init ≤ UVRects.foldl (fun m R => if R.Y > m then R.Y else m) init ∧
        (∀ R ∈ UVRects, R.Y ≤ UVRects.foldl (fun m R => if R.Y > m then R.Y else m) init) ∧
        (UVRects.foldl (fun m R => if R.Y > m then R.Y else m) init = init ∨
          ∃ R ∈ UVRects, R.Y = UVRects.foldl (fun m R => if R.Y > m then R.Y else m) init) := by
  induction UVRects with
  | nil => intro init; simp
  | cons R rest ih =>
    intro init
    simp only [List.foldl_cons]
    obtain ⟨h1, h2, h3⟩ := ih (if R.Y > init then R.Y else init)
    have hinit : init ≤ (if R.Y > init then R.Y else init) := by
      split
      · exact le_of_lt (by assumption)
      · exact le_refl _
    have hR : R.Y ≤ (if R.Y > init then R.Y else init) := by
      split
      · exact le_refl _
      · exact not_lt.mp (by assumption)
    refine ⟨le_trans hinit h1, ?_, ?_⟩
    · intro R2 hR2
      rcases List.mem_cons.mp hR2 with h | h
      · rw [h]; exact le_trans hR h1
      · exact h2 R2 h
    · rcases h3 with h3 | ⟨R2, hR2, h3⟩
      · by_cases hgt : R.Y > init
        · right
          refine ⟨R, by simp, ?_⟩
          rw [h3, if_pos hgt]
        · left
          rw [h3, if_neg hgt]
      · exact Or.inr ⟨R2, by simp [hR2], h3⟩

theorem cumulativeHeightsOf_eq_range (LineHeight : ℚ) (Lines : List (List Int)) :
    ∀ acc : ℚ, cumulativeHeightsOf LineHeight Lines acc =
      (List.range Lines.length).map (fun i => acc + cumulativeHeightAt LineHeight i) := by
  induction Lines with
  | nil => intro acc; rfl
  | cons Line rest ih =>
    intro acc
    rw [cumulativeHeightsOf, ih, List.length_cons, List.range_succ_eq_map, List.map_cons,
      List.map_map]
    congr 1
    · simp [cumulativeHeightAt]
    · apply List.map_congr_left
      intro i _
      simp only [Function.comp, cumulativeHeightAt, Nat.succ_eq_add_one, Nat.cast_add,
        Nat.cast_one]
      ring

/-- The vertical offsets, line by line: line `i0 + k` of the layout is line `k` of `rest`. -/
theorem columnOffsets_eq_perLineFrom (Offset : ℚ → ℚ) (LineHeight : ℚ)
    (rest : List (List Int)) :
    ∀ (i0 : Nat) (acc : ℚ), acc = (i0 : ℚ) * LineHeight →
      columnOffsets Offset (cumulativeHeightsOf LineHeight rest acc) rest =
        perLineFrom (fun i => Offset (cumulativeHeightAt LineHeight i)) rest i0 := by
  induction rest with
  | nil => intro i0 acc _; simp [columnOffsets, perLineFrom]
  | cons Line rest ih =>
    intro i0 acc hacc
    have hnext : acc + LineHeight = ((i0 + 1 : Nat) : ℚ) * LineHeight := by
      rw [hacc]; push_cast; ring
    have ih2 := ih (i0 + 1) (acc + LineHeight) hnext
    simp only [columnOffsets] at ih2 ⊢
    simp only [cumulativeHeightsOf, List.zipWith_cons_cons, List.flatten_cons, perLineFrom, ih2]
    congr 3
    rw [hacc, cumulativeHeightAt]
    ring

theorem columnOffsets_eq_perLine (Offset : ℚ → ℚ) (LineHeight : ℚ) (Lines : List (List Int)) :
    columnOffsets Offset (cumulativeHeightsOf LineHeight Lines 0) Lines =
      perLine Lines (fun i => Offset (cumulativeHeightAt LineHeight i)) :=
  columnOffsets_eq_perLineFrom Offset LineHeight Lines 0 0 (by simp)

theorem length_perLineFrom (offset : Nat → ℚ) (Lines : List (List Int)) :
    ∀ i : Nat, (perLineFrom offset Lines i).length = Lines.flatten.length := by
  induction Lines with
  | nil => intro i; rfl
  | cons Line rest ih =>
    intro i
    simp only [perLineFrom, List.length_append, List.length_replicate, List.flatten_cons, ih]

/-- The entry of character `j` of a line, in a layout given line by line. -/
theorem getElem?_perLineFrom (offset : Nat → ℚ) (Before After : List (List Int))
    (Line : List Int) (j : Nat) (hj : j < Line.length) :
    ∀ i0 : Nat, (perLineFrom offset (Before ++ Line :: After) i0)[Before.flatten.length + j]? =
      some (offset (i0 + Before.length)) := by
  induction Before with
  | nil =>
    intro i0
    simp only [List.nil_append, perLineFrom, List.flatten_nil, List.length_nil, Nat.zero_add,
      Nat.add_zero]
    rw [List.getElem?_append_left (by simpa using hj)]
    simp [hj]
  | cons B rest ih =>
    intro i0
    simp only [List.cons_append, perLineFrom, List.flatten_cons, List.length_append,
      List.length_cons, List.append_eq]
    rw [List.getElem?_append_right (by simp; omega)]
    have hidx : B.length + rest.flatten.length + j - (List.replicate B.length (offset i0)).length =
        rest.flatten.length + j := by
      simp; omega
    rw [hidx, ih (i0 + 1)]
    congr 2
    omega

theorem getElem?_perLine (offset : Nat → ℚ) (Before After : List (List Int))
    (Line : List Int) (j : Nat) (hj : j < Line.length) :
    (perLine (Before ++ Line :: After) offset)[Before.flatten.length + j]? =
      some (offset Before.length) := by
  have h := getElem?_perLineFrom offset Before After Line j hj 0
  simpa [perLine] using h

theorem BuildVerticalLineMetrics_heights (UVRects : List FVector4) (Lines : List (List Int)) :
    (BuildVerticalLineMetrics UVRects Lines).1 =
      (List.range Lines.length).map
        (cumulativeHeightAt (BuildVerticalLineMetrics UVRects Lines).2) := by
  rw [BuildVerticalLineMetrics_eq, cumulativeHeightsOf_eq_range]
  simp

theorem getD_cumulativeHeights (LineHeight : ℚ) (Lines : List (List Int)) (i : Nat)
    (hi : i < Lines.length) :
    (cumulativeHeightsOf LineHeight Lines 0).getD i 0 = cumulativeHeightAt LineHeight i := by
  rw [cumulativeHeightsOf_eq_range]
  simp [List.getD, hi]

theorem getAt_of_valid {α : Type} (xs : List α) (i : Int) (h : IsValidIndex xs i = true) :
    ∃ a, getAt xs i = some a := by
  have h2 : 0 ≤ i ∧ i < (xs.length : Int) := by simpa [IsValidIndex] using h
  have h3 : i.toNat < xs.length := by omega
  exact ⟨xs[i.toNat], by simp [getAt, h2.1, List.getElem?_eq_getElem h3]⟩

theorem valid_of_getAt {α : Type} (xs : List α) (i : Int) (a : α) (h : getAt xs i = some a) :
    IsValidIndex xs i = true ∧ 0 ≤ i ∧ i < (xs.length : Int) := by
  unfold getAt at h
  by_cases h0 : 0 ≤ i
  · rw [if_pos h0] at h
    obtain ⟨hlt, _⟩ := List.getElem?_eq_some.mp h
    have h1 : i < (xs.length : Int) := by omega
    exact ⟨by simp [IsValidIndex, h0, h1], h0, h1⟩
  · rw [if_neg h0] at h
    exact absurd h (by simp)

theorem getAt_of_bounds {α : Type} (xs : List α) (i : Int) (h0 : 0 ≤ i)
    (h1 : i < (xs.length : Int)) : ∃ a, getAt xs i = some a :=
  getAt_of_valid xs i (by simp [IsValidIndex, h0, h1])

/-- The text `ab` with the positions `positionsAB` gives `resultAB` under both policies. -/
theorem ProcessText_textAB :
    ProcessTextWithWhitespace textAB positionsAB = some resultAB ∧
      ProcessTextWithoutWhitespace textAB positionsAB = some resultAB :=
  ⟨rfl, rfl⟩

/-- The count accessors: 0 outside the lines (words), the count inside. -/
theorem countAccessor_spec (Starts Counts : List Int) (hlen : Counts.length = Starts.length)
    (i : Int) :
    (i < 0 ∨ (Starts.length : Int) ≤ i →
        (if (Starts.length : Int) > 0 ∧ i ≥ 0 ∧ i < (Starts.length : Int) ∧
            IsValidIndex Counts i = true then getAt Counts i else some 0) = some 0) ∧
      (0 ≤ i → i < (Starts.length : Int) →
        ∃ n, getAt Counts i = some n ∧
          (if (Starts.length : Int) > 0 ∧ i ≥ 0 ∧ i < (Starts.length : Int) ∧
            IsValidIndex Counts i = true then getAt Counts i else some 0) = some n) := by
  constructor
  · intro h
    rw [if_neg]
    rintro ⟨_, h0, h1, _⟩
    omega
  · intro h0 h1
    have hv : IsValidIndex Counts i = true := by
      simp [IsValidIndex, h0, hlen, h1]
    obtain ⟨n, hn⟩ := getAt_of_valid Counts i hv
    refine ⟨n, hn, ?_⟩
    rw [if_pos ⟨by omega, h0, h1, hv⟩, hn]

/-- The position accessor on data with at least one character: it reads the position at the
clamped index `j`. -/
theorem positionVM_of_clamp (D : FNDIFontUVInfoInstanceData)
    (hP : D.CharacterPositions.length = D.Unicode.length) (i j : Int) (hj0 : 0 ≤ j)
    (hj1 : j < (D.Unicode.length : Int))
    (hc : Clamp i 0 ((D.Unicode.length : Int) - 1) = j) :
    ∃ P, getAt D.CharacterPositions j = some P ∧
      GetCharacterPositionVM D i = some ⟨0, -P.X, -P.Y⟩ := by
  have hv : IsValidIndex D.CharacterPositions j = true := by
    simp [IsValidIndex, hj0, hP, hj1]
  obtain ⟨P, hPj⟩ := getAt_of_valid D.CharacterPositions j hv
  refine ⟨P, hPj, ?_⟩
  have hn : ¬ (D.Unicode.length : Int) ≤ 0 := by omega
  simp only [GetCharacterPositionVM, hn, if_false, hc, hv, if_true, hPj]

theorem endsOpen_cons (c : Int) (rest : List Int) :
    endsOpen (c :: rest) = if rest = [] then decide (c ≠ LF ∧ c ≠ CR) else endsOpen rest := by
  cases rest with
  | nil => simp [endsOpen]
  | cons d rest => simp [endsOpen, List.getLast?_cons_cons]

/-- The number of lines of the Line Splitter: one per newline event, and one more for a
final line without terminator. -/
theorem length_linesFrom (rest : List Int) :
    ∀ cur : List Int, (linesFrom rest cur).length =
      newlineEvents rest +
        (if rest = [] then (if cur = [] then 0 else 1) else (if endsOpen rest then 1 else 0)) := by
  have hnl : ∀ (c : Int) (rest2 : List Int), (c = LF ∨ c = CR) →
      (linesFrom rest2 []).length = newlineEvents rest2 +
        (if rest2 = [] then (if ([] : List Int) = [] then 0 else 1)
          else (if endsOpen rest2 then 1 else 0)) →
      (linesFrom rest2 []).length + 1 = newlineEvents rest2 + 1 +
        (if endsOpen (c :: rest2) then 1 else 0) := by
    intro c rest2 hc ih
    have hdec : decide (c ≠ LF ∧ c ≠ CR) = false := by
      rcases hc with h | h <;> simp [h]
    rw [ih, endsOpen_cons]
    by_cases hr : rest2 = []
    · simp [hr, hdec]
    · simp only [hr, if_false]
      omega
  induction rest using scan_induction with
  | hnil => intro cur; cases cur <;> simp [linesFrom, newlineEvents, countLoneLF, countLoneCR, countCRLF]
  | hcrlf rest ih =>
    intro cur
    have h := hnl LF rest (Or.inl rfl) (ih [])
    have he : endsOpen (CR :: LF :: rest) = endsOpen (LF :: rest) := by
      rw [endsOpen_cons]; simp
    rw [linesFrom_CRLF, newlineEvents_CRLF, List.length_cons, he]
    simpa using h
  | hstep c rest hnot ih =>
    intro cur
    by_cases hLF : c = LF
    · subst hLF
      have h := hnl LF rest (Or.inl rfl) (ih [])
      rw [linesFrom_LF, newlineEvents_LF, List.length_cons]
      simpa using h
    · by_cases hCR : c = CR
      · subst hCR
        have h := hnl CR rest (Or.inr rfl) (ih [])
        rw [linesFrom_CR _ _ (hnot rfl), newlineEvents_CR _ (hnot rfl), List.length_cons]
        simpa using h
      · rw [linesFrom_other c _ _ hLF hCR, newlineEvents_other c rest hLF hCR, ih,
          endsOpen_cons]
        by_cases hr : rest = []
        · simp [hr, hLF, hCR]
        · simp [hr]

theorem length_splitLines (Text : List Int) :
    (splitLines Text).length = newlineEvents Text + (if endsOpen Text then 1 else 0) := by
  rw [splitLines_eq, length_linesFrom]
  by_cases h : Text = []
  · simp [h, endsOpen]
  · simp [h]

theorem head?_append_ne (pre rest : List Int) (x : Int) (h1 : pre.head? ≠ some x)
    (h2 : pre = [] → rest.head? ≠ some x) : (pre ++ rest).head? ≠ some x := by
  cases pre with
  | nil => simpa using h2 rfl
  | cons a l => simpa using h1

/-- The line starts of `keepLoop` on a text cut in two, when the cut does not separate a CR
from the LF that follows it. -/
theorem keepLineStarts_append (pre rest : List Int) :
    ∀ i : Nat, (pre.getLast? = some CR → rest.head? ≠ some LF) →
      keepLineStarts (pre ++ rest) i =
        keepLineStarts pre i ++ keepLineStarts rest (i + pre.length) := by
  induction pre using scan_induction with
  | hnil => intro i _; simp [keepLineStarts]
  | hcrlf pre2 ih =>
    intro i h
    have h2 : pre2.getLast? = some CR → rest.head? ≠ some LF := by
      intro hl
      apply h
      cases pre2 with
      | nil => simp at hl
      | cons a l => simpa [List.getLast?_cons_cons] using hl
    have e : CR :: LF :: pre2 ++ rest = CR :: LF :: (pre2 ++ rest) := by simp
    rw [e, keepLineStarts_CRLF, keepLineStarts_CRLF, ih (i + 1 + 1) h2]
    simp only [List.length_cons, List.cons_append]
    congr 3
    omega
  | hstep c pre2 hnot ih =>
    intro i h
    have h2 : pre2.getLast? = some CR → rest.head? ≠ some LF := by
      intro hl
      apply h
      cases pre2 with
      | nil => simp at hl
      | cons a l => simpa [List.getLast?_cons_cons] using hl
    have e : c :: pre2 ++ rest = c :: (pre2 ++ rest) := by simp
    have hidx : i + 1 + pre2.length = i + (c :: pre2).length := by
      simp only [List.length_cons]; omega
    rw [e]
    by_cases hLF : c = LF
    · subst hLF
      rw [keepLineStarts_LF, keepLineStarts_LF, ih (i + 1) h2, hidx]
      simp
    · by_cases hCR : c = CR
      · subst hCR
        have hhead : (pre2 ++ rest).head? ≠ some LF := by
          apply head?_append_ne _ _ _ (hnot rfl)
          intro hnil
          apply h
          simp [hnil]
        rw [keepLineStarts_CR _ _ hhead, keepLineStarts_CR _ _ (hnot rfl), ih (i + 1) h2, hidx]
        simp
      · rw [keepLineStarts_other c _ i hLF hCR, keepLineStarts_other c _ i hLF hCR,
          ih (i + 1) h2, hidx]

/-- Under Drop-Whitespace the runs are contiguous among the emitted characters: their starts
are the starts of consecutive blocks of their lengths. -/
theorem drop_runs_contiguous (rest : List Int) :
    ∀ (idx : Nat) (cur : Option (Nat × List Int)),
      (∀ w, cur = some w → w.1 + w.2.length = idx) →
      (runsAux false rest idx cur).map Prod.fst =
        blockStarts (runBase cur idx) ((runsAux false rest idx cur).map (fun p => p.2.length)) := by
  induction rest with
  | nil =>
    intro idx cur _
    cases cur <;> simp [runsAux, closeRun, blockStarts, runBase]
  | cons c rest ih =>
    intro idx cur hcur
    by_cases hws : IsWhitespaceChar c = true
    · have hstep : runsAux false (c :: rest) idx cur =
          closeRun cur ++ runsAux false rest idx none := by
        simp [runsAux, hws]
      have ih2 := ih idx none (by simp)
      rw [hstep]
      cases cur with
      | none => simpa [closeRun, runBase] using ih2
      | some w =>
        have hw := hcur w rfl
        simp only [closeRun, List.singleton_append, List.map_cons, blockStarts, runBase, hw]
        rw [ih2]
        simp [runBase]
    · have hws0 : IsWhitespaceChar c = false := by simpa using hws
      have hstep : runsAux false (c :: rest) idx cur =
          runsAux false rest (idx + 1) (some (extendRun cur idx c)) := by
        simp [runsAux, hws0]
      have hinv : ∀ w, some (extendRun cur idx c) = some w → w.1 + w.2.length = idx + 1 := by
        intro w hw
        have hw2 : extendRun cur idx c = w := by simpa using hw
        subst hw2
        cases cur with
        | none => simp [extendRun]
        | some w0 =>
          have := hcur w0 rfl
          simp only [extendRun, List.length_append, List.length_singleton]
          omega
      have hbase : runBase (some (extendRun cur idx c)) (idx + 1) = runBase cur idx := by
        cases cur <;> simp [runBase, extendRun]
      rw [hstep, ih (idx + 1) _ hinv, hbase]

theorem lineCountsOf_blockStarts (ns : List Nat) :
    ∀ base : Nat,
      lineCountsOf ((base + ns.sum : Nat) : Int)
          ((blockStarts base ns).map (fun (s : Nat) => (s : Int))) =
        ns.map (fun (n : Nat) => (n : Int)) := by
  induction ns with
  | nil => intro base; rfl
  | cons n ns ih =>
    intro base
    cases ns with
    | nil => simp [blockStarts, lineCountsOf]
    | cons m ns =>
      have ih2 := ih (base + n)
      have hsum : base + (n :: m :: ns).sum = base + n + (m :: ns).sum := by
        simp only [List.sum_cons]; omega
      rw [hsum]
      simp only [blockStarts, List.map_cons, lineCountsOf] at ih2 ⊢
      rw [ih2]
      simp

theorem sum_lengths_runsAux (adv : Bool) (Text : List Int) :
    ((runsAux adv Text 0 none).map (fun p => p.2.length)).sum = (nonWhitespace Text).length := by
  have h := sum_runsAux adv Text 0 none
  have hcast : ((runsAux adv Text 0 none).map (fun p => (p.2.length : Int))).sum =
      ((((runsAux adv Text 0 none).map (fun p => p.2.length)).sum : Nat) : Int) := by
    rw [Nat.cast_list_sum, List.map_map]
    rfl
  rw [hcast] at h
  simp only [openChars, List.length_nil, Nat.cast_zero, zero_add] at h
  exact_mod_cast h

/-- Under Drop-Whitespace the word counts are the consecutive differences of the word
starts, closed by the number of codes. -/
theorem drop_wordCounts_eq (Text : List Int) :
    (runsAux false Text 0 none).map (fun p => (p.2.length : Int)) =
      lineCountsOf ((nonWhitespace Text).length : Int)
        ((runsAux false Text 0 none).map (fun p => (p.1 : Int))) := by
  have h1 := drop_runs_contiguous Text 0 none (by simp)
  have h2 := lineCountsOf_blockStarts ((runsAux false Text 0 none).map (fun p => p.2.length)) 0
  have h3 := sum_lengths_runsAux false Text
  simp only [runBase] at h1
  rw [← h1, Nat.zero_add, h3, List.map_map, List.map_map] at h2
  exact h2.symm

theorem Spaced_mono (total : Nat) (L : List (Nat × List Int)) (lo lo2 : Nat) (h : lo2 ≤ lo)
    (hs : Spaced total lo L) : Spaced total lo2 L := by
  cases L with
  | nil => trivial
  | cons p L => exact ⟨le_trans h hs.1, hs.2.1, hs.2.2⟩

/-- Under Keep-Whitespace the runs are apart among the emitted characters. -/
theorem keep_runs_spaced (rest : List Int) :
    ∀ (idx : Nat) (cur : Option (Nat × List Int)),
      (∀ w, cur = some w → w.1 + w.2.length = idx) →
      Spaced (idx + rest.length) (runBase cur idx) (runsAux true rest idx cur) := by
  induction rest with
  | nil =>
    intro idx cur hcur
    cases cur with
    | none => simp [runsAux, closeRun, Spaced]
    | some w =>
      have hw := hcur w rfl
      simp only [runsAux, closeRun, Spaced, runBase, List.length_nil]
      exact ⟨le_refl _, by omega, trivial⟩
  | cons c rest ih =>
    intro idx cur hcur
    have htot : idx + (c :: rest).length = idx + 1 + rest.length := by
      simp only [List.length_cons]; omega
    rw [htot]
    by_cases hws : IsWhitespaceChar c = true
    · have hstep : runsAux true (c :: rest) idx cur =
          closeRun cur ++ runsAux true rest (idx + 1) none := by
        simp [runsAux, hws]
      have ih2 := ih (idx + 1) none (by simp)
      simp only [runBase] at ih2
      rw [hstep]
      cases cur with
      | none =>
        simp only [closeRun, List.nil_append, runBase]
        exact Spaced_mono _ _ _ _ (by omega) ih2
      | some w =>
        have hw := hcur w rfl
        simp only [closeRun, List.singleton_append, Spaced, runBase]
        refine ⟨le_refl _, by omega, ?_⟩
        rw [hw]
        exact ih2
    · have hws0 : IsWhitespaceChar c = false := by simpa using hws
      have hstep : runsAux true (c :: rest) idx cur =
          runsAux true rest (idx + 1) (some (extendRun cur idx c)) := by
        simp [runsAux, hws0]
      have hinv : ∀ w, some (extendRun cur idx c) = some w → w.1 + w.2.length = idx + 1 := by
        intro w hw
        have hw2 : extendRun cur idx c = w := by simpa using hw
        subst hw2
        cases cur with
        | none => simp [extendRun]
        | some w0 =>
          have := hcur w0 rfl
          simp only [extendRun, List.length_append, List.length_singleton]
          omega
      have hbase : runBase (some (extendRun cur idx c)) (idx + 1) = runBase cur idx := by
        cases cur <;> simp [runBase, extendRun]
      rw [hstep, ← hbase]
      exact ih (idx + 1) _ hinv

theorem Spaced_getElem (total : Nat) (L : List (Nat × List Int)) :
    ∀ (lo k : Nat), Spaced total lo L →
      (∀ hk : k + 1 < L.length,
        (L.get ⟨k, by omega⟩).1 + (L.get ⟨k, by omega⟩).2.length < (L.get ⟨k + 1, hk⟩).1) ∧
      (∀ hk : k < L.length,
        (L.get ⟨k, hk⟩).1 + (L.get ⟨k, hk⟩).2.length ≤ total) := by
  induction L with
  | nil => intro lo k _; exact ⟨fun hk => absurd hk (by simp), fun hk => absurd hk (by simp)⟩
  | cons p L ih =>
    intro lo k hs
    obtain ⟨_, h2, h3⟩ := hs
    cases k with
    | zero =>
      refine ⟨fun hk => ?_, fun _ => h2⟩
      cases L with
      | nil => simp at hk
      | cons q L =>
        have := h3.1
        simp only [List.get_eq_getElem, List.getElem_cons_zero, List.getElem_cons_succ]
        omega
    | succ k =>
      have ih2 := ih _ k h3
      refine ⟨fun hk => ?_, fun hk => ?_⟩
      · have := ih2.1 (by simpa using hk)
        simpa using this
      · have := ih2.2 (by simpa using hk)
        simpa using this

/-- The Drop-Whitespace scan finds the runs of the Keep-Whitespace scan, each start index
being lowered to the number of non-whitespace characters before it. `pre` is the text
already scanned. -/
theorem runsAux_drop_of_keep (Text : List Int) (rest : List Int) :
    ∀ (pre : List Int) (cur : Option (Nat × List Int)), Text = pre ++ rest →
      runsAux false rest (nonWhitespace pre).length (cur.map (dropRun Text)) =
        (runsAux true rest pre.length cur).map (dropRun Text) := by
  induction rest with
  | nil =>
    intro pre cur _
    cases cur <;> simp [runsAux, closeRun]
  | cons c rest ih =>
    intro pre cur hT
    have hT2 : Text = (pre ++ [c]) ++ rest := by simp [hT]
    by_cases hws : IsWhitespaceChar c = true
    · have hn : nonWhitespace (pre ++ [c]) = nonWhitespace pre := by
        simp [nonWhitespace, hws]
      have h2 := ih (pre ++ [c]) none hT2
      rw [hn] at h2
      simp only [Option.map_none', List.length_append, List.length_cons, List.length_nil] at h2
      simp only [runsAux, hws, if_true, Bool.false_eq_true, if_false, List.map_append]
      rw [h2]
      cases cur <;> simp [closeRun]
    · have hws0 : IsWhitespaceChar c = false := by simpa using hws
      have hn : (nonWhitespace (pre ++ [c])).length = (nonWhitespace pre).length + 1 := by
        simp [nonWhitespace, hws0]
      have h2 := ih (pre ++ [c]) (some (extendRun cur pre.length c)) hT2
      rw [hn] at h2
      simp only [List.length_append, List.length_cons, List.length_nil] at h2
      have hstepK : runsAux true (c :: rest) pre.length cur =
          runsAux true rest (pre.length + 1) (some (extendRun cur pre.length c)) := by
        simp [runsAux, hws0]
      have hstepD : runsAux false (c :: rest) (nonWhitespace pre).length
            (cur.map (dropRun Text)) =
          runsAux false rest ((nonWhitespace pre).length + 1)
            (some (extendRun (cur.map (dropRun Text)) (nonWhitespace pre).length c)) := by
        simp [runsAux, hws0]
      have hext : extendRun (cur.map (dropRun Text)) (nonWhitespace pre).length c =
          dropRun Text (extendRun cur pre.length c) := by
        cases cur with
        | none => simp [extendRun, dropRun, hT]
        | some w => simp [extendRun, dropRun]
      rw [hstepK, hstepD, hext, ← h2]
      rfl

theorem length_nonWhitespace_take (Text : List Int) (s : Nat) (hs : s ≤ Text.length) :
    ((nonWhitespace (Text.take s)).length : Int) = (s : Int) - whitespaceBefore Text s := by
  have h := List.length_eq_length_filter_add (l := Text.take s) IsWhitespaceChar
  rw [List.length_take, Nat.min_eq_left hs] at h
  unfold whitespaceBefore nonWhitespace
  omega

/-- The function `GetVerticalPositionsBottomAligned` runs its loop with the anchor
`bottomAnchor`. -/
theorem GetVerticalPositionsBottomAligned_anchor (UVRects : List FVector4)
    (Unicode : List Int) (Lines : List (List Int)) :
    GetVerticalPositionsBottomAligned UVRects Unicode Lines =
      match bottomAnchor UVRects Lines with
      | none => none
      | some A =>
        verticalLoop (BuildVerticalLineMetrics UVRects Lines).1
          (fun H => H - (BuildVerticalLineMetrics UVRects Lines).2 * (1 / 2) - A) Lines 0 [] :=
  rfl

/-- The first line of the Line Splitter begins with the first character of the text. -/
theorem head_linesFrom (rest : List Int) (Next : List Int)
    (h : (linesFrom rest []).head? = some Next) : Next.head? = rest.head? := by
  have hfl := flatten_linesFrom rest []
  have hne := linesFrom_ne_nil rest []
  cases hL : linesFrom rest [] with
  | nil => rw [hL] at h; simp at h
  | cons l tl =>
    rw [hL] at h hfl hne
    have hl : l = Next := by simpa using h
    subst hl
    have hn : l ≠ [] := hne l (by simp)
    cases l with
    | nil => exact absurd rfl hn
    | cons a l2 =>
      rw [List.flatten_cons, List.nil_append] at hfl
      rw [← hfl]
      simp

/-- The lines of the Line Splitter have the boundary shape, the open line `cur` holding no
LF and no CR. -/
theorem linesShape_linesFrom (rest : List Int) :
    ∀ cur : List Int, (∀ c ∈ cur, c ≠ LF ∧ c ≠ CR) → LinesShape (linesFrom rest cur) := by
  induction rest using scan_induction with
  | hnil =>
    intro cur hcur
    cases cur with
    | nil => simp [linesFrom, LinesShape]
    | cons a cur =>
      have hl : linesFrom [] (a :: cur) = [a :: cur] := by simp [linesFrom]
      rw [hl]
      exact ⟨⟨[], ⟨a :: cur, by simp, hcur⟩, Or.inr (Or.inr (Or.inr ⟨rfl, rfl⟩)),
        fun h => by simp at h⟩, trivial⟩
  | hcrlf rest ih =>
    intro cur hcur
    rw [linesFrom_CRLF]
    refine ⟨⟨[CR, LF], ⟨cur, by simp, hcur⟩, Or.inr (Or.inr (Or.inl rfl)), ?_⟩,
      ih [] (by simp)⟩
    intro h
    simp at h
  | hstep c rest hnot ih =>
    intro cur hcur
    by_cases hLF : c = LF
    · subst hLF
      rw [linesFrom_LF]
      refine ⟨⟨[LF], ⟨cur, rfl, hcur⟩, Or.inl rfl, ?_⟩, ih [] (by simp)⟩
      intro h
      simp [LF, CR] at h
    · by_cases hCR : c = CR
      · subst hCR
        rw [linesFrom_CR _ _ (hnot rfl)]
        refine ⟨⟨[CR], ⟨cur, rfl, hcur⟩, Or.inr (Or.inl rfl), ?_⟩, ih [] (by simp)⟩
        intro _ Next hNext
        rw [head_linesFrom rest Next hNext]
        exact hnot rfl
      · rw [linesFrom_other c _ _ hLF hCR]
        apply ih
        intro x hx
        rcases List.mem_append.1 hx with hx | hx
        · exact hcur x hx
        · have : x = c := by simpa using hx
          subst this
          exact ⟨hLF, hCR⟩

/-- The boundary shape, line by line. -/
theorem LinesShape_getElem (Lines : List (List Int)) :
    LinesShape Lines → ∀ (k : Nat) (hk : k < Lines.length),
      ∃ Term : List Int, Terminated (Lines.get ⟨k, hk⟩) Term ∧
        (Term = [LF] ∨ Term = [CR] ∨ Term = [CR, LF] ∨ (Term = [] ∧ k + 1 = Lines.length)) ∧
        (Term = [CR] → ∀ Next, Lines[k + 1]? = some Next → Next.head? ≠ some LF) := by
  induction Lines with
  | nil => intro _ k hk; simp at hk
  | cons Line rest ih =>
    intro hs k hk
    obtain ⟨⟨Term, ht, hterm, hcr⟩, hrest⟩ := hs
    cases k with
    | zero =>
      refine ⟨Term, ht, ?_, ?_⟩
      · rcases hterm with h | h | h | ⟨h1, h2⟩
        · exact Or.inl h
        · exact Or.inr (Or.inl h)
        · exact Or.inr (Or.inr (Or.inl h))
        · exact Or.inr (Or.inr (Or.inr ⟨h1, by simp [h2]⟩))
      · intro h Next hNext
        apply hcr h Next
        cases rest with
        | nil => simp at hNext
        | cons a b => simpa using hNext
    | succ k =>
      have hk2 : k < rest.length := by simpa using hk
      obtain ⟨Term2, ht2, hterm2, hcr2⟩ := ih hrest k hk2
      refine ⟨Term2, by simpa using ht2, ?_, ?_⟩
      · rcases hterm2 with h | h | h | ⟨h1, h2⟩
        · exact Or.inl h
        · exact Or.inr (Or.inl h)
        · exact Or.inr (Or.inr (Or.inl h))
        · exact Or.inr (Or.inr (Or.inr ⟨h1, by simp [h2]⟩))
      · intro h Next hNext
        exact hcr2 h Next (by simpa using hNext)

theorem nonWhitespace_append (a b : List Int) :
    nonWhitespace (a ++ b) = nonWhitespace a ++ nonWhitespace b := by
  simp [nonWhitespace]

/-- Closed form of the line starts of `ProcessTextWithoutWhitespace`: entry `j` is the
number of non-whitespace characters of the first `j` lines of the Line Splitter. -/
theorem dropLineStarts_closed (Text : List Int) (j : Nat)
    (hj : j < ((0 : Int) :: dropLineStarts Text 0).length) :
    ((0 : Int) :: dropLineStarts Text 0)[j]? =
      some (((nonWhitespace ((linesFrom Text []).take j).flatten).length : Nat) : Int) := by
  cases j with
  | zero => simp [nonWhitespace]
  | succ k =>
    have hk : k < (dropLineStarts Text 0).length := by simpa using hj
    obtain ⟨s, hs, _, hle, hdrop⟩ := dropLineStarts_spec Text [] 0 k hk
    have hT : nonWhitespace Text =
        nonWhitespace ((linesFrom Text []).take (k + 1)).flatten ++
          nonWhitespace ((linesFrom Text []).drop (k + 1)).flatten := by
      rw [← nonWhitespace_append, ← List.flatten_append, List.take_append_drop,
        flatten_linesFrom, List.nil_append]
    have h1 := congrArg List.length hdrop
    have h2 := congrArg List.length hT
    rw [List.length_drop] at h1
    rw [List.length_append] at h2
    have hsEq : s = (nonWhitespace ((linesFrom Text []).take (k + 1)).flatten).length := by
      omega
    rw [List.getElem?_cons_succ, hs, hsEq]

theorem getD_dropLineStarts (Text : List Int) (j : Nat)
    (hj : j < ((0 : Int) :: dropLineStarts Text 0).length) :
    ((0 : Int) :: dropLineStarts Text 0).getD j 0 =
      (((nonWhitespace ((linesFrom Text []).take j).flatten).length : Nat) : Int) := by
  rw [List.getD, List.get?_eq_getElem?, dropLineStarts_closed Text j hj]
  rfl

/-- The number of line starts of either pipeline is the number of lines of the Line
Splitter, or one more. -/
theorem length_linesFrom_le (Text : List Int) :
    (linesFrom Text []).length ≤ 1 + newlineEvents Text ∧
      1 + newlineEvents Text ≤ (linesFrom Text []).length + 1 := by
  have h := length_splitLines Text
  rw [splitLines_eq] at h
  by_cases he : endsOpen Text = true
  · simp only [he, if_true] at h
    omega
  · simp only [he, Bool.false_eq_true, if_false] at h
    omega

/-- The line counts of `ProcessTextWithoutWhitespace` against the Line Splitter: the count
of line `k` is the number of non-whitespace characters of line `k` of the Line Splitter,
and a line start beyond the lines of the Line Splitter has the count 0. -/
theorem dropLineCounts_closed (Text : List Int) (k : Nat)
    (hk : k < ((0 : Int) :: dropLineStarts Text 0).length) :
    (lineCountsOf ((nonWhitespace Text).length : Int) ((0 : Int) :: dropLineStarts Text 0))[k]? =
      some (((nonWhitespace ((linesFrom Text []).getD k [])).length : Nat) : Int) := by
  have hlenS : ((0 : Int) :: dropLineStarts Text 0).length = 1 + newlineEvents Text := by
    rw [List.length_cons, length_dropLineStarts]; omega
  obtain ⟨hL1, hL2⟩ := length_linesFrom_le Text
  have hsplit : ∀ j, (nonWhitespace ((linesFrom Text []).take (j + 1)).flatten).length =
      (nonWhitespace ((linesFrom Text []).take j).flatten).length +
        (nonWhitespace ((linesFrom Text []).getD j [])).length := by
    intro j
    by_cases hjL : j < (linesFrom Text []).length
    · rw [List.take_succ, List.getElem?_eq_getElem hjL, List.flatten_append,
        nonWhitespace_append, List.length_append, List.getD, List.get?_eq_getElem?,
        List.getElem?_eq_getElem hjL]
      simp
    · rw [List.take_of_length_le (by omega), List.take_of_length_le (by omega), List.getD,
        List.get?_eq_getElem?, List.getElem?_eq_none (by omega)]
      simp [nonWhitespace]
  have hk0 := getD_dropLineStarts Text k hk
  by_cases hlast : k + 1 < ((0 : Int) :: dropLineStarts Text 0).length
  · rw [(getElem?_lineCountsOf _ _ k).1 hlast, hk0, getD_dropLineStarts Text (k + 1) hlast,
      hsplit k]
    congr 1
    push_cast
    ring
  · have hlast2 : k + 1 = ((0 : Int) :: dropLineStarts Text 0).length := by omega
    rw [(getElem?_lineCountsOf _ _ k).2 hlast2, hk0]
    have hall : (linesFrom Text []).take (k + 1) = linesFrom Text [] :=
      List.take_of_length_le (by omega)
    have hs := hsplit k
    rw [hall, flatten_linesFrom, List.nil_append] at hs
    rw [hs]
    congr 1
    push_cast
    ring

/-- The vertical positions are a layout given line by line. -/
theorem verticalPositions_perLine (UVRects : List FVector4) (Unicode : List Int)
    (Lines : List (List Int)) (YAlignment : ENTPTextVerticalAlignment) :
    ∃ offset : Nat → ℚ,
      verticalPositions UVRects Unicode Lines YAlignment = some (perLine Lines offset) := by
  unfold verticalPositions
  by_cases hne : 0 < Lines.length
  · rw [if_pos hne]
    cases YAlignment with
    | NTP_TVA_Top =>
      exact ⟨_, by
        rw [GetVerticalPositionsTopAligned_eq UVRects Unicode Lines, columnOffsets_eq_perLine]⟩
    | NTP_TVA_Center =>
      exact ⟨_, by
        rw [GetVerticalPositionsCenterAligned_eq UVRects Unicode Lines hne,
          columnOffsets_eq_perLine]⟩
    | NTP_TVA_Bottom =>
      exact ⟨_, by
        rw [GetVerticalPositionsBottomAligned_eq UVRects Unicode Lines hne,
          columnOffsets_eq_perLine]⟩
  · have hnil : Lines = [] := by
      cases Lines with
      | nil => rfl
      | cons a l => simp at hne
    subst hnil
    exact ⟨fun _ => 0, by simp [perLine, perLineFrom]⟩

/-- The position of character `i` returned by `GetCharacterPositions` has the vertical
position `i` as its `Y`. -/
theorem GetCharacterPositions_vertical (UVRects : List FVector4) (InputString : List Int)
    (XAlignment : ENTPTextHorizontalAlignment) (YAlignment : ENTPTextVerticalAlignment) :
    ∃ P V, GetCharacterPositions UVRects InputString XAlignment YAlignment = some P ∧
      verticalPositions UVRects InputString (splitLines InputString) YAlignment = some V ∧
      P.length = InputString.length ∧
      ∀ (i : Nat) (Q : FVector2f), P[i]? = some Q → V[i]? = some Q.Y := by
  obtain ⟨H, hH, hHlen⟩ :=
    horizontalPositions_total UVRects InputString (splitLines InputString) XAlignment
  obtain ⟨V, hV, hVlen⟩ :=
    verticalPositions_total UVRects InputString (splitLines InputString) YAlignment
  rw [flatten_splitLines] at hHlen hVlen
  refine ⟨(List.range InputString.length).map (fun i => ⟨H.getD i 0, V.getD i 0⟩), V, ?_, hV,
    by simp, ?_⟩
  · unfold GetCharacterPositions
    simp only [hH, hV]
    apply mapM_eq_some_map
    intro i hi
    have hi2 : i < InputString.length := by simpa using hi
    exact zipAt_eq H V i (by omega) (by omega)
  · intro i Q hQ
    rw [List.getElem?_map] at hQ
    by_cases hi : i < InputString.length
    · rw [List.getElem?_range hi] at hQ
      have hQ2 : (⟨H.getD i 0, V.getD i 0⟩ : FVector2f) = Q := by simpa using hQ
      rw [← hQ2]
      have hiV : i < V.length := by omega
      simp [List.getD, List.getElem?_eq_getElem hiV]
    · rw [List.getElem?_eq_none (by simpa using hi)] at hQ
      simp at hQ

theorem nonWhitespacePositions_append (A R : List Int) (PA PR : List FVector2f)
    (h : A.length = PA.length) :
    nonWhitespacePositions (A ++ R) (PA ++ PR) =
      nonWhitespacePositions A PA ++ nonWhitespacePositions R PR := by
  unfold nonWhitespacePositions
  rw [List.zip_append h, List.filter_append, List.map_append]

/-- A position kept by the filter is the position of a character of the text. -/
theorem mem_nonWhitespacePositions (B : List Int) (PB : List FVector2f) (Q : FVector2f)
    (h : Q ∈ nonWhitespacePositions B PB) : ∃ j, j < B.length ∧ PB[j]? = some Q := by
  unfold nonWhitespacePositions at h
  obtain ⟨⟨c, Q2⟩, hmem, hQ⟩ := List.mem_map.1 h
  have hQ3 : Q2 = Q := hQ
  subst hQ3
  have hz : (c, Q2) ∈ B.zip PB := (List.mem_filter.1 hmem).1
  obtain ⟨j, hj⟩ := List.mem_iff_getElem?.1 hz
  obtain ⟨h1, h2⟩ := List.getElem?_zip_eq_some.1 hj
  have hjB : j < B.length := (List.getElem?_eq_some.1 h1).1
  exact ⟨j, hjB, h2⟩

/-- The positions that `ProcessTextWithoutWhitespace` keeps for the middle part `B` of a
text `A ++ B ++ C` are positions of characters of `B`. -/
theorem nonWhitespacePositions_middle (A B C : List Int) (Pos : List FVector2f)
    (h : Pos.length = (A ++ B ++ C).length) (m : Nat) (hm : m < (nonWhitespace B).length) :
    ∃ Q j, (nonWhitespacePositions (A ++ B ++ C) Pos)[(nonWhitespace A).length + m]? = some Q ∧
      j < B.length ∧ Pos[A.length + j]? = some Q := by
  have hlen : Pos.length = A.length + B.length + C.length := by
    rw [h, List.length_append, List.length_append]
  have hPos : Pos = Pos.take A.length ++
      ((Pos.drop A.length).take B.length ++ (Pos.drop A.length).drop B.length) := by
    rw [List.take_append_drop, List.take_append_drop]
  have hA : A.length = (Pos.take A.length).length := by
    rw [List.length_take]; omega
  have hB : B.length = ((Pos.drop A.length).take B.length).length := by
    rw [List.length_take, List.length_drop]; omega
  have hnwp : nonWhitespacePositions (A ++ B ++ C) Pos =
      nonWhitespacePositions A (Pos.take A.length) ++
        (nonWhitespacePositions B ((Pos.drop A.length).take B.length) ++
          nonWhitespacePositions C ((Pos.drop A.length).drop B.length)) := by
    conv_lhs => rw [hPos]
    rw [List.append_assoc, nonWhitespacePositions_append A _ _ _ hA,
      nonWhitespacePositions_append B _ _ _ hB]
  have hlA : (nonWhitespacePositions A (Pos.take A.length)).length =
      (nonWhitespace A).length := length_nonWhitespacePositions A _ (by omega)
  have hlB : (nonWhitespacePositions B ((Pos.drop A.length).take B.length)).length =
      (nonWhitespace B).length := length_nonWhitespacePositions B _ (by omega)
  have hm2 : m < (nonWhitespacePositions B ((Pos.drop A.length).take B.length)).length := by
    omega
  have hget : (nonWhitespacePositions (A ++ B ++ C) Pos)[(nonWhitespace A).length + m]? =
      some ((nonWhitespacePositions B ((Pos.drop A.length).take B.length))[m]) := by
    rw [hnwp, List.getElem?_append_right (by omega), hlA, Nat.add_sub_cancel_left,
      List.getElem?_append_left hm2, List.getElem?_eq_getElem hm2]
  obtain ⟨j, hj, hPj⟩ := mem_nonWhitespacePositions B _ _ (List.getElem_mem hm2)
  refine ⟨_, j, hget, hj, ?_⟩
  rw [List.getElem?_take_of_lt hj, List.getElem?_drop] at hPj
  exact hPj

theorem split_at_line (L : List (List Int)) (k : Nat) (Line : List Int)
    (h : L[k]? = some Line) : L = L.take k ++ Line :: L.drop (k + 1) := by
  obtain ⟨hk, hLk⟩ := List.getElem?_eq_some.1 h
  rw [← hLk, ← List.drop_eq_getElem_cons hk, List.take_append_drop]

/-- Every line start added by `keepLoop` is the index of the last character of a line of
the Line Splitter, and this character is an LF, or a CR that no LF follows. `i` is the
index of the first character of `rest`, `cur` the open line and `d` the offset of the line
start in `rest`. -/
theorem keepLineStarts_spec (rest : List Int) :
    ∀ (cur : List Int) (i j : Nat), j < (keepLineStarts rest i).length →
      ∃ d : Nat, (keepLineStarts rest i)[j]? = some ((i + d : Nat) : Int) ∧
        (rest[d]? = some LF ∨ (rest[d]? = some CR ∧ rest[d + 1]? ≠ some LF)) ∧
        cur.length + d + 1 = ((linesFrom rest cur).take (j + 1)).flatten.length := by
  induction rest using scan_induction with
  | hnil => intro cur i j hj; simp [keepLineStarts] at hj
  | hcrlf rest ih =>
    intro cur i j hj
    rw [keepLineStarts_CRLF] at hj ⊢
    rw [linesFrom_CRLF]
    cases j with
    | zero => exact ⟨1, by simp, Or.inl (by simp), by simp⟩
    | succ j =>
      have hj2 : j < (keepLineStarts rest (i + 1 + 1)).length := by simpa using hj
      obtain ⟨d, h1, h2, h3⟩ := ih [] (i + 1 + 1) j hj2
      refine ⟨d + 2, ?_, ?_, ?_⟩
      · rw [List.getElem?_cons_succ, h1]
        congr 2
        omega
      · simpa using h2
      · rw [List.take_succ_cons, List.flatten_cons, List.length_append, ← h3]
        simp
        omega
  | hstep c rest hnot ih =>
    intro cur i j hj
    by_cases hLF : c = LF
    · subst hLF
      rw [keepLineStarts_LF] at hj ⊢
      rw [linesFrom_LF]
      cases j with
      | zero => exact ⟨0, by simp, Or.inl (by simp), by simp⟩
      | succ j =>
        have hj2 : j < (keepLineStarts rest (i + 1)).length := by simpa using hj
        obtain ⟨d, h1, h2, h3⟩ := ih [] (i + 1) j hj2
        refine ⟨d + 1, ?_, ?_, ?_⟩
        · rw [List.getElem?_cons_succ, h1]
          congr 2
          omega
        · simpa using h2
        · rw [List.take_succ_cons, List.flatten_cons, List.length_append, ← h3]
          simp
          omega
    · by_cases hCR : c = CR
      · subst hCR
        rw [keepLineStarts_CR _ _ (hnot rfl)] at hj ⊢
        rw [linesFrom_CR _ _ (hnot rfl)]
        cases j with
        | zero =>
          refine ⟨0, by simp, Or.inr ⟨by simp, ?_⟩, by simp⟩
          have h := hnot rfl
          cases rest with
          | nil => simp
          | cons n rest2 => simpa using h
        | succ j =>
          have hj2 : j < (keepLineStarts rest (i + 1)).length := by simpa using hj
          obtain ⟨d, h1, h2, h3⟩ := ih [] (i + 1) j hj2
          refine ⟨d + 1, ?_, ?_, ?_⟩
          · rw [List.getElem?_cons_succ, h1]
            congr 2
            omega
          · simpa using h2
          · rw [List.take_succ_cons, List.flatten_cons, List.length_append, ← h3]
            simp
            omega
      · rw [keepLineStarts_other c _ _ hLF hCR] at hj ⊢
        rw [linesFrom_other c _ _ hLF hCR]
        obtain ⟨d, h1, h2, h3⟩ := ih (cur ++ [c]) (i + 1) j hj
        refine ⟨d + 1, ?_, ?_, ?_⟩
        · rw [h1]
          congr 2
          omega
        · simpa using h2
        · rw [← h3]
          simp
          omega

theorem pairwise_keepLineStarts (rest : List Int) :
    ∀ i : Nat, (keepLineStarts rest i).Pairwise (fun a b => a ≤ b) := by
  have hcons : ∀ (rest2 : List Int) (x i2 : Nat), x ≤ i2 →
      (keepLineStarts rest2 i2).Pairwise (fun a b => a ≤ b) →
      (((x : Nat) : Int) :: keepLineStarts rest2 i2).Pairwise (fun a b => a ≤ b) := by
    intro rest2 x i2 hx hp
    refine List.pairwise_cons.2 ⟨?_, hp⟩
    intro y hy
    obtain ⟨s, hs, h1, _⟩ := keepLineStarts_bounds rest2 i2 y hy
    rw [hs]
    exact_mod_cast (by omega : x ≤ s)
  induction rest using scan_induction with
  | hnil => intro i; simp [keepLineStarts]
  | hcrlf rest ih =>
    intro i
    rw [keepLineStarts_CRLF]
    exact hcons rest (i + 1) (i + 1 + 1) (by omega) (ih _)
  | hstep c rest hnot ih =>
    intro i
    by_cases hLF : c = LF
    · subst hLF
      rw [keepLineStarts_LF]
      exact hcons rest i (i + 1) (by omega) (ih _)
    · by_cases hCR : c = CR
      · subst hCR
        rw [keepLineStarts_CR _ _ (hnot rfl)]
        exact hcons rest i (i + 1) (by omega) (ih _)
      · rw [keepLineStarts_other c _ _ hLF hCR]
        exact ih _

/-- Every line start added by `dropLoop` lies between the number of characters emitted
before and the number of characters emitted in all. -/
theorem dropLineStarts_bounds (rest : List Int) (e : Nat) :
    ∀ x ∈ dropLineStarts rest e,
      ∃ s : Nat, x = (s : Int) ∧ e ≤ s ∧ s ≤ e + (nonWhitespace rest).length := by
  intro x hx
  obtain ⟨k, hk⟩ := List.mem_iff_getElem?.1 hx
  have hlt : k < (dropLineStarts rest e).length := (List.getElem?_eq_some.1 hk).1
  obtain ⟨s, hs, h1, h2, _⟩ := dropLineStarts_spec rest [] e k hlt
  rw [hs] at hk
  exact ⟨s, (Option.some.inj hk).symm, h1, h2⟩

theorem pairwise_dropLineStarts (rest : List Int) :
    ∀ e : Nat, (dropLineStarts rest e).Pairwise (fun a b => a ≤ b) := by
  have hcons : ∀ (rest2 : List Int) (e : Nat),
      (dropLineStarts rest2 e).Pairwise (fun a b => a ≤ b) →
      (((e : Nat) : Int) :: dropLineStarts rest2 e).Pairwise (fun a b => a ≤ b) := by
    intro rest2 e hp
    refine List.pairwise_cons.2 ⟨?_, hp⟩
    intro y hy
    obtain ⟨s, hs, h1, _⟩ := dropLineStarts_bounds rest2 e y hy
    rw [hs]
    exact_mod_cast h1
  induction rest using scan_induction with
  | hnil => intro e; simp [dropLineStarts]
  | hcrlf rest ih =>
    intro e
    rw [dropLineStarts_CRLF]
    exact hcons rest e (ih _)
  | hstep c rest hnot ih =>
    intro e
    by_cases hLF : c = LF
    · subst hLF
      rw [dropLineStarts_LF]
      exact hcons rest e (ih _)
    · by_cases hCR : c = CR
      · subst hCR
        rw [dropLineStarts_CR _ _ (hnot rfl)]
        exact hcons rest e (ih _)
      · by_cases hws : IsWhitespaceChar c = true
        · rw [dropLineStarts_ws c _ _ hLF hCR hws]
          exact ih _
        · rw [dropLineStarts_nonws c _ _ (by simpa using hws)]
          exact ih _

/-- The counts computed from non-decreasing starts between 0 and `n` lie between 0 and
`n`. -/
theorem lineCountsOf_bounds (n : Int) (Starts : List Int) :
    Starts.Pairwise (fun a b => a ≤ b) → (∀ x ∈ Starts, 0 ≤ x ∧ x ≤ n) →
      ∀ c ∈ lineCountsOf n Starts, 0 ≤ c ∧ c ≤ n := by
  induction Starts with
  | nil => intro _ _ c hc; simp [lineCountsOf] at hc
  | cons a rest ih =>
    intro hp hb c hc
    have ha := hb a (by simp)
    cases rest with
    | nil =>
      have hc2 : c = n - a := by simpa [lineCountsOf] using hc
      omega
    | cons b rest =>
      have hb2 := hb b (by simp)
      have hab : a ≤ b := (List.pairwise_cons.1 hp).1 b (by simp)
      rw [lineCountsOf, List.mem_cons] at hc
      rcases hc with hc | hc
      · omega
      · exact ih (List.pairwise_cons.1 hp).2 (fun x hx => hb x (List.mem_cons_of_mem _ hx)) c hc

theorem castUInt32_of_bounds (x : Int) (h0 : 0 ≤ x) (h1 : x < 4294967296) :
    ((castUInt32 x : Nat) : Int) = x := by
  unfold castUInt32
  rw [Int.emod_eq_of_lt h0 h1, Int.toNat_of_nonneg h0]

/-- The upload of a non-empty array of values between 0 and 2^32 - 1 keeps the values. -/
theorem uploadUInt32_exact (Values : List Int) (hne : 0 < Values.length)
    (h : ∀ x ∈ Values, 0 ≤ x ∧ x < 4294967296) :
    (uploadUInt32 Values).map (fun (n : Nat) => (n : Int)) = Values := by
  unfold uploadUInt32
  rw [if_pos hne, List.map_map]
  conv_rhs => rw [← List.map_id Values]
  apply List.map_congr_left
  intro x hx
  exact castUInt32_of_bounds x (h x hx).1 (h x hx).2

/-- The line arrays computed from starts that begin with 0, are non-decreasing and lie
between 0 and the number of codes are in order. -/
theorem lineArraysInOrder_of_starts (r : LayoutResult) (Tail : List Int)
    (hS : r.LineStartIndices = 0 :: Tail)
    (hC : r.LineCharacterCounts = lineCountsOf (r.Unicode.length : Int) r.LineStartIndices)
    (hp : r.LineStartIndices.Pairwise (fun a b => a ≤ b))
    (hb : ∀ x ∈ r.LineStartIndices, 0 ≤ x ∧ x ≤ (r.Unicode.length : Int))
    (hlen : r.Unicode.length < 2147483648) : LineArraysInOrder r := by
  have hcb : ∀ c ∈ r.LineCharacterCounts, 0 ≤ c ∧ c ≤ (r.Unicode.length : Int) := by
    rw [hC]
    exact lineCountsOf_bounds _ _ hp hb
  have hneS : 0 < r.LineStartIndices.length := by rw [hS]; simp
  have hneC : 0 < r.LineCharacterCounts.length := by
    rw [hC, length_lineCountsOf]; exact hneS
  refine ⟨by rw [hS]; rfl, hp, hb, hcb, ?_, ?_⟩
  · apply uploadUInt32_exact _ hneS
    intro x hx
    have := hb x hx
    omega
  · apply uploadUInt32_exact _ hneC
    intro x hx
    have := hcb x hx
    omega

/-! ## The claims -/

/-- C1: for every text, every position array of the length of the text and both whitespace
policies, the pipeline returns a result whose parallel arrays have equal lengths:
codes and positions, line starts and line counts, word starts and word counts. -/
theorem parallel_arrays_have_equal_lengths (InputText : List Int) (Pos : List FVector2f)
    (h : Pos.length = InputText.length) :
    (∃ r, ProcessTextWithWhitespace InputText Pos = some r ∧
        r.Unicode.length = r.CharacterPositions.length ∧
        r.LineStartIndices.length = r.LineCharacterCounts.length ∧
        r.WordStartIndices.length = r.WordCharacterCounts.length) ∧
      (∃ r, ProcessTextWithoutWhitespace InputText Pos = some r ∧
        r.Unicode.length = r.CharacterPositions.length ∧
        r.LineStartIndices.length = r.LineCharacterCounts.length ∧
        r.WordStartIndices.length = r.WordCharacterCounts.length) := by
  constructor
  · refine ⟨_, ProcessTextWithWhitespace_eq InputText Pos (by omega), ?_, ?_, ?_⟩
    · simp [h]
    · rw [length_lineCountsOf]
    · simp
  · refine ⟨_, ProcessTextWithoutWhitespace_eq InputText Pos (by omega), ?_, ?_, ?_⟩
    · exact (length_nonWhitespacePositions InputText Pos (by omega)).symm
    · rw [length_lineCountsOf]
    · simp

/-- Witness of C1 on the text `ab cd`. -/
theorem parallel_arrays_have_equal_lengths_witness :
    (samplePositions 5).length = textAbCd.length ∧
      ((∃ r, ProcessTextWithWhitespace textAbCd (samplePositions 5) = some r ∧
          r.Unicode.length = r.CharacterPositions.length ∧
          r.LineStartIndices.length = r.LineCharacterCounts.length ∧
          r.WordStartIndices.length = r.WordCharacterCounts.length) ∧
        (∃ r, ProcessTextWithoutWhitespace textAbCd (samplePositions 5) = some r ∧
          r.Unicode.length = r.CharacterPositions.length ∧
          r.LineStartIndices.length = r.LineCharacterCounts.length ∧
          r.WordStartIndices.length = r.WordCharacterCounts.length)) :=
  ⟨by decide, parallel_arrays_have_equal_lengths textAbCd (samplePositions 5) (by decide)⟩

/-- C2: for every text and both whitespace policies, the line counts sum to the number of
codes; every line count but the last is the difference of two consecutive line starts and
the last one is the number of codes minus the last line start. -/
theorem line_counts_sum_to_code_count (InputText : List Int) (Pos : List FVector2f)
    (h : Pos.length = InputText.length) :
    (∃ r, ProcessTextWithWhitespace InputText Pos = some r ∧
        r.LineCharacterCounts.sum = (r.Unicode.length : Int) ∧
        (∀ k, k + 1 < r.LineStartIndices.length →
          r.LineCharacterCounts[k]? =
            some (r.LineStartIndices.getD (k + 1) 0 - r.LineStartIndices.getD k 0)) ∧
        (∀ k, k + 1 = r.LineStartIndices.length →
          r.LineCharacterCounts[k]? =
            some ((r.Unicode.length : Int) - r.LineStartIndices.getD k 0))) ∧
      (∃ r, ProcessTextWithoutWhitespace InputText Pos = some r ∧
        r.LineCharacterCounts.sum = (r.Unicode.length : Int) ∧
        (∀ k, k + 1 < r.LineStartIndices.length →
          r.LineCharacterCounts[k]? =
            some (r.LineStartIndices.getD (k + 1) 0 - r.LineStartIndices.getD k 0)) ∧
        (∀ k, k + 1 = r.LineStartIndices.length →
          r.LineCharacterCounts[k]? =
            some ((r.Unicode.length : Int) - r.LineStartIndices.getD k 0))) := by
  constructor
  · refine ⟨_, ProcessTextWithWhitespace_eq InputText Pos (by omega), ?_, ?_, ?_⟩
    · rw [sum_lineCountsOf]; simp
    · exact fun k hk => (getElem?_lineCountsOf _ _ k).1 hk
    · exact fun k hk => (getElem?_lineCountsOf _ _ k).2 hk
  · refine ⟨_, ProcessTextWithoutWhitespace_eq InputText Pos (by omega), ?_, ?_, ?_⟩
    · rw [sum_lineCountsOf]; simp
    · exact fun k hk => (getElem?_lineCountsOf _ _ k).1 hk
    · exact fun k hk => (getElem?_lineCountsOf _ _ k).2 hk

/-- Witness of C2 on the text `a`, CR, LF, `b`. -/
theorem line_counts_sum_to_code_count_witness :
    (samplePositions 4).length = textCRLF.length ∧
      ((∃ r, ProcessTextWithWhitespace textCRLF (samplePositions 4) = some r ∧
          r.LineCharacterCounts.sum = (r.Unicode.length : Int) ∧
          (∀ k, k + 1 < r.LineStartIndices.length →
            r.LineCharacterCounts[k]? =
              some (r.LineStartIndices.getD (k + 1) 0 - r.LineStartIndices.getD k 0)) ∧
          (∀ k, k + 1 = r.LineStartIndices.length →
            r.LineCharacterCounts[k]? =
              some ((r.Unicode.length : Int) - r.LineStartIndices.getD k 0))) ∧
        (∃ r, ProcessTextWithoutWhitespace textCRLF (samplePositions 4) = some r ∧
          r.LineCharacterCounts.sum = (r.Unicode.length : Int) ∧
          (∀ k, k + 1 < r.LineStartIndices.length →
            r.LineCharacterCounts[k]? =
              some (r.LineStartIndices.getD (k + 1) 0 - r.LineStartIndices.getD k 0)) ∧
          (∀ k, k + 1 = r.LineStartIndices.length →
            r.LineCharacterCounts[k]? =
              some ((r.Unicode.length : Int) - r.LineStartIndices.getD k 0)))) :=
  ⟨by decide, line_counts_sum_to_code_count textCRLF (samplePositions 4) (by decide)⟩

/-- C3 as stated does not hold: for the empty text neither pipeline returns a result with
empty codes, no line and no word; both report one line. -/
theorem empty_text_zero_lines_counterexample :
    (¬ ∃ r, ProcessTextWithWhitespace [] [] = some r ∧ r.Unicode = [] ∧
        r.LineStartIndices = [] ∧ r.LineCharacterCounts = [] ∧
        r.WordStartIndices = [] ∧ r.WordCharacterCounts = []) ∧
      (¬ ∃ r, ProcessTextWithoutWhitespace [] [] = some r ∧ r.Unicode = [] ∧
        r.LineStartIndices = [] ∧ r.LineCharacterCounts = [] ∧
        r.WordStartIndices = [] ∧ r.WordCharacterCounts = []) := by
  constructor
  · rintro ⟨r, hr, -, hl, -⟩
    have h : ProcessTextWithWhitespace [] [] = some ⟨[], [], [0], [0], [], []⟩ := rfl
    rw [h] at hr
    injection hr with hr
    subst hr
    simp at hl
  · rintro ⟨r, hr, -, hl, -⟩
    have h : ProcessTextWithoutWhitespace [] [] = some ⟨[], [], [0], [0], [], []⟩ := rfl
    rw [h] at hr
    injection hr with hr
    subst hr
    simp at hl

/-- C3, amended: for the empty text, whatever the position array, both pipelines return
empty codes and positions, no word, and exactly one line, which starts at index 0 and has
0 characters. -/
theorem empty_text_result (Pos : List FVector2f) :
    ProcessTextWithWhitespace [] Pos = some ⟨[], [], [0], [0], [], []⟩ ∧
      ProcessTextWithoutWhitespace [] Pos = some ⟨[], [], [0], [0], [], []⟩ :=
  ⟨rfl, rfl⟩

/-- C4: for every text and both whitespace policies, the number of line starts is 1 plus
the number of newline events of the text (lone LF, lone CR, or CR LF pair counted once). -/
theorem line_count_is_one_plus_newline_events (InputText : List Int) (Pos : List FVector2f)
    (h : Pos.length = InputText.length) :
    (∃ r, ProcessTextWithWhitespace InputText Pos = some r ∧
        r.LineStartIndices.length = 1 + newlineEvents InputText) ∧
      (∃ r, ProcessTextWithoutWhitespace InputText Pos = some r ∧
        r.LineStartIndices.length = 1 + newlineEvents InputText) := by
  constructor
  · refine ⟨_, ProcessTextWithWhitespace_eq InputText Pos (by omega), ?_⟩
    simp only [List.length_cons, length_keepLineStarts]
    omega
  · refine ⟨_, ProcessTextWithoutWhitespace_eq InputText Pos (by omega), ?_⟩
    simp only [List.length_cons, length_dropLineStarts]
    omega

/-- Witness of C4: the texts `a` CR LF `b`, `a` CR `b` and `a` LF `b` each have one newline
event and give 2 lines under both policies. -/
theorem line_count_is_one_plus_newline_events_witness :
    ((samplePositions 4).length = textCRLF.length ∧
      ((∃ r, ProcessTextWithWhitespace textCRLF (samplePositions 4) = some r ∧
          r.LineStartIndices.length = 1 + newlineEvents textCRLF) ∧
        (∃ r, ProcessTextWithoutWhitespace textCRLF (samplePositions 4) = some r ∧
          r.LineStartIndices.length = 1 + newlineEvents textCRLF)) ∧
      1 + newlineEvents textCRLF = 2) ∧
    ((samplePositions 3).length = textCR.length ∧
      ((∃ r, ProcessTextWithWhitespace textCR (samplePositions 3) = some r ∧
          r.LineStartIndices.length = 1 + newlineEvents textCR) ∧
        (∃ r, ProcessTextWithoutWhitespace textCR (samplePositions 3) = some r ∧
          r.LineStartIndices.length = 1 + newlineEvents textCR)) ∧
      1 + newlineEvents textCR = 2) ∧
    ((samplePositions 3).length = textLF.length ∧
      ((∃ r, ProcessTextWithWhitespace textLF (samplePositions 3) = some r ∧
          r.LineStartIndices.length = 1 + newlineEvents textLF) ∧
        (∃ r, ProcessTextWithoutWhitespace textLF (samplePositions 3) = some r ∧
          r.LineStartIndices.length = 1 + newlineEvents textLF)) ∧
      1 + newlineEvents textLF = 2) :=
  ⟨⟨by decide,
      line_count_is_one_plus_newline_events textCRLF (samplePositions 4) (by decide),
      by decide⟩,
    ⟨by decide, line_count_is_one_plus_newline_events textCR (samplePositions 3) (by decide),
      by decide⟩,
    ⟨by decide, line_count_is_one_plus_newline_events textLF (samplePositions 3) (by decide),
      by decide⟩⟩

/-- C5: under Keep-Whitespace, for every text and every position array of the length of the
text, the codes are the codes of the text, in order, whitespace and newlines included, and
the positions are the given positions, element for element. -/
theorem keep_whitespace_emits_every_character (InputText : List Int) (Pos : List FVector2f)
    (h : Pos.length = InputText.length) :
    ∃ r, ProcessTextWithWhitespace InputText Pos = some r ∧
      r.Unicode = InputText ∧ r.CharacterPositions = Pos := by
  refine ⟨_, ProcessTextWithWhitespace_eq InputText Pos (by omega), rfl, ?_⟩
  simp [← h]

/-- Witness of C5: the text `ab cd` gives 5 codes, the space included. -/
theorem keep_whitespace_emits_every_character_witness :
    (samplePositions 5).length = textAbCd.length ∧
      (∃ r, ProcessTextWithWhitespace textAbCd (samplePositions 5) = some r ∧
        r.Unicode = textAbCd ∧ r.CharacterPositions = samplePositions 5) ∧
      textAbCd = [97, 98, SPACE, 99, 100] :=
  ⟨by decide, keep_whitespace_emits_every_character textAbCd (samplePositions 5) (by decide),
    rfl⟩

/-- C6: under Drop-Whitespace, for every text and every position array of the length of the
text, the codes are the codes of the text without its spaces, tabs, LF and CR, in order, and
the emitted (code, position) pairs are the (code, position) pairs of the text whose code is
none of these four: the k-th position is the position of the k-th such character. -/
theorem drop_whitespace_emits_non_whitespace (InputText : List Int) (Pos : List FVector2f)
    (h : Pos.length = InputText.length) :
    ∃ r, ProcessTextWithoutWhitespace InputText Pos = some r ∧
      r.Unicode =
        InputText.filter (fun c => decide (c ≠ SPACE ∧ c ≠ TAB ∧ c ≠ LF ∧ c ≠ CR)) ∧
      r.CharacterPositions.length = r.Unicode.length ∧
      List.zip r.Unicode r.CharacterPositions =
        (List.zip InputText Pos).filter
          (fun p => decide (p.1 ≠ SPACE ∧ p.1 ≠ TAB ∧ p.1 ≠ LF ∧ p.1 ≠ CR)) := by
  have hp : ∀ c : Int, (!IsWhitespaceChar c) =
      decide (c ≠ SPACE ∧ c ≠ TAB ∧ c ≠ LF ∧ c ≠ CR) := by
    intro c
    by_cases h1 : c = SPACE <;> by_cases h2 : c = TAB <;> by_cases h3 : c = LF <;>
      by_cases h4 : c = CR <;> simp [IsWhitespaceChar, h1, h2, h3, h4]
  refine ⟨_, ProcessTextWithoutWhitespace_eq InputText Pos (by omega), ?_, ?_, ?_⟩
  · simp only [nonWhitespace, hp]
  · exact length_nonWhitespacePositions InputText Pos (by omega)
  · simp only [zip_nonWhitespace InputText Pos (by omega), hp]

/-- Witness of C6: the text `ab cd` gives the 4 codes of `abcd`, with the positions of the
characters 0, 1, 3 and 4 of the text. -/
theorem drop_whitespace_emits_non_whitespace_witness :
    (samplePositions 5).length = textAbCd.length ∧
      (∃ r, ProcessTextWithoutWhitespace textAbCd (samplePositions 5) = some r ∧
        r.Unicode =
          textAbCd.filter (fun c => decide (c ≠ SPACE ∧ c ≠ TAB ∧ c ≠ LF ∧ c ≠ CR)) ∧
        r.CharacterPositions.length = r.Unicode.length ∧
        List.zip r.Unicode r.CharacterPositions =
          (List.zip textAbCd (samplePositions 5)).filter
            (fun p => decide (p.1 ≠ SPACE ∧ p.1 ≠ TAB ∧ p.1 ≠ LF ∧ p.1 ≠ CR))) ∧
      textAbCd.filter (fun c => decide (c ≠ SPACE ∧ c ≠ TAB ∧ c ≠ LF ∧ c ≠ CR)) =
        [97, 98, 99, 100] :=
  ⟨by decide, drop_whitespace_emits_non_whitespace textAbCd (samplePositions 5) (by decide),
    by decide⟩

/-- C7: for every text and both whitespace policies, the words reported are exactly the
maximal runs of non-whitespace characters of the text, in order: as many words as runs, and
the `wordCounts[k]` codes starting at index `wordStarts[k]` are the characters of the
`k`-th run, a final run that reaches the end of the text included. -/
theorem words_are_maximal_non_whitespace_runs (InputText : List Int) (Pos : List FVector2f)
    (h : Pos.length = InputText.length) :
    (∃ r, ProcessTextWithWhitespace InputText Pos = some r ∧ WordsAre (wordRuns InputText) r) ∧
      (∃ r, ProcessTextWithoutWhitespace InputText Pos = some r ∧
        WordsAre (wordRuns InputText) r) := by
  constructor
  · exact ⟨_, ProcessTextWithWhitespace_eq InputText Pos (by omega),
      wordsAre_of_runsAux true InputText _ rfl rfl rfl⟩
  · exact ⟨_, ProcessTextWithoutWhitespace_eq InputText Pos (by omega),
      wordsAre_of_runsAux false InputText _ rfl rfl rfl⟩

/-- Witness of C7: the text `ab cd` has the runs `ab` and `cd`; Keep-Whitespace reports
starts `[0, 3]` and counts `[2, 2]`, Drop-Whitespace starts `[0, 2]` and counts `[2, 2]`. -/
theorem words_are_maximal_non_whitespace_runs_witness :
    (samplePositions 5).length = textAbCd.length ∧
      ((∃ r, ProcessTextWithWhitespace textAbCd (samplePositions 5) = some r ∧
          WordsAre (wordRuns textAbCd) r) ∧
        (∃ r, ProcessTextWithoutWhitespace textAbCd (samplePositions 5) = some r ∧
          WordsAre (wordRuns textAbCd) r)) ∧
      wordRuns textAbCd = [[97, 98], [99, 100]] ∧
      (ProcessTextWithWhitespace textAbCd (samplePositions 5)).map
          (fun r => (r.WordStartIndices, r.WordCharacterCounts)) = some ([0, 3], [2, 2]) ∧
      (ProcessTextWithoutWhitespace textAbCd (samplePositions 5)).map
          (fun r => (r.WordStartIndices, r.WordCharacterCounts)) = some ([0, 2], [2, 2]) :=
  ⟨by decide, words_are_maximal_non_whitespace_runs textAbCd (samplePositions 5) (by decide),
    by decide, by rfl, by rfl⟩

/-- C8 as stated does not hold: under Drop-Whitespace the text `a` LF gives the line starts
`[0, 1]` and the single code `a`, so the second line start is not an index into codes. -/
theorem line_starts_index_codes_counterexample :
    ¬ ∃ r, ProcessTextWithoutWhitespace textALF (samplePositions 2) = some r ∧
      ∀ k, k < r.LineStartIndices.length →
        ∃ s : Int, r.LineStartIndices[k]? = some s ∧ 0 ≤ s ∧ s < (r.Unicode.length : Int) := by
  rintro ⟨r, hr, hall⟩
  rw [ProcessTextWithoutWhitespace_eq textALF (samplePositions 2) (by decide)] at hr
  injection hr with hr
  subst hr
  have e1 : (0 :: dropLineStarts textALF 0) = [0, 1] := by decide
  have e2 : nonWhitespace textALF = [97] := by decide
  simp only [e1, e2] at hall
  obtain ⟨s, hs, _, hlt⟩ := hall 1 (by decide)
  have hs1 : s = 1 := by simpa using hs.symm
  subst hs1
  simp at hlt

/-- C8, amended: for every text and both whitespace policies, every line start is a natural
number that is at most the number of codes; under Drop-Whitespace it is the index at which
the emitted characters of line `k` of the Line Splitter begin: the codes from `lineStarts[k]`
on are the non-whitespace characters of the lines `k`, `k + 1`, ... -/
theorem line_starts_within_codes (InputText : List Int) (Pos : List FVector2f)
    (h : Pos.length = InputText.length) :
    (∃ r, ProcessTextWithWhitespace InputText Pos = some r ∧
        ∀ k, k < r.LineStartIndices.length →
          ∃ s : Nat, r.LineStartIndices[k]? = some (s : Int) ∧ s ≤ r.Unicode.length) ∧
      (∃ r, ProcessTextWithoutWhitespace InputText Pos = some r ∧
        ∀ k, k < r.LineStartIndices.length →
          ∃ s : Nat, r.LineStartIndices[k]? = some (s : Int) ∧ s ≤ r.Unicode.length ∧
            r.Unicode.drop s = nonWhitespace ((splitLines InputText).drop k).flatten) := by
  constructor
  · refine ⟨_, ProcessTextWithWhitespace_eq InputText Pos (by omega), ?_⟩
    intro k hk
    cases k with
    | zero => exact ⟨0, by simp, by omega⟩
    | succ k =>
      have hk2 : k < (keepLineStarts InputText 0).length := by simpa using hk
      obtain ⟨s, hs, _, h2⟩ :=
        keepLineStarts_bounds InputText 0 _ (List.getElem_mem hk2)
      have hle : s ≤ InputText.length := by omega
      exact ⟨s, by simp [hk2, hs], hle⟩
  · refine ⟨_, ProcessTextWithoutWhitespace_eq InputText Pos (by omega), ?_⟩
    intro k hk
    rw [splitLines_eq]
    cases k with
    | zero =>
      refine ⟨0, by simp, by omega, ?_⟩
      simp [flatten_linesFrom]
    | succ k =>
      have hk2 : k < (dropLineStarts InputText 0).length := by simpa using hk
      obtain ⟨s, hs, _, h2, h3⟩ := dropLineStarts_spec InputText [] 0 k hk2
      exact ⟨s, by simpa using hs, by simpa using h2, by simpa using h3⟩

/-- Witness of the amended C8 on the text `a` LF, whose Drop-Whitespace line starts are
`[0, 1]` for 1 code. -/
theorem line_starts_within_codes_witness :
    (samplePositions 2).length = textALF.length ∧
      ((∃ r, ProcessTextWithWhitespace textALF (samplePositions 2) = some r ∧
          ∀ k, k < r.LineStartIndices.length →
            ∃ s : Nat, r.LineStartIndices[k]? = some (s : Int) ∧ s ≤ r.Unicode.length) ∧
        (∃ r, ProcessTextWithoutWhitespace textALF (samplePositions 2) = some r ∧
          ∀ k, k < r.LineStartIndices.length →
            ∃ s : Nat, r.LineStartIndices[k]? = some (s : Int) ∧ s ≤ r.Unicode.length ∧
              r.Unicode.drop s = nonWhitespace ((splitLines textALF).drop k).flatten)) ∧
      (ProcessTextWithoutWhitespace textALF (samplePositions 2)).map
          (fun r => (r.LineStartIndices, r.Unicode)) = some ([0, 1], [97]) :=
  ⟨by decide, line_starts_within_codes textALF (samplePositions 2) (by decide), by rfl⟩

/-- C9: for every text and both whitespace policies, the word counts sum to at most the
number of codes. -/
theorem word_counts_sum_at_most_code_count (InputText : List Int) (Pos : List FVector2f)
    (h : Pos.length = InputText.length) :
    (∃ r, ProcessTextWithWhitespace InputText Pos = some r ∧
        r.WordCharacterCounts.sum ≤ (r.Unicode.length : Int)) ∧
      (∃ r, ProcessTextWithoutWhitespace InputText Pos = some r ∧
        r.WordCharacterCounts.sum ≤ (r.Unicode.length : Int)) := by
  constructor
  · refine ⟨_, ProcessTextWithWhitespace_eq InputText Pos (by omega), ?_⟩
    have hle := length_nonWhitespace_le InputText
    simp only [sum_runsAux, openChars, List.length_nil]
    push_cast
    omega
  · refine ⟨_, ProcessTextWithoutWhitespace_eq InputText Pos (by omega), ?_⟩
    simp [sum_runsAux, openChars]

/-- Witness of C9 on the text `ab cd`. -/
theorem word_counts_sum_at_most_code_count_witness :
    (samplePositions 5).length = textAbCd.length ∧
      ((∃ r, ProcessTextWithWhitespace textAbCd (samplePositions 5) = some r ∧
          r.WordCharacterCounts.sum ≤ (r.Unicode.length : Int)) ∧
        (∃ r, ProcessTextWithoutWhitespace textAbCd (samplePositions 5) = some r ∧
          r.WordCharacterCounts.sum ≤ (r.Unicode.length : Int))) :=
  ⟨by decide, word_counts_sum_at_most_code_count textAbCd (samplePositions 5) (by decide)⟩

/-- C10: the layout driver is defined for every input. For every glyph table, text,
horizontal and vertical alignment and whitespace policy, no array read of
`GetCharacterPositions` followed by `ProcessTextWithWhitespace` or
`ProcessTextWithoutWhitespace` is out of range: the horizontal and the vertical position
arrays are computed and have one entry per character of the text, so has the unfiltered
position array, and the driver returns a result. -/
theorem layout_driver_is_total (UVRects : List FVector4) (InputText : List Int)
    (HorizontalAlignment : ENTPTextHorizontalAlignment)
    (VerticalAlignment : ENTPTextVerticalAlignment) (bSpawnWhitespaceCharacters : Bool) :
    ∃ H V P r,
      horizontalPositions UVRects InputText (splitLines InputText) HorizontalAlignment = some H ∧
        H.length = InputText.length ∧
        verticalPositions UVRects InputText (splitLines InputText) VerticalAlignment = some V ∧
        V.length = InputText.length ∧
        GetCharacterPositions UVRects InputText HorizontalAlignment VerticalAlignment = some P ∧
        P.length = InputText.length ∧
        InitPerInstanceData UVRects InputText HorizontalAlignment VerticalAlignment
          bSpawnWhitespaceCharacters = some r := by
  obtain ⟨H, hH, hHlen⟩ :=
    horizontalPositions_total UVRects InputText (splitLines InputText) HorizontalAlignment
  obtain ⟨V, hV, hVlen⟩ :=
    verticalPositions_total UVRects InputText (splitLines InputText) VerticalAlignment
  rw [flatten_splitLines] at hHlen hVlen
  obtain ⟨P, hP, hPlen⟩ :=
    GetCharacterPositions_total UVRects InputText HorizontalAlignment VerticalAlignment
  have hr : ∃ r, InitPerInstanceData UVRects InputText HorizontalAlignment VerticalAlignment
      bSpawnWhitespaceCharacters = some r := by
    unfold InitPerInstanceData
    cases bSpawnWhitespaceCharacters with
    | true =>
      simp only [hP, if_true]
      exact ⟨_, ProcessTextWithWhitespace_eq InputText P (by omega)⟩
    | false =>
      simp only [hP, Bool.false_eq_true, if_false]
      exact ⟨_, ProcessTextWithoutWhitespace_eq InputText P (by omega)⟩
  obtain ⟨r, hr⟩ := hr
  exact ⟨H, V, P, r, hH, hHlen, hV, hVlen, hP, hPlen, hr⟩

/-- C11: the Line Splitter loses and invents nothing. For every text, the lines it
produces, put end to end in order, are the codes of the text, and none of them is empty;
hence the empty text gives zero lines, and the last character of a non-empty text is the
last character of the last line, so a trailing run without a terminator is in a final
line. -/
theorem line_splitter_partitions_text (Text : List Int) :
    (splitLines Text).flatten = Text ∧
      (∀ Line ∈ splitLines Text, Line ≠ []) ∧
      splitLines [] = [] ∧
      (∀ c, Text.getLast? = some c →
        ∃ Line, (splitLines Text).getLast? = some Line ∧ Line.getLast? = some c) := by
  have hflat := flatten_splitLines Text
  have hne : ∀ Line ∈ splitLines Text, Line ≠ [] := by
    rw [splitLines_eq]
    exact linesFrom_ne_nil Text []
  refine ⟨hflat, hne, rfl, ?_⟩
  intro c hc
  rcases List.eq_nil_or_concat (splitLines Text) with hnil | ⟨Init, Line, hL⟩
  · rw [hnil] at hflat
    rw [← hflat] at hc
    simp at hc
  · refine ⟨Line, by simp [hL], ?_⟩
    have hLine : Line ≠ [] := hne Line (by simp [hL])
    rcases List.eq_nil_or_concat Line with hnil | ⟨Body, d, hd⟩
    · exact absurd hnil hLine
    · rw [hL, hd] at hflat
      rw [← hflat] at hc
      rw [hd]
      simpa using hc

/-- Witness of C11 on the text `a` CR `b`: two lines, the second one being the trailing
run `b`. -/
theorem line_splitter_partitions_text_witness :
    ((splitLines textCR).flatten = textCR ∧
      (∀ Line ∈ splitLines textCR, Line ≠ []) ∧
      splitLines [] = [] ∧
      (∀ c, textCR.getLast? = some c →
        ∃ Line, (splitLines textCR).getLast? = some Line ∧ Line.getLast? = some c)) ∧
      splitLines textCR = [[97, 13], [98]] :=
  ⟨line_splitter_partitions_text textCR, by decide⟩

/-- C12: Left horizontal alignment. For every glyph table and every list of lines,
`GetHorizontalPositionsLeftAligned` returns one entry per character, in line order, and the
entry of character `j` of a line is the sum of the widths of the characters `0..j` of that
line minus half the width of character `j`; the width of a code is the `X` entry of the
table at that code when the code is a valid index of the table and 0 otherwise. -/
theorem left_aligned_offsets (UVRects : List FVector4) (Unicode : List Int)
    (Lines : List (List Int)) :
    GetHorizontalPositionsLeftAligned UVRects Unicode Lines =
        some (perCharacter Lines (leftOffset UVRects)) ∧
      (perCharacter Lines (leftOffset UVRects)).length = Lines.flatten.length ∧
      (∀ Code R, getAt UVRects Code = some R → widthOf UVRects Code = R.X) ∧
      (∀ Code, getAt UVRects Code = none → widthOf UVRects Code = 0) := by
  refine ⟨?_, length_perCharacter _ _, ?_, ?_⟩
  · rw [GetHorizontalPositionsLeftAligned_eq,
      perCharacter_eq_lineOffsets UVRects (fun _ C W => C - W * (1 / 2)) Lines]
    congr 2
    funext Line j
    simp only [leftOffset]
    ring
  · intro Code R h
    have hc := charWidth_eq UVRects Code
    unfold charWidth at hc
    by_cases hv : IsValidIndex UVRects Code = true
    · simp only [hv, if_true, h] at hc
      exact (Option.some.inj hc).symm
    · have h2 : ¬ (0 ≤ Code ∧ Code < (UVRects.length : Int)) := by
        simpa [IsValidIndex] using hv
      unfold getAt at h
      by_cases h0 : 0 ≤ Code
      · rw [if_pos h0] at h
        obtain ⟨hlt, _⟩ := List.getElem?_eq_some.mp h
        exact absurd ⟨h0, by omega⟩ h2
      · rw [if_neg h0] at h
        exact absurd h (by simp)
  · intro Code h
    unfold widthOf
    by_cases hv : IsValidIndex UVRects Code = true
    · have h2 : 0 ≤ Code ∧ Code < (UVRects.length : Int) := by
        simpa [IsValidIndex] using hv
      have h3 : Code.toNat < UVRects.length := by omega
      simp [getAt, h2.1, List.getElem?_eq_getElem h3] at h
    · simp [hv]

/-- Witness of C12 on `sampleLines` over `sampleTable`: the widths are 2, 4, 0 and 4, and
the offsets 1, 4, 6 and 2. -/
theorem left_aligned_offsets_witness :
    (GetHorizontalPositionsLeftAligned sampleTable [] sampleLines =
        some (perCharacter sampleLines (leftOffset sampleTable)) ∧
      (perCharacter sampleLines (leftOffset sampleTable)).length = sampleLines.flatten.length ∧
      (∀ Code R, getAt sampleTable Code = some R → widthOf sampleTable Code = R.X) ∧
      (∀ Code, getAt sampleTable Code = none → widthOf sampleTable Code = 0)) ∧
      perCharacter sampleLines (leftOffset sampleTable) = [1, 4, 6, 2] := by
  refine ⟨left_aligned_offsets sampleTable [] sampleLines, ?_⟩
  simp [perCharacter, leftOffset, widthOf, IsValidIndex, sampleTable, sampleLines,
    List.range_succ]
  norm_num

/-- C13: Center horizontal alignment. For every glyph table and every list of lines,
`GetHorizontalPositionsCenterAligned` returns one entry per character, in line order, and
the entry of a character is its Left-aligned offset minus half the total width of its own
line; consequently the character of a line that consists of a single character gets the
offset 0. -/
theorem center_aligned_offsets (UVRects : List FVector4) (Unicode : List Int)
    (Lines : List (List Int)) :
    GetHorizontalPositionsCenterAligned UVRects Unicode Lines =
        some (perCharacter Lines
          (fun Line j => leftOffset UVRects Line j - lineWidth UVRects Line / 2)) ∧
      (perCharacter Lines
        (fun Line j => leftOffset UVRects Line j - lineWidth UVRects Line / 2)).length =
          Lines.flatten.length ∧
      (∀ Before After c, Lines = Before ++ [c] :: After →
        (perCharacter Lines
          (fun Line j => leftOffset UVRects Line j - lineWidth UVRects Line / 2))[
            Before.flatten.length]? = some 0) := by
  refine ⟨?_, length_perCharacter _ _, ?_⟩
  · rw [GetHorizontalPositionsCenterAligned_eq,
      perCharacter_eq_lineOffsets UVRects
        (fun Line C W => C - totalWidthOf UVRects Line * (1 / 2) - W * (1 / 2)) Lines]
    congr 2
    funext Line j
    simp only [leftOffset, totalWidthOf_eq]
    ring
  · intro Before After c hL
    have h := getElem?_perCharacter Before After [c]
      (fun Line j => leftOffset UVRects Line j - lineWidth UVRects Line / 2) 0 (by simp)
    rw [hL]
    rw [Nat.add_zero] at h
    rw [h]
    simp only [leftOffset, lineWidth, List.take_succ_cons, List.take_zero, List.map_cons,
      List.map_nil, List.sum_cons, List.sum_nil, List.getD_cons_zero]
    congr 1
    ring

/-- Witness of C13 on `sampleLines` over `sampleTable`: the first line is 6 wide and gets
the offsets -2, 1 and 3; the second line has a single character, whose offset is 0. -/
theorem center_aligned_offsets_witness :
    (GetHorizontalPositionsCenterAligned sampleTable [] sampleLines =
        some (perCharacter sampleLines
          (fun Line j => leftOffset sampleTable Line j - lineWidth sampleTable Line / 2)) ∧
      (perCharacter sampleLines
        (fun Line j => leftOffset sampleTable Line j - lineWidth sampleTable Line / 2)).length =
          sampleLines.flatten.length ∧
      (∀ Before After c, sampleLines = Before ++ [c] :: After →
        (perCharacter sampleLines
          (fun Line j => leftOffset sampleTable Line j - lineWidth sampleTable Line / 2))[
            Before.flatten.length]? = some 0)) ∧
      perCharacter sampleLines
        (fun Line j => leftOffset sampleTable Line j - lineWidth sampleTable Line / 2) =
          [-2, 1, 3, 0] := by
  refine ⟨center_aligned_offsets sampleTable [] sampleLines, ?_⟩
  simp [perCharacter, leftOffset, lineWidth, widthOf, IsValidIndex, sampleTable, sampleLines,
    List.range_succ]
  norm_num

/-- C14: Right horizontal alignment. For every glyph table and every list of lines,
`GetHorizontalPositionsRightAligned` returns one entry per character, in line order, and
the entry of a character is its Left-aligned offset minus the total width of its own line;
so the last character of every line gets minus half its own width. -/
theorem right_aligned_offsets (UVRects : List FVector4) (Unicode : List Int)
    (Lines : List (List Int)) :
    GetHorizontalPositionsRightAligned UVRects Unicode Lines =
        some (perCharacter Lines
          (fun Line j => leftOffset UVRects Line j - lineWidth UVRects Line)) ∧
      (perCharacter Lines
        (fun Line j => leftOffset UVRects Line j - lineWidth UVRects Line)).length =
          Lines.flatten.length ∧
      (∀ Before After Body c, Lines = Before ++ (Body ++ [c]) :: After →
        (perCharacter Lines
          (fun Line j => leftOffset UVRects Line j - lineWidth UVRects Line))[
            Before.flatten.length + Body.length]? = some (-(widthOf UVRects c / 2))) := by
  refine ⟨?_, length_perCharacter _ _, ?_⟩
  · rw [GetHorizontalPositionsRightAligned_eq,
      perCharacter_eq_lineOffsets UVRects
        (fun Line C W => C - W * (1 / 2) - totalWidthOf UVRects Line) Lines]
    congr 2
    funext Line j
    simp only [leftOffset, totalWidthOf_eq]
    ring
  · intro Before After Body c hL
    have h := getElem?_perCharacter Before After (Body ++ [c])
      (fun Line j => leftOffset UVRects Line j - lineWidth UVRects Line) Body.length (by simp)
    rw [hL, h]
    have htake : (Body ++ [c]).take (Body.length + 1) = Body ++ [c] := by
      rw [List.take_of_length_le (by simp)]
    have hget : (Body ++ [c]).getD Body.length 0 = c := by
      simp [List.getD]
    simp only [leftOffset, lineWidth, htake, hget]
    congr 1
    ring

/-- Witness of C14 on `sampleLines` over `sampleTable`: the offsets are -5, -2, 0 and -2;
the last character of the first line is 0 wide and the one of the second line 4 wide. -/
theorem right_aligned_offsets_witness :
    (GetHorizontalPositionsRightAligned sampleTable [] sampleLines =
        some (perCharacter sampleLines
          (fun Line j => leftOffset sampleTable Line j - lineWidth sampleTable Line)) ∧
      (perCharacter sampleLines
        (fun Line j => leftOffset sampleTable Line j - lineWidth sampleTable Line)).length =
          sampleLines.flatten.length ∧
      (∀ Before After Body c, sampleLines = Before ++ (Body ++ [c]) :: After →
        (perCharacter sampleLines
          (fun Line j => leftOffset sampleTable Line j - lineWidth sampleTable Line))[
            Before.flatten.length + Body.length]? = some (-(widthOf sampleTable c / 2)))) ∧
      perCharacter sampleLines
        (fun Line j => leftOffset sampleTable Line j - lineWidth sampleTable Line) =
          [-5, -2, 0, -2] := by
  refine ⟨right_aligned_offsets sampleTable [] sampleLines, ?_⟩
  simp [perCharacter, leftOffset, lineWidth, widthOf, IsValidIndex, sampleTable, sampleLines,
    List.range_succ]
  norm_num

/-- C15 as stated does not hold for every table: for the empty table, and for a table whose
single entry has the height -1, the line height computed by `BuildVerticalLineMetrics` is
not the maximum height entry of the table (it is 0). -/
theorem line_height_is_max_entry_counterexample :
    ¬ IsMaxHeight [] (BuildVerticalLineMetrics [] sampleLines).2 ∧
      ¬ IsMaxHeight tableNegative (BuildVerticalLineMetrics tableNegative sampleLines).2 := by
  constructor
  · rintro ⟨⟨R, hR, _⟩, _⟩
    simp at hR
  · rintro ⟨⟨R, hR, hY⟩, _⟩
    have hR2 : R = ⟨1, -1, 0, 0⟩ := by simpa [tableNegative] using hR
    have hh : (BuildVerticalLineMetrics tableNegative sampleLines).2 = 0 := by
      simp [BuildVerticalLineMetrics, globalMaxHeight, tableNegative]
    rw [hh, hR2] at hY
    norm_num at hY

/-- C15, amended: for every glyph table, the line height computed by
`BuildVerticalLineMetrics` does not depend on the lines and is the larger of 0 and the
height entries of the table: it is at least 0 and at least every height entry, and it is 0
or the height of an entry. Hence it is the maximum height entry whenever some entry has a
height that is not negative. -/
theorem line_height_is_floored_max_entry (UVRects : List FVector4)
    (Lines Lines2 : List (List Int)) :
    (BuildVerticalLineMetrics UVRects Lines).2 = (BuildVerticalLineMetrics UVRects Lines2).2 ∧
      0 ≤ (BuildVerticalLineMetrics UVRects Lines).2 ∧
      (∀ R ∈ UVRects, R.Y ≤ (BuildVerticalLineMetrics UVRects Lines).2) ∧
      ((BuildVerticalLineMetrics UVRects Lines).2 = 0 ∨
        ∃ R ∈ UVRects, R.Y = (BuildVerticalLineMetrics UVRects Lines).2) ∧
      ((∃ R ∈ UVRects, 0 ≤ R.Y) →
        IsMaxHeight UVRects (BuildVerticalLineMetrics UVRects Lines).2) := by
  obtain ⟨h1, h2, h3⟩ := foldl_maxHeight UVRects 0
  have hh : ∀ L, (BuildVerticalLineMetrics UVRects L).2 =
      UVRects.foldl (fun m R => if R.Y > m then R.Y else m) 0 := by
    intro L
    simp [BuildVerticalLineMetrics, globalMaxHeight]
  rw [hh Lines, hh Lines2]
  refine ⟨rfl, h1, h2, h3, ?_⟩
  rintro ⟨R, hR, hR0⟩
  refine ⟨?_, h2⟩
  rcases h3 with h3 | h3
  · refine ⟨R, hR, ?_⟩
    have hle := h2 R hR
    rw [h3] at hle ⊢
    exact le_antisymm hle hR0
  · exact h3

/-- Witness of the amended C15 on `sampleTable`, whose heights are 3 and 5: the line height
is 5. -/
theorem line_height_is_floored_max_entry_witness :
    ((BuildVerticalLineMetrics sampleTable sampleLines).2 =
        (BuildVerticalLineMetrics sampleTable []).2 ∧
      0 ≤ (BuildVerticalLineMetrics sampleTable sampleLines).2 ∧
      (∀ R ∈ sampleTable, R.Y ≤ (BuildVerticalLineMetrics sampleTable sampleLines).2) ∧
      ((BuildVerticalLineMetrics sampleTable sampleLines).2 = 0 ∨
        ∃ R ∈ sampleTable, R.Y = (BuildVerticalLineMetrics sampleTable sampleLines).2) ∧
      ((∃ R ∈ sampleTable, 0 ≤ R.Y) →
        IsMaxHeight sampleTable (BuildVerticalLineMetrics sampleTable sampleLines).2)) ∧
      (BuildVerticalLineMetrics sampleTable sampleLines).2 = 5 := by
  refine ⟨line_height_is_floored_max_entry sampleTable sampleLines [], ?_⟩
  simp [BuildVerticalLineMetrics, globalMaxHeight, sampleTable]
  norm_num

/-- C16: Top vertical alignment. For every glyph table and every list of lines, the
cumulative height of line `i` is (i + 1) × lineHeight, and `GetVerticalPositionsTopAligned`
returns one entry per character, in line order, every character of line `i` getting
i × lineHeight; so every character of the first line gets the offset 0. -/
theorem top_aligned_offsets (UVRects : List FVector4) (Unicode : List Int)
    (Lines : List (List Int)) :
    (BuildVerticalLineMetrics UVRects Lines).1 =
        (List.range Lines.length).map
          (fun (i : Nat) => ((i : ℚ) + 1) * (BuildVerticalLineMetrics UVRects Lines).2) ∧
      GetVerticalPositionsTopAligned UVRects Unicode Lines =
        some (perLine Lines (fun i => (i : ℚ) * (BuildVerticalLineMetrics UVRects Lines).2)) ∧
      (perLine Lines (fun i => (i : ℚ) * (BuildVerticalLineMetrics UVRects Lines).2)).length =
        Lines.flatten.length ∧
      (∀ First Rest j, Lines = First :: Rest → j < First.length →
        (perLine Lines (fun i => (i : ℚ) * (BuildVerticalLineMetrics UVRects Lines).2))[j]? =
          some 0) := by
  refine ⟨BuildVerticalLineMetrics_heights UVRects Lines, ?_, length_perLineFrom _ _ 0, ?_⟩
  · rw [GetVerticalPositionsTopAligned_eq, columnOffsets_eq_perLine, BuildVerticalLineMetrics_eq]
    congr 2
    funext i
    simp only [cumulativeHeightAt]
    ring
  · intro First Rest j hL hj
    have h := getElem?_perLine
      (fun i => (i : ℚ) * (BuildVerticalLineMetrics UVRects Lines).2) [] Rest First j hj
    rw [hL]
    rw [hL] at h
    simpa using h

/-- Witness of C16 on `sampleLines` over `sampleTable`: the line height is 5, the
cumulative heights are 5 and 10, and the offsets 0, 0, 0 and 5. -/
theorem top_aligned_offsets_witness :
    ((BuildVerticalLineMetrics sampleTable sampleLines).1 =
        (List.range sampleLines.length).map
          (fun (i : Nat) => ((i : ℚ) + 1) * (BuildVerticalLineMetrics sampleTable sampleLines).2) ∧
      GetVerticalPositionsTopAligned sampleTable [] sampleLines =
        some (perLine sampleLines
          (fun i => (i : ℚ) * (BuildVerticalLineMetrics sampleTable sampleLines).2)) ∧
      (perLine sampleLines
        (fun i => (i : ℚ) * (BuildVerticalLineMetrics sampleTable sampleLines).2)).length =
          sampleLines.flatten.length ∧
      (∀ First Rest j, sampleLines = First :: Rest → j < First.length →
        (perLine sampleLines
          (fun i => (i : ℚ) * (BuildVerticalLineMetrics sampleTable sampleLines).2))[j]? =
            some 0)) ∧
      perLine sampleLines
        (fun i => (i : ℚ) * (BuildVerticalLineMetrics sampleTable sampleLines).2) =
          [0, 0, 0, 5] := by
  refine ⟨top_aligned_offsets sampleTable [] sampleLines, ?_⟩
  simp [perLine, perLineFrom, BuildVerticalLineMetrics, globalMaxHeight, sampleTable,
    sampleLines]
  norm_num

/-- C17: Bottom vertical alignment. For every glyph table and every list of `N ≥ 1` lines,
`GetVerticalPositionsBottomAligned` returns one entry per character, in line order, every
character of line `i` getting cumulativeHeight(i) − cumulativeHeight(N − 1), which is
(i − (N − 1)) × lineHeight; so every character of the last line gets the offset 0. -/
theorem bottom_aligned_offsets (UVRects : List FVector4) (Unicode : List Int)
    (Lines : List (List Int)) (hN : 0 < Lines.length) :
    GetVerticalPositionsBottomAligned UVRects Unicode Lines =
        some (perLine Lines
          (bottomOffset (BuildVerticalLineMetrics UVRects Lines).2 Lines.length)) ∧
      (∀ i, i < Lines.length →
        (BuildVerticalLineMetrics UVRects Lines).1.getD i 0 =
          cumulativeHeightAt (BuildVerticalLineMetrics UVRects Lines).2 i) ∧
      (∀ i, bottomOffset (BuildVerticalLineMetrics UVRects Lines).2 Lines.length i =
        ((i : ℚ) - ((Lines.length : ℚ) - 1)) * (BuildVerticalLineMetrics UVRects Lines).2) ∧
      (∀ Before Last j, Lines = Before ++ [Last] → j < Last.length →
        (perLine Lines
          (bottomOffset (BuildVerticalLineMetrics UVRects Lines).2 Lines.length))[
            Before.flatten.length + j]? = some 0) := by
  have hcast : ((Lines.length - 1 : Nat) : ℚ) = (Lines.length : ℚ) - 1 := by
    rw [Nat.cast_sub (by omega)]; simp
  refine ⟨?_, ?_, ?_, ?_⟩
  · rw [GetVerticalPositionsBottomAligned_eq UVRects Unicode Lines hN,
      getD_cumulativeHeights _ Lines (Lines.length - 1) (by omega), columnOffsets_eq_perLine,
      BuildVerticalLineMetrics_eq]
    congr 2
    funext i
    simp only [bottomOffset]
    ring
  · intro i hi
    rw [BuildVerticalLineMetrics_eq]
    exact getD_cumulativeHeights _ Lines i hi
  · intro i
    simp only [bottomOffset, cumulativeHeightAt, hcast]
    ring
  · intro Before Last j hL hj
    have h := getElem?_perLine
      (bottomOffset (BuildVerticalLineMetrics UVRects Lines).2 Lines.length) Before [] Last j hj
    have hlen : Lines.length = Before.length + 1 := by rw [hL]; simp
    rw [← hL] at h
    rw [h]
    simp [bottomOffset, hlen]

/-- Witness of C17 on `sampleLines` over `sampleTable`: 2 lines of height 5, the offsets
are -5, -5, -5 and 0. -/
theorem bottom_aligned_offsets_witness :
    0 < sampleLines.length ∧
      (GetVerticalPositionsBottomAligned sampleTable [] sampleLines =
          some (perLine sampleLines
            (bottomOffset (BuildVerticalLineMetrics sampleTable sampleLines).2
              sampleLines.length)) ∧
        (∀ i, i < sampleLines.length →
          (BuildVerticalLineMetrics sampleTable sampleLines).1.getD i 0 =
            cumulativeHeightAt (BuildVerticalLineMetrics sampleTable sampleLines).2 i) ∧
        (∀ i, bottomOffset (BuildVerticalLineMetrics sampleTable sampleLines).2
            sampleLines.length i =
          ((i : ℚ) - ((sampleLines.length : ℚ) - 1)) *
            (BuildVerticalLineMetrics sampleTable sampleLines).2) ∧
        (∀ Before Last j, sampleLines = Before ++ [Last] → j < Last.length →
          (perLine sampleLines
            (bottomOffset (BuildVerticalLineMetrics sampleTable sampleLines).2
              sampleLines.length))[Before.flatten.length + j]? = some 0)) ∧
      perLine sampleLines
        (bottomOffset (BuildVerticalLineMetrics sampleTable sampleLines).2
          sampleLines.length) = [-5, -5, -5, 0] := by
  refine ⟨by decide, bottom_aligned_offsets sampleTable [] sampleLines (by decide), ?_⟩
  simp [perLine, perLineFrom, bottomOffset, cumulativeHeightAt, BuildVerticalLineMetrics,
    globalMaxHeight, sampleTable, sampleLines]
  norm_num

/-- C18: Center vertical alignment. For every glyph table and every list of `N ≥ 1` lines,
`GetVerticalPositionsCenterAligned` returns one entry per character, in line order, every
character of line `i` getting cumulativeHeight(i) − cumulativeHeight(N − 1)/2 −
lineHeight/2, and the block is centred around 0: the offsets of the lines `i` and
`N − 1 − i` add up to 0. -/
theorem center_aligned_vertical_offsets (UVRects : List FVector4) (Unicode : List Int)
    (Lines : List (List Int)) (hN : 0 < Lines.length) :
    GetVerticalPositionsCenterAligned UVRects Unicode Lines =
        some (perLine Lines
          (centerOffset (BuildVerticalLineMetrics UVRects Lines).2 Lines.length)) ∧
      (∀ i, i < Lines.length →
        (BuildVerticalLineMetrics UVRects Lines).1.getD i 0 =
          cumulativeHeightAt (BuildVerticalLineMetrics UVRects Lines).2 i) ∧
      (∀ i, i < Lines.length →
        centerOffset (BuildVerticalLineMetrics UVRects Lines).2 Lines.length i +
          centerOffset (BuildVerticalLineMetrics UVRects Lines).2 Lines.length
            (Lines.length - 1 - i) = 0) := by
  refine ⟨?_, ?_, ?_⟩
  · rw [GetVerticalPositionsCenterAligned_eq UVRects Unicode Lines hN,
      getD_cumulativeHeights _ Lines (Lines.length - 1) (by omega), columnOffsets_eq_perLine,
      BuildVerticalLineMetrics_eq]
    congr 2
    funext i
    simp only [centerOffset]
    ring
  · intro i hi
    rw [BuildVerticalLineMetrics_eq]
    exact getD_cumulativeHeights _ Lines i hi
  · intro i hi
    have hcast1 : ((Lines.length - 1 : Nat) : ℚ) = (Lines.length : ℚ) - 1 := by
      rw [Nat.cast_sub (by omega)]; simp
    have hcast2 : ((Lines.length - 1 - i : Nat) : ℚ) = (Lines.length : ℚ) - 1 - (i : ℚ) := by
      rw [Nat.cast_sub (by omega), hcast1]
    simp only [centerOffset, cumulativeHeightAt, hcast1, hcast2]
    ring

/-- Witness of C18 on `sampleLines` over `sampleTable`: 2 lines of height 5, the offsets
are -5/2 for the three characters of the first line and 5/2 for the second line. -/
theorem center_aligned_vertical_offsets_witness :
    0 < sampleLines.length ∧
      (GetVerticalPositionsCenterAligned sampleTable [] sampleLines =
          some (perLine sampleLines
            (centerOffset (BuildVerticalLineMetrics sampleTable sampleLines).2
              sampleLines.length)) ∧
        (∀ i, i < sampleLines.length →
          (BuildVerticalLineMetrics sampleTable sampleLines).1.getD i 0 =
            cumulativeHeightAt (BuildVerticalLineMetrics sampleTable sampleLines).2 i) ∧
        (∀ i, i < sampleLines.length →
          centerOffset (BuildVerticalLineMetrics sampleTable sampleLines).2
              sampleLines.length i +
            centerOffset (BuildVerticalLineMetrics sampleTable sampleLines).2
              sampleLines.length (sampleLines.length - 1 - i) = 0)) ∧
      perLine sampleLines
        (centerOffset (BuildVerticalLineMetrics sampleTable sampleLines).2
          sampleLines.length) = [-5 / 2, -5 / 2, -5 / 2, 5 / 2] := by
  refine ⟨by decide, center_aligned_vertical_offsets sampleTable [] sampleLines (by decide), ?_⟩
  simp [perLine, perLineFrom, centerOffset, cumulativeHeightAt, BuildVerticalLineMetrics,
    globalMaxHeight, sampleTable, sampleLines]
  norm_num

/-- C19: the count and UV accessors return zero for every out-of-range index. For every
instance data whose count arrays are as long as the start arrays: `GetLineCharacterCount`
returns 0 when the line index is negative or at least the number of lines, and
`lineCounts[index]` otherwise; `GetWordCharacterCount` does the same with the words;
`GetCharacterUV` returns (0, 0, 0, 0) when the character index is outside codes or when
`codes[index]` is not a valid index of the glyph table, and the table entry at
`codes[index]` otherwise. -/
theorem accessors_return_zero_out_of_range (D : FNDIFontUVInfoInstanceData)
    (hL : D.LineCharacterCounts.length = D.LineStartIndices.length)
    (hW : D.WordCharacterCounts.length = D.WordStartIndices.length) :
    (∀ i : Int, i < 0 ∨ (D.LineStartIndices.length : Int) ≤ i →
        GetLineCharacterCountVM D i = some 0) ∧
      (∀ i : Int, 0 ≤ i → i < (D.LineStartIndices.length : Int) →
        ∃ n, getAt D.LineCharacterCounts i = some n ∧ GetLineCharacterCountVM D i = some n) ∧
      (∀ i : Int, i < 0 ∨ (D.WordStartIndices.length : Int) ≤ i →
        GetWordCharacterCountVM D i = some 0) ∧
      (∀ i : Int, 0 ≤ i → i < (D.WordStartIndices.length : Int) →
        ∃ n, getAt D.WordCharacterCounts i = some n ∧ GetWordCharacterCountVM D i = some n) ∧
      (∀ i : Int, i < 0 ∨ (D.Unicode.length : Int) ≤ i →
        GetCharacterUVVM D i = some ⟨0, 0, 0, 0⟩) ∧
      (∀ (i Code : Int), getAt D.Unicode i = some Code → getAt D.UVRects Code = none →
        GetCharacterUVVM D i = some ⟨0, 0, 0, 0⟩) ∧
      (∀ (i Code : Int) (R : FVector4), getAt D.Unicode i = some Code →
        getAt D.UVRects Code = some R → GetCharacterUVVM D i = some R) := by
  refine ⟨?_, ?_, ?_, ?_, ?_, ?_, ?_⟩
  · exact fun i h => (countAccessor_spec D.LineStartIndices D.LineCharacterCounts hL i).1 h
  · exact fun i h0 h1 =>
      (countAccessor_spec D.LineStartIndices D.LineCharacterCounts hL i).2 h0 h1
  · exact fun i h => (countAccessor_spec D.WordStartIndices D.WordCharacterCounts hW i).1 h
  · exact fun i h0 h1 =>
      (countAccessor_spec D.WordStartIndices D.WordCharacterCounts hW i).2 h0 h1
  · intro i h
    have hv : IsValidIndex D.Unicode i = false := by
      rcases h with h | h
      · have : ¬ 0 ≤ i := by omega
        simp [IsValidIndex, this]
      · have : ¬ i < (D.Unicode.length : Int) := by omega
        simp [IsValidIndex, this]
    simp [GetCharacterUVVM, hv]
  · intro i Code hi hc
    obtain ⟨hv, _, _⟩ := valid_of_getAt D.Unicode i Code hi
    have hnot : ¬ ((D.UVRects.length : Int) > 0 ∧ Code ≥ 0 ∧ Code < (D.UVRects.length : Int)) := by
      rintro ⟨_, h0, h1⟩
      obtain ⟨R, hR⟩ := getAt_of_bounds D.UVRects Code h0 h1
      rw [hc] at hR
      exact absurd hR (by simp)
    simp only [GetCharacterUVVM, hv, if_true, hi]
    rw [if_neg hnot]
  · intro i Code R hi hc
    obtain ⟨hv, _, _⟩ := valid_of_getAt D.Unicode i Code hi
    obtain ⟨_, h0, h1⟩ := valid_of_getAt D.UVRects Code R hc
    have hyes : (D.UVRects.length : Int) > 0 ∧ Code ≥ 0 ∧ Code < (D.UVRects.length : Int) :=
      ⟨by omega, h0, h1⟩
    simp only [GetCharacterUVVM, hv, if_true, hi]
    rw [if_pos hyes, hc]

/-- Witness of C19 on the instance data of the text `ab` over `letterTable`: one line and
one word of 2 characters; `a` has the table entry (2, 3, 0, 0) and `b` has none. -/
theorem accessors_return_zero_out_of_range_witness :
    ((instanceDataOf letterTable resultAB).LineCharacterCounts.length =
        (instanceDataOf letterTable resultAB).LineStartIndices.length ∧
      (instanceDataOf letterTable resultAB).WordCharacterCounts.length =
        (instanceDataOf letterTable resultAB).WordStartIndices.length) ∧
      ((∀ i : Int, i < 0 ∨
            ((instanceDataOf letterTable resultAB).LineStartIndices.length : Int) ≤ i →
          GetLineCharacterCountVM (instanceDataOf letterTable resultAB) i = some 0) ∧
        (∀ i : Int, 0 ≤ i →
            i < ((instanceDataOf letterTable resultAB).LineStartIndices.length : Int) →
          ∃ n, getAt (instanceDataOf letterTable resultAB).LineCharacterCounts i = some n ∧
            GetLineCharacterCountVM (instanceDataOf letterTable resultAB) i = some n) ∧
        (∀ i : Int, i < 0 ∨
            ((instanceDataOf letterTable resultAB).WordStartIndices.length : Int) ≤ i →
          GetWordCharacterCountVM (instanceDataOf letterTable resultAB) i = some 0) ∧
        (∀ i : Int, 0 ≤ i →
            i < ((instanceDataOf letterTable resultAB).WordStartIndices.length : Int) →
          ∃ n, getAt (instanceDataOf letterTable resultAB).WordCharacterCounts i = some n ∧
            GetWordCharacterCountVM (instanceDataOf letterTable resultAB) i = some n) ∧
        (∀ i : Int, i < 0 ∨ ((instanceDataOf letterTable resultAB).Unicode.length : Int) ≤ i →
          GetCharacterUVVM (instanceDataOf letterTable resultAB) i = some ⟨0, 0, 0, 0⟩) ∧
        (∀ (i Code : Int), getAt (instanceDataOf letterTable resultAB).Unicode i = some Code →
          getAt (instanceDataOf letterTable resultAB).UVRects Code = none →
          GetCharacterUVVM (instanceDataOf letterTable resultAB) i = some ⟨0, 0, 0, 0⟩) ∧
        (∀ (i Code : Int) (R : FVector4),
          getAt (instanceDataOf letterTable resultAB).Unicode i = some Code →
          getAt (instanceDataOf letterTable resultAB).UVRects Code = some R →
          GetCharacterUVVM (instanceDataOf letterTable resultAB) i = some R)) ∧
      ProcessTextWithWhitespace textAB positionsAB = some resultAB ∧
      GetLineCharacterCountVM (instanceDataOf letterTable resultAB) 0 = some 2 ∧
      GetLineCharacterCountVM (instanceDataOf letterTable resultAB) 1 = some 0 ∧
      GetWordCharacterCountVM (instanceDataOf letterTable resultAB) (-1) = some 0 ∧
      GetCharacterUVVM (instanceDataOf letterTable resultAB) 0 = some ⟨2, 3, 0, 0⟩ ∧
      GetCharacterUVVM (instanceDataOf letterTable resultAB) 1 = some ⟨0, 0, 0, 0⟩ ∧
      GetCharacterUVVM (instanceDataOf letterTable resultAB) 2 = some ⟨0, 0, 0, 0⟩ :=
  ⟨⟨by decide, by decide⟩,
    accessors_return_zero_out_of_range (instanceDataOf letterTable resultAB)
      (by decide) (by decide),
    by rfl, by rfl, by rfl, by rfl, by rfl, by rfl, by rfl⟩

/-- C20 as stated does not hold: on the layout result of the text `ab`, whose positions are
(1, 0) and (2, 0), the position accessor does not return the zero vector for the index 5,
which is outside codes; it returns (0, -2, 0), the value for the last character. -/
theorem position_accessor_zero_out_of_range_counterexample :
    ¬ ∀ r, ProcessTextWithWhitespace textAB positionsAB = some r →
      ∀ i : Int, i < 0 ∨ (r.Unicode.length : Int) ≤ i →
        GetCharacterPositionVM (instanceDataOf letterTable r) i = some ⟨0, 0, 0⟩ := by
  intro h
  have h5 := h resultAB ProcessText_textAB.1 5 (Or.inr (by decide))
  simp [GetCharacterPositionVM, instanceDataOf, resultAB, Clamp, IsValidIndex, getAt] at h5

/-- C20, amended: for every instance data with one position per code, the position
accessor returns the zero vector when there is no code; otherwise it clamps the index into
`[0, len(codes) - 1]`: for an in-range index it returns
(0, −positions[index].x, −positions[index].y), for a negative index the same value for the
first character, and for an index of at least len(codes) the same value for the last
character. -/
theorem position_accessor_clamps_index (D : FNDIFontUVInfoInstanceData)
    (hP : D.CharacterPositions.length = D.Unicode.length) :
    (D.Unicode = [] → ∀ i : Int, GetCharacterPositionVM D i = some ⟨0, 0, 0⟩) ∧
      (∀ i : Int, 0 ≤ i → i < (D.Unicode.length : Int) →
        ∃ P, getAt D.CharacterPositions i = some P ∧
          GetCharacterPositionVM D i = some ⟨0, -P.X, -P.Y⟩) ∧
      (D.Unicode ≠ [] → ∀ i : Int, i < 0 →
        ∃ P, getAt D.CharacterPositions 0 = some P ∧
          GetCharacterPositionVM D i = some ⟨0, -P.X, -P.Y⟩) ∧
      (D.Unicode ≠ [] → ∀ i : Int, (D.Unicode.length : Int) ≤ i →
        ∃ P, getAt D.CharacterPositions ((D.Unicode.length : Int) - 1) = some P ∧
          GetCharacterPositionVM D i = some ⟨0, -P.X, -P.Y⟩) := by
  have hpos : D.Unicode ≠ [] → 0 < (D.Unicode.length : Int) := by
    intro hne
    have : 0 < D.Unicode.length := List.length_pos.mpr hne
    omega
  refine ⟨?_, ?_, ?_, ?_⟩
  · intro hnil i
    simp [GetCharacterPositionVM, hnil]
  · intro i h0 h1
    refine positionVM_of_clamp D hP i i h0 h1 ?_
    unfold Clamp
    rw [if_neg (by omega)]
    by_cases hlt : i < (D.Unicode.length : Int) - 1
    · rw [if_pos hlt]
    · rw [if_neg hlt]; omega
  · intro hne i hi
    have hlen := hpos hne
    refine positionVM_of_clamp D hP i 0 (le_refl _) hlen ?_
    unfold Clamp
    rw [if_pos hi]
  · intro hne i hi
    have hlen := hpos hne
    refine positionVM_of_clamp D hP i _ (by omega) (by omega) ?_
    unfold Clamp
    rw [if_neg (by omega), if_neg (by omega)]

/-- Witness of the amended C20 on the instance data of the text `ab`: the accessor returns
(0, -1, 0) for the indices -3 and 0, and (0, -2, 0) for the indices 1 and 5. -/
theorem position_accessor_clamps_index_witness :
    (instanceDataOf letterTable resultAB).CharacterPositions.length =
        (instanceDataOf letterTable resultAB).Unicode.length ∧
      (((instanceDataOf letterTable resultAB).Unicode = [] →
          ∀ i : Int, GetCharacterPositionVM (instanceDataOf letterTable resultAB) i =
            some ⟨0, 0, 0⟩) ∧
        (∀ i : Int, 0 ≤ i → i < ((instanceDataOf letterTable resultAB).Unicode.length : Int) →
          ∃ P, getAt (instanceDataOf letterTable resultAB).CharacterPositions i = some P ∧
            GetCharacterPositionVM (instanceDataOf letterTable resultAB) i =
              some ⟨0, -P.X, -P.Y⟩) ∧
        ((instanceDataOf letterTable resultAB).Unicode ≠ [] → ∀ i : Int, i < 0 →
          ∃ P, getAt (instanceDataOf letterTable resultAB).CharacterPositions 0 = some P ∧
            GetCharacterPositionVM (instanceDataOf letterTable resultAB) i =
              some ⟨0, -P.X, -P.Y⟩) ∧
        ((instanceDataOf letterTable resultAB).Unicode ≠ [] →
          ∀ i : Int, ((instanceDataOf letterTable resultAB).Unicode.length : Int) ≤ i →
          ∃ P, getAt (instanceDataOf letterTable resultAB).CharacterPositions
              (((instanceDataOf letterTable resultAB).Unicode.length : Int) - 1) = some P ∧
            GetCharacterPositionVM (instanceDataOf letterTable resultAB) i =
              some ⟨0, -P.X, -P.Y⟩)) ∧
      GetCharacterPositionVM (instanceDataOf letterTable resultAB) (-3) = some ⟨0, -1, 0⟩ ∧
      GetCharacterPositionVM (instanceDataOf letterTable resultAB) 0 = some ⟨0, -1, 0⟩ ∧
      GetCharacterPositionVM (instanceDataOf letterTable resultAB) 1 = some ⟨0, -2, 0⟩ ∧
      GetCharacterPositionVM (instanceDataOf letterTable resultAB) 5 = some ⟨0, -2, 0⟩ := by
  refine ⟨by decide,
    position_accessor_clamps_index (instanceDataOf letterTable resultAB) (by decide),
    ?_, ?_, ?_, ?_⟩ <;>
  simp [GetCharacterPositionVM, instanceDataOf, resultAB, Clamp, IsValidIndex, getAt]

/-- C21 as stated does not hold: for the text `a` LF, under both policies, the value of
`GetTextLineCount` is 2 while the Line Splitter produces 1 line. -/
theorem line_count_equals_splitter_counterexample :
    (¬ ∀ r, ProcessTextWithWhitespace textALF (samplePositions 2) = some r →
        GetTextLineCountVM (instanceDataOf letterTable r) = ((splitLines textALF).length : Int)) ∧
      (¬ ∀ r, ProcessTextWithoutWhitespace textALF (samplePositions 2) = some r →
        GetTextLineCountVM (instanceDataOf letterTable r) =
          ((splitLines textALF).length : Int)) := by
  have hs : splitLines textALF = [[97, 10]] := by decide
  constructor
  · intro h
    have h2 := h _ (ProcessTextWithWhitespace_eq textALF (samplePositions 2) (by decide))
    have e1 : keepLineStarts textALF 0 = [1] := by decide
    simp [GetTextLineCountVM, instanceDataOf, hs, e1] at h2
  · intro h
    have h2 := h _ (ProcessTextWithoutWhitespace_eq textALF (samplePositions 2) (by decide))
    have e1 : dropLineStarts textALF 0 = [1] := by decide
    simp [GetTextLineCountVM, instanceDataOf, hs, e1] at h2

/-- C21, amended: for every text, every glyph table and both whitespace policies, the value
of `GetTextLineCount` is the number of line starts, 1 plus the number of newline events;
it is the number of lines of the Line Splitter when the text is not empty and does not end
with LF or CR, and one more than it otherwise. -/
theorem line_count_versus_splitter (UVRects : List FVector4) (InputText : List Int)
    (Pos : List FVector2f) (h : Pos.length = InputText.length) :
    (∃ r, ProcessTextWithWhitespace InputText Pos = some r ∧
        GetTextLineCountVM (instanceDataOf UVRects r) = (r.LineStartIndices.length : Int) ∧
        GetTextLineCountVM (instanceDataOf UVRects r) = ((1 + newlineEvents InputText : Nat) : Int) ∧
        GetTextLineCountVM (instanceDataOf UVRects r) =
          (((splitLines InputText).length + (if endsOpen InputText then 0 else 1) : Nat) : Int)) ∧
      (∃ r, ProcessTextWithoutWhitespace InputText Pos = some r ∧
        GetTextLineCountVM (instanceDataOf UVRects r) = (r.LineStartIndices.length : Int) ∧
        GetTextLineCountVM (instanceDataOf UVRects r) = ((1 + newlineEvents InputText : Nat) : Int) ∧
        GetTextLineCountVM (instanceDataOf UVRects r) =
          (((splitLines InputText).length + (if endsOpen InputText then 0 else 1) : Nat) : Int)) := by
  have hsplit := length_splitLines InputText
  constructor
  · refine ⟨_, ProcessTextWithWhitespace_eq InputText Pos (by omega), rfl, ?_, ?_⟩
    · simp only [GetTextLineCountVM, instanceDataOf, List.length_cons, length_keepLineStarts]
      congr 1; omega
    · simp only [GetTextLineCountVM, instanceDataOf, List.length_cons, length_keepLineStarts,
        hsplit]
      congr 1
      by_cases he : endsOpen InputText = true <;> simp [he]
  · refine ⟨_, ProcessTextWithoutWhitespace_eq InputText Pos (by omega), rfl, ?_, ?_⟩
    · simp only [GetTextLineCountVM, instanceDataOf, List.length_cons, length_dropLineStarts]
      congr 1; omega
    · simp only [GetTextLineCountVM, instanceDataOf, List.length_cons, length_dropLineStarts,
        hsplit]
      congr 1
      by_cases he : endsOpen InputText = true <;> simp [he]

/-- Witness of the amended C21 on the text `a` LF `b`, which does not end with a newline:
2 line starts and 2 lines of the Line Splitter. -/
theorem line_count_versus_splitter_witness :
    (samplePositions 3).length = textLF.length ∧
      ((∃ r, ProcessTextWithWhitespace textLF (samplePositions 3) = some r ∧
          GetTextLineCountVM (instanceDataOf letterTable r) = (r.LineStartIndices.length : Int) ∧
          GetTextLineCountVM (instanceDataOf letterTable r) =
            ((1 + newlineEvents textLF : Nat) : Int) ∧
          GetTextLineCountVM (instanceDataOf letterTable r) =
            (((splitLines textLF).length + (if endsOpen textLF then 0 else 1) : Nat) : Int)) ∧
        (∃ r, ProcessTextWithoutWhitespace textLF (samplePositions 3) = some r ∧
          GetTextLineCountVM (instanceDataOf letterTable r) = (r.LineStartIndices.length : Int) ∧
          GetTextLineCountVM (instanceDataOf letterTable r) =
            ((1 + newlineEvents textLF : Nat) : Int) ∧
          GetTextLineCountVM (instanceDataOf letterTable r) =
            (((splitLines textLF).length + (if endsOpen textLF then 0 else 1) : Nat) : Int))) ∧
      (splitLines textLF).length = 2 ∧ endsOpen textLF = true ∧ newlineEvents textLF = 1 :=
  ⟨by decide, line_count_versus_splitter letterTable textLF (samplePositions 3) (by decide),
    by decide, by decide, by decide⟩

/-- C22, the code at the failing input: for the text `a` LF `b` under Keep-Whitespace the
codes are `a`, LF, `b` and the line starts are `[0, 1]`: the start recorded for the line
that follows the LF, which is emitted at index 1, is 1 and not 2. Under Drop-Whitespace the
codes are `a`, `b` and the line starts `[0, 1]`: there the recorded start is the index of
the character that follows the LF. -/
theorem keep_whitespace_lf_line_start_evaluation :
    (ProcessTextWithWhitespace textLF (samplePositions 3)).map
        (fun r => (r.Unicode, r.LineStartIndices)) = some ([97, LF, 98], [0, 1]) ∧
      (ProcessTextWithoutWhitespace textLF (samplePositions 3)).map
        (fun r => (r.Unicode, r.LineStartIndices)) = some ([97, 98], [0, 1]) :=
  ⟨by rfl, by rfl⟩

/-- C23 as stated does not hold: for the text `a` CR LF `b` under Keep-Whitespace, the CR
is at index 1 and the line start recorded for the pair is not 1 (it is 2). -/
theorem keep_whitespace_crlf_line_start_counterexample :
    ¬ ∀ r, ProcessTextWithWhitespace textCRLF (samplePositions 4) = some r →
      r.LineStartIndices[1]? = some 1 := by
  intro h
  have h2 := h _ (ProcessTextWithWhitespace_eq textCRLF (samplePositions 4) (by decide))
  have e1 : keepLineStarts textCRLF 0 = [2] := by decide
  simp [e1] at h2

/-- C23, amended: under Keep-Whitespace, for every text and every CR at index `i` that is
immediately followed by LF, both the CR and the LF are appended to codes, at the indices
`i` and `i + 1`, and exactly one line start is recorded for the pair; it is greater than `i`
and at most `i + 2`, the number of codes emitted once the pair is appended. -/
theorem keep_whitespace_crlf_line_start (Before After : List Int) (Pos : List FVector2f)
    (h : Pos.length = (Before ++ CR :: LF :: After).length) :
    ∃ r, ProcessTextWithWhitespace (Before ++ CR :: LF :: After) Pos = some r ∧
      r.Unicode[Before.length]? = some CR ∧
      r.Unicode[Before.length + 1]? = some LF ∧
      r.LineStartIndices.length = (1 + newlineEvents Before) + 1 + newlineEvents After ∧
      ∃ s : Nat, r.LineStartIndices[1 + newlineEvents Before]? = some (s : Int) ∧
        Before.length < s ∧ s ≤ Before.length + 2 := by
  have hsplit : keepLineStarts (Before ++ CR :: LF :: After) 0 =
      keepLineStarts Before 0 ++
        (((Before.length + 1 : Nat) : Int) :: keepLineStarts After (Before.length + 1 + 1)) := by
    rw [keepLineStarts_append Before _ 0 (by simp), keepLineStarts_CRLF]
    simp
  refine ⟨_, ProcessTextWithWhitespace_eq _ Pos (by omega), ?_, ?_, ?_, ?_⟩
  · show (Before ++ CR :: LF :: After)[Before.length]? = some CR
    rw [List.getElem?_append_right (le_refl _), Nat.sub_self]
    rfl
  · show (Before ++ CR :: LF :: After)[Before.length + 1]? = some LF
    rw [List.getElem?_append_right (by omega), Nat.add_sub_cancel_left]
    simp
  · simp only [hsplit, List.length_cons, List.length_append, length_keepLineStarts]
    omega
  · refine ⟨Before.length + 1, ?_, by omega, by omega⟩
    have hlen : (keepLineStarts Before 0).length = newlineEvents Before :=
      length_keepLineStarts Before 0
    simp only [hsplit]
    rw [Nat.add_comm 1, List.getElem?_cons_succ,
      List.getElem?_append_right (by omega), hlen, Nat.sub_self]
    simp

/-- Witness of the amended C23 on the text `a` CR LF `b`: the CR is at index 1, the LF at
index 2, and the line starts are `[0, 2]`. -/
theorem keep_whitespace_crlf_line_start_witness :
    (samplePositions 4).length = ([97] ++ CR :: LF :: [98]).length ∧
      (∃ r, ProcessTextWithWhitespace ([97] ++ CR :: LF :: [98]) (samplePositions 4) = some r ∧
        r.Unicode[([97] : List Int).length]? = some CR ∧
        r.Unicode[([97] : List Int).length + 1]? = some LF ∧
        r.LineStartIndices.length = (1 + newlineEvents [97]) + 1 + newlineEvents [98] ∧
        ∃ s : Nat, r.LineStartIndices[1 + newlineEvents [97]]? = some (s : Int) ∧
          ([97] : List Int).length < s ∧ s ≤ ([97] : List Int).length + 2) ∧
      (ProcessTextWithWhitespace ([97] ++ CR :: LF :: [98]) (samplePositions 4)).map
        (fun r => r.LineStartIndices) = some [0, 2] :=
  ⟨by decide, keep_whitespace_crlf_line_start [97] [98] (samplePositions 4) (by decide),
    by rfl⟩

/-- C24 as stated does not hold: for the text `ab cd` under Keep-Whitespace the word starts
are `[0, 3]` and the word counts `[2, 2]`, so the first count is not the difference 3 of the
two starts. -/
theorem word_counts_are_differences_counterexample :
    ¬ ∀ r, ProcessTextWithWhitespace textAbCd (samplePositions 5) = some r →
      r.WordCharacterCounts[0]? =
        some (r.WordStartIndices.getD 1 0 - r.WordStartIndices.getD 0 0) := by
  intro h
  have h2 := h _ (ProcessTextWithWhitespace_eq textAbCd (samplePositions 5) (by decide))
  have e1 : runsAux true textAbCd 0 none = [(0, [97, 98]), (3, [99, 100])] := by decide
  simp [e1] at h2

/-- C24, amended: for every text, under Drop-Whitespace the word counts are the consecutive
differences of the word starts, the last count being the number of codes minus the last
word start; under Keep-Whitespace, where the whitespace between the words is emitted, every
word count but the last is smaller than the difference of the two word starts, and the last
one is at most the number of codes minus the last word start. -/
theorem word_counts_versus_word_starts (InputText : List Int) (Pos : List FVector2f)
    (h : Pos.length = InputText.length) :
    (∃ r, ProcessTextWithoutWhitespace InputText Pos = some r ∧
        (∀ k, k + 1 < r.WordStartIndices.length →
          r.WordCharacterCounts[k]? =
            some (r.WordStartIndices.getD (k + 1) 0 - r.WordStartIndices.getD k 0)) ∧
        (∀ k, k + 1 = r.WordStartIndices.length →
          r.WordCharacterCounts[k]? =
            some ((r.Unicode.length : Int) - r.WordStartIndices.getD k 0))) ∧
      (∃ r, ProcessTextWithWhitespace InputText Pos = some r ∧
        (∀ k, k + 1 < r.WordStartIndices.length →
          ∃ c, r.WordCharacterCounts[k]? = some c ∧
            c < r.WordStartIndices.getD (k + 1) 0 - r.WordStartIndices.getD k 0) ∧
        (∀ k, k + 1 = r.WordStartIndices.length →
          ∃ c, r.WordCharacterCounts[k]? = some c ∧
            c ≤ (r.Unicode.length : Int) - r.WordStartIndices.getD k 0)) := by
  constructor
  · refine ⟨_, ProcessTextWithoutWhitespace_eq InputText Pos (by omega), ?_, ?_⟩
    · intro k hk
      show ((runsAux false InputText 0 none).map (fun p => (p.2.length : Int)))[k]? = _
      rw [drop_wordCounts_eq]
      exact (getElem?_lineCountsOf _ _ k).1 hk
    · intro k hk
      show ((runsAux false InputText 0 none).map (fun p => (p.2.length : Int)))[k]? = _
      rw [drop_wordCounts_eq]
      exact (getElem?_lineCountsOf _ _ k).2 hk
  · have hsp := keep_runs_spaced InputText 0 none (by simp)
    simp only [Nat.zero_add] at hsp
    refine ⟨_, ProcessTextWithWhitespace_eq InputText Pos (by omega), ?_, ?_⟩
    · intro k hk
      have hk2 : k + 1 < (runsAux true InputText 0 none).length := by simpa using hk
      have hlt := (Spaced_getElem _ _ _ k hsp).1 hk2
      refine ⟨_, by
        show ((runsAux true InputText 0 none).map (fun p => (p.2.length : Int)))[k]? = _
        rw [List.getElem?_map, List.getElem?_eq_getElem (by omega)]
        rfl, ?_⟩
      show _ < ((runsAux true InputText 0 none).map (fun p => (p.1 : Int))).getD (k + 1) 0 -
        ((runsAux true InputText 0 none).map (fun p => (p.1 : Int))).getD k 0
      have hk3 : k < (runsAux true InputText 0 none).length := by omega
      simp only [List.getD, List.get?_eq_getElem?, List.getElem?_map,
        List.getElem?_eq_getElem hk2, List.getElem?_eq_getElem hk3, Option.map_some',
        Option.getD_some]
      simp only [List.get_eq_getElem] at hlt
      omega
    · intro k hk
      have hk2 : k < (runsAux true InputText 0 none).length := by
        have : k + 1 = (runsAux true InputText 0 none).length := by simpa using hk
        omega
      have hle := (Spaced_getElem _ _ _ k hsp).2 hk2
      refine ⟨_, by
        show ((runsAux true InputText 0 none).map (fun p => (p.2.length : Int)))[k]? = _
        rw [List.getElem?_map, List.getElem?_eq_getElem hk2]
        rfl, ?_⟩
      show _ ≤ (InputText.length : Int) -
        ((runsAux true InputText 0 none).map (fun p => (p.1 : Int))).getD k 0
      simp only [List.getD, List.get?_eq_getElem?, List.getElem?_map,
        List.getElem?_eq_getElem hk2, Option.map_some', Option.getD_some]
      simp only [List.get_eq_getElem] at hle
      omega

/-- Witness of the amended C24 on the text `ab cd`: Drop-Whitespace gives the starts
`[0, 2]` and the counts `[2, 2]` for 4 codes, Keep-Whitespace the starts `[0, 3]` and the
counts `[2, 2]` for 5 codes. -/
theorem word_counts_versus_word_starts_witness :
    (samplePositions 5).length = textAbCd.length ∧
      ((∃ r, ProcessTextWithoutWhitespace textAbCd (samplePositions 5) = some r ∧
          (∀ k, k + 1 < r.WordStartIndices.length →
            r.WordCharacterCounts[k]? =
              some (r.WordStartIndices.getD (k + 1) 0 - r.WordStartIndices.getD k 0)) ∧
          (∀ k, k + 1 = r.WordStartIndices.length →
            r.WordCharacterCounts[k]? =
              some ((r.Unicode.length : Int) - r.WordStartIndices.getD k 0))) ∧
        (∃ r, ProcessTextWithWhitespace textAbCd (samplePositions 5) = some r ∧
          (∀ k, k + 1 < r.WordStartIndices.length →
            ∃ c, r.WordCharacterCounts[k]? = some c ∧
              c < r.WordStartIndices.getD (k + 1) 0 - r.WordStartIndices.getD k 0) ∧
          (∀ k, k + 1 = r.WordStartIndices.length →
            ∃ c, r.WordCharacterCounts[k]? = some c ∧
              c ≤ (r.Unicode.length : Int) - r.WordStartIndices.getD k 0))) ∧
      (ProcessTextWithoutWhitespace textAbCd (samplePositions 5)).map
          (fun r => (r.WordStartIndices, r.WordCharacterCounts, r.Unicode.length)) =
        some ([0, 2], [2, 2], 4) ∧
      (ProcessTextWithWhitespace textAbCd (samplePositions 5)).map
          (fun r => (r.WordStartIndices, r.WordCharacterCounts, r.Unicode.length)) =
        some ([0, 3], [2, 2], 5) :=
  ⟨by decide, word_counts_versus_word_starts textAbCd (samplePositions 5) (by decide),
    by rfl, by rfl⟩

/-- C25: for every text (the position array holding one position per character), both
pipelines return a result, the two results have the same word counts (hence the same number
of words and the same length for each word), and word `k` starts in the Drop-Whitespace
result at its Keep-Whitespace start index `s` minus the number of whitespace characters
among the first `s` characters of the text, which are the ones dropped before the word. -/
theorem word_detection_independent_of_policy (InputText : List Int) (Pos : List FVector2f)
    (h : Pos.length = InputText.length) :
    ∃ rK rD, ProcessTextWithWhitespace InputText Pos = some rK ∧
      ProcessTextWithoutWhitespace InputText Pos = some rD ∧
      rK.WordCharacterCounts = rD.WordCharacterCounts ∧
      rK.WordStartIndices.length = rD.WordStartIndices.length ∧
      ∀ k, k < rK.WordStartIndices.length →
        ∃ s : Nat, s ≤ InputText.length ∧ rK.WordStartIndices[k]? = some (s : Int) ∧
          rD.WordStartIndices[k]? = some ((s : Int) - whitespaceBefore InputText s) := by
  have hrel := runsAux_drop_of_keep InputText InputText [] none rfl
  simp only [nonWhitespace, List.filter_nil, List.length_nil, Option.map_none'] at hrel
  refine ⟨_, _, ProcessTextWithWhitespace_eq InputText Pos (by omega),
    ProcessTextWithoutWhitespace_eq InputText Pos (by omega), ?_, ?_, ?_⟩
  · show (runsAux true InputText 0 none).map (fun p => (p.2.length : Int)) =
      (runsAux false InputText 0 none).map (fun p => (p.2.length : Int))
    rw [hrel, List.map_map]
    rfl
  · show ((runsAux true InputText 0 none).map (fun p => (p.1 : Int))).length =
      ((runsAux false InputText 0 none).map (fun p => (p.1 : Int))).length
    rw [hrel]
    simp
  · intro k hk
    have hk2 : k < (runsAux true InputText 0 none).length := by simpa using hk
    have hsp := keep_runs_spaced InputText 0 none (by simp)
    simp only [Nat.zero_add] at hsp
    have hle := (Spaced_getElem _ _ _ k hsp).2 hk2
    simp only [List.get_eq_getElem] at hle
    have hs : ((runsAux true InputText 0 none)[k]).1 ≤ InputText.length := by omega
    refine ⟨((runsAux true InputText 0 none)[k]).1, hs, ?_, ?_⟩
    · show ((runsAux true InputText 0 none).map (fun p => (p.1 : Int)))[k]? = _
      rw [List.getElem?_map, List.getElem?_eq_getElem hk2]
      rfl
    · show ((runsAux false InputText 0 none).map (fun p => (p.1 : Int)))[k]? = _
      rw [hrel, List.getElem?_map, List.getElem?_map, List.getElem?_eq_getElem hk2,
        ← length_nonWhitespace_take InputText _ hs]
      rfl

/-- Witness of C25 on the text `ab cd`: both policies give the word counts `[2, 2]`; the
word starts are `[0, 3]` with the space kept and `[0, 2]` with the space dropped. -/
theorem word_detection_independent_of_policy_witness :
    (samplePositions 5).length = textAbCd.length ∧
      (∃ rK rD, ProcessTextWithWhitespace textAbCd (samplePositions 5) = some rK ∧
        ProcessTextWithoutWhitespace textAbCd (samplePositions 5) = some rD ∧
        rK.WordCharacterCounts = rD.WordCharacterCounts ∧
        rK.WordStartIndices.length = rD.WordStartIndices.length ∧
        ∀ k, k < rK.WordStartIndices.length →
          ∃ s : Nat, s ≤ textAbCd.length ∧ rK.WordStartIndices[k]? = some (s : Int) ∧
            rD.WordStartIndices[k]? = some ((s : Int) - whitespaceBefore textAbCd s)) ∧
      (ProcessTextWithWhitespace textAbCd (samplePositions 5)).map
          (fun r => (r.WordStartIndices, r.WordCharacterCounts)) = some ([0, 3], [2, 2]) ∧
      (ProcessTextWithoutWhitespace textAbCd (samplePositions 5)).map
          (fun r => (r.WordStartIndices, r.WordCharacterCounts)) = some ([0, 2], [2, 2]) ∧
      whitespaceBefore textAbCd 3 = 1 :=
  ⟨by decide, word_detection_independent_of_policy textAbCd (samplePositions 5) (by decide),
    by rfl, by rfl, by decide⟩

/-- C27: for every text, every line `k` of the Line Splitter is a body that holds no LF and
no CR followed by a terminator; the terminator is `[LF]`, `[CR]` or `[CR, LF]`, or it is
empty and then the line is the last one; and when the terminator is the bare `[CR]`, the
next line, if there is one, does not begin with LF. -/
theorem line_splitter_boundary_shape (InputString : List Int) (k : Nat)
    (hk : k < (splitLines InputString).length) :
    ∃ Body Term : List Int,
      (splitLines InputString).get ⟨k, hk⟩ = Body ++ Term ∧
        (∀ c ∈ Body, c ≠ LF ∧ c ≠ CR) ∧
        (Term = [LF] ∨ Term = [CR] ∨ Term = [CR, LF] ∨
          (Term = [] ∧ k + 1 = (splitLines InputString).length)) ∧
        (Term = [CR] → ∀ Next, (splitLines InputString)[k + 1]? = some Next →
          Next.head? ≠ some LF) := by
  have hs : LinesShape (splitLines InputString) := by
    rw [splitLines_eq]
    exact linesShape_linesFrom InputString [] (by simp)
  obtain ⟨Term, ⟨Body, hb, hbody⟩, hterm, hcr⟩ :=
    LinesShape_getElem (splitLines InputString) hs k hk
  exact ⟨Body, Term, hb, hbody, hterm, hcr⟩

/-- Witness of C27 on the text `a`, CR, `b`: the Line Splitter gives the lines `a`, CR and
`b`; line 0 has the terminator `[CR]` and the next line begins with `b`. -/
theorem line_splitter_boundary_shape_witness :
    ∃ hk : 0 < (splitLines textCR).length,
      splitLines textCR = [[97, CR], [98]] ∧
      ∃ Body Term : List Int,
        (splitLines textCR).get ⟨0, hk⟩ = Body ++ Term ∧
          (∀ c ∈ Body, c ≠ LF ∧ c ≠ CR) ∧
          (Term = [LF] ∨ Term = [CR] ∨ Term = [CR, LF] ∨
            (Term = [] ∧ 0 + 1 = (splitLines textCR).length)) ∧
          (Term = [CR] → ∀ Next, (splitLines textCR)[0 + 1]? = some Next →
            Next.head? ≠ some LF) :=
  ⟨by decide, by decide, line_splitter_boundary_shape textCR 0 (by decide)⟩

/-- C28: under Drop-Whitespace the line arrays of the driver agree with the Line Splitter.
For every glyph table, text and alignments the driver returns a result `r`, and for every
line `k` of the Line Splitter there are a line start `s = lineStarts[k]` and a count
`c = lineCounts[k]` such that the `c` codes from index `s` on are the non-whitespace
characters of line `k`, in order, and the positions of these codes all have as `Y` the
vertical position `y` that the unfiltered layout gives to every character of line `k`; a
line start with an index beyond the lines of the Line Splitter has the count 0. -/
theorem drop_whitespace_lines_agree_with_splitter (UVRects : List FVector4)
    (InputText : List Int) (HorizontalAlignment : ENTPTextHorizontalAlignment)
    (VerticalAlignment : ENTPTextVerticalAlignment) :
    ∃ V r,
      verticalPositions UVRects InputText (splitLines InputText) VerticalAlignment = some V ∧
      InitPerInstanceData UVRects InputText HorizontalAlignment VerticalAlignment false =
        some r ∧
      (∀ (k : Nat) (Line : List Int), (splitLines InputText)[k]? = some Line →
        ∃ s c : Nat, r.LineStartIndices[k]? = some (s : Int) ∧
          r.LineCharacterCounts[k]? = some (c : Int) ∧
          (r.Unicode.drop s).take c = nonWhitespace Line ∧
          ∃ y : ℚ,
            (∀ j, j < Line.length →
              V[((splitLines InputText).take k).flatten.length + j]? = some y) ∧
            ∀ m, m < c → ∃ Q : FVector2f, r.CharacterPositions[s + m]? = some Q ∧ Q.Y = y) ∧
      (∀ k, (splitLines InputText).length ≤ k → k < r.LineStartIndices.length →
        r.LineCharacterCounts[k]? = some 0) := by
  obtain ⟨P, V, hP, hV, hPlen, hPV⟩ :=
    GetCharacterPositions_vertical UVRects InputText HorizontalAlignment VerticalAlignment
  obtain ⟨offset, hoff⟩ :=
    verticalPositions_perLine UVRects InputText (splitLines InputText) VerticalAlignment
  have hVeq : V = perLine (splitLines InputText) offset := by
    rw [hV] at hoff
    exact Option.some.inj hoff
  have hr : InitPerInstanceData UVRects InputText HorizontalAlignment VerticalAlignment false =
      ProcessTextWithoutWhitespace InputText P := by
    unfold InitPerInstanceData
    rw [hP]
    rfl
  rw [ProcessTextWithoutWhitespace_eq InputText P (by omega)] at hr
  obtain ⟨hL1, hL2⟩ := length_linesFrom_le InputText
  have hlenS : ((0 : Int) :: dropLineStarts InputText 0).length = 1 + newlineEvents InputText := by
    rw [List.length_cons, length_dropLineStarts]; omega
  rw [splitLines_eq] at hV hVeq ⊢
  refine ⟨V, _, hV, hr, ?_, ?_⟩
  · intro k Line hLine
    have hk : k < (linesFrom InputText []).length := (List.getElem?_eq_some.1 hLine).1
    have hkS : k < ((0 : Int) :: dropLineStarts InputText 0).length := by omega
    have hstart := dropLineStarts_closed InputText k hkS
    have hcount := dropLineCounts_closed InputText k hkS
    have hgetD : (linesFrom InputText []).getD k [] = Line := by
      rw [List.getD, List.get?_eq_getElem?, hLine]
      rfl
    rw [hgetD] at hcount
    have hdec := split_at_line _ k Line hLine
    generalize (linesFrom InputText []).take k = A at hstart hdec ⊢
    generalize (linesFrom InputText []).drop (k + 1) = C at hdec
    have hT : InputText = A.flatten ++ Line ++ C.flatten := by
      have hfl := flatten_linesFrom InputText []
      rw [hdec, List.nil_append, List.flatten_append, List.flatten_cons] at hfl
      rw [List.append_assoc]
      exact hfl.symm
    have hnw : nonWhitespace InputText =
        nonWhitespace A.flatten ++ nonWhitespace Line ++ nonWhitespace C.flatten := by
      conv_lhs => rw [hT]
      rw [nonWhitespace_append, nonWhitespace_append]
    refine ⟨(nonWhitespace A.flatten).length, (nonWhitespace Line).length, hstart, hcount, ?_,
      offset A.length, ?_, ?_⟩
    · show ((nonWhitespace InputText).drop _).take _ = _
      rw [hnw]
      exact take_drop_middle _ _ _
    · intro j hj
      rw [hVeq, hdec]
      exact getElem?_perLine offset A C Line j hj
    · intro m hm
      have hPlen2 : P.length = (A.flatten ++ Line ++ C.flatten).length := by
        rw [← hT]; exact hPlen
      obtain ⟨Q, j, hQ, hj, hPj⟩ := nonWhitespacePositions_middle _ Line _ P hPlen2 m hm
      rw [← hT] at hQ
      refine ⟨Q, hQ, ?_⟩
      have h1 := hPV _ Q hPj
      have hg := getElem?_perLine offset A C Line j hj
      rw [← hdec, ← hVeq, h1] at hg
      exact Option.some.inj hg
  · intro k hk1 hk2
    have hkS : k < ((0 : Int) :: dropLineStarts InputText 0).length := hk2
    have hcount := dropLineCounts_closed InputText k hkS
    have hgetD : (linesFrom InputText []).getD k [] = [] := by
      rw [List.getD, List.get?_eq_getElem?, List.getElem?_eq_none hk1]
      rfl
    rw [hgetD] at hcount
    exact hcount

/-- Witness of C28 on the text `a`, LF with the glyph table `sampleTable`: the Line Splitter
gives the single line `a`, LF, and Drop-Whitespace the codes `a`, the line starts `[0, 1]`
and the line counts `[1, 0]`. -/
theorem drop_whitespace_lines_agree_with_splitter_witness :
    splitLines textALF = [[97, LF]] ∧
      (ProcessTextWithoutWhitespace textALF (samplePositions 2)).map
          (fun r => (r.Unicode, r.LineStartIndices, r.LineCharacterCounts)) =
        some ([97], [0, 1], [1, 0]) ∧
      ∃ V r,
        verticalPositions sampleTable textALF (splitLines textALF) .NTP_TVA_Top = some V ∧
        InitPerInstanceData sampleTable textALF .NTP_THA_Left .NTP_TVA_Top false = some r ∧
        (∀ (k : Nat) (Line : List Int), (splitLines textALF)[k]? = some Line →
          ∃ s c : Nat, r.LineStartIndices[k]? = some (s : Int) ∧
            r.LineCharacterCounts[k]? = some (c : Int) ∧
            (r.Unicode.drop s).take c = nonWhitespace Line ∧
            ∃ y : ℚ,
              (∀ j, j < Line.length →
                V[((splitLines textALF).take k).flatten.length + j]? = some y) ∧
              ∀ m, m < c → ∃ Q : FVector2f, r.CharacterPositions[s + m]? = some Q ∧ Q.Y = y) ∧
        (∀ k, (splitLines textALF).length ≤ k → k < r.LineStartIndices.length →
          r.LineCharacterCounts[k]? = some 0) :=
  ⟨by decide, by rfl,
    drop_whitespace_lines_agree_with_splitter sampleTable textALF .NTP_THA_Left .NTP_TVA_Top⟩

/-- C29: under Keep-Whitespace, for every text (the position array holding one position per
character) and every `k ≥ 1` that is an index of the line starts, `lineStarts[k]` is an
index `s` of the codes, the code at `s` is a newline character, namely an LF, or a CR that
no LF follows, and `s` is the index of the last character of line `k - 1` of the Line
Splitter (the first `k` lines hold `s + 1` characters): the line start points at the last
terminator character of the previous line, not at the character after it. -/
theorem keep_whitespace_line_starts_point_at_newline (InputText : List Int)
    (Pos : List FVector2f) (h : Pos.length = InputText.length) :
    ∃ r, ProcessTextWithWhitespace InputText Pos = some r ∧
      ∀ k, 1 ≤ k → k < r.LineStartIndices.length →
        ∃ s : Nat, r.LineStartIndices[k]? = some (s : Int) ∧ s < r.Unicode.length ∧
          (r.Unicode[s]? = some LF ∨ (r.Unicode[s]? = some CR ∧ r.Unicode[s + 1]? ≠ some LF)) ∧
          k ≤ (splitLines InputText).length ∧
          s + 1 = ((splitLines InputText).take k).flatten.length := by
  refine ⟨_, ProcessTextWithWhitespace_eq InputText Pos (by omega), ?_⟩
  intro k hk1 hk
  obtain ⟨j, rfl⟩ : ∃ j, k = j + 1 := ⟨k - 1, by omega⟩
  have hj : j < (keepLineStarts InputText 0).length := by simpa using hk
  obtain ⟨d, h1, h2, h3⟩ := keepLineStarts_spec InputText [] 0 j hj
  obtain ⟨hL1, hL2⟩ := length_linesFrom_le InputText
  rw [length_keepLineStarts] at hj
  have hd : d < InputText.length := by
    rcases h2 with h2 | ⟨h2, _⟩
    · exact (List.getElem?_eq_some.1 h2).1
    · exact (List.getElem?_eq_some.1 h2).1
  rw [splitLines_eq]
  refine ⟨d, ?_, hd, h2, by omega, ?_⟩
  · show ((0 : Int) :: keepLineStarts InputText 0)[j + 1]? = _
    rw [List.getElem?_cons_succ, h1, Nat.zero_add]
  · rw [← h3]
    simp

/-- Witness of C29 on the text `a`, CR, LF, `b`: the line starts are `[0, 2]`, and the code
at index 2 is the LF that ends the first line `a`, CR, LF of the Line Splitter. -/
theorem keep_whitespace_line_starts_point_at_newline_witness :
    (samplePositions 4).length = textCRLF.length ∧
      (∃ r, ProcessTextWithWhitespace textCRLF (samplePositions 4) = some r ∧
        ∀ k, 1 ≤ k → k < r.LineStartIndices.length →
          ∃ s : Nat, r.LineStartIndices[k]? = some (s : Int) ∧ s < r.Unicode.length ∧
            (r.Unicode[s]? = some LF ∨
              (r.Unicode[s]? = some CR ∧ r.Unicode[s + 1]? ≠ some LF)) ∧
            k ≤ (splitLines textCRLF).length ∧
            s + 1 = ((splitLines textCRLF).take k).flatten.length) ∧
      (ProcessTextWithWhitespace textCRLF (samplePositions 4)).map
          (fun r => (r.Unicode, r.LineStartIndices)) = some ([97, CR, LF, 98], [0, 2]) ∧
      splitLines textCRLF = [[97, CR, LF], [98]] :=
  ⟨by decide,
    keep_whitespace_line_starts_point_at_newline textCRLF (samplePositions 4) (by decide),
    by rfl, by decide⟩

/-- C30: for every text of fewer than 2^31 characters (the length of an `FString` is an
`int32`; the position array holds one position per character) and both whitespace
policies, the pipeline returns a result whose line starts begin with 0, are non-decreasing
and lie between 0 and the number of codes; hence every line count lies between 0 and the
number of codes, and the conversion of both line arrays to `uint32` for the upload keeps
every value. -/
theorem line_arrays_in_order (InputText : List Int) (Pos : List FVector2f)
    (h : Pos.length = InputText.length) (hlen : InputText.length < 2147483648) :
    (∃ r, ProcessTextWithWhitespace InputText Pos = some r ∧ LineArraysInOrder r) ∧
      (∃ r, ProcessTextWithoutWhitespace InputText Pos = some r ∧ LineArraysInOrder r) := by
  constructor
  · refine ⟨_, ProcessTextWithWhitespace_eq InputText Pos (by omega),
      lineArraysInOrder_of_starts _ (keepLineStarts InputText 0) rfl rfl ?_ ?_ hlen⟩
    · refine List.pairwise_cons.2 ⟨?_, pairwise_keepLineStarts InputText 0⟩
      intro y hy
      obtain ⟨s, hs, _, _⟩ := keepLineStarts_bounds InputText 0 y hy
      rw [hs]
      exact Int.natCast_nonneg s
    · intro x hx
      have hx2 : x = 0 ∨ x ∈ keepLineStarts InputText 0 := List.mem_cons.1 hx
      show 0 ≤ x ∧ x ≤ (InputText.length : Int)
      rcases hx2 with hx2 | hx2
      · rw [hx2]
        exact ⟨le_refl _, Int.natCast_nonneg _⟩
      · obtain ⟨s, hs, _, h2⟩ := keepLineStarts_bounds InputText 0 x hx2
        rw [hs]
        omega
  · have hnw := length_nonWhitespace_le InputText
    refine ⟨_, ProcessTextWithoutWhitespace_eq InputText Pos (by omega),
      lineArraysInOrder_of_starts _ (dropLineStarts InputText 0) rfl rfl ?_ ?_
        (show (nonWhitespace InputText).length < 2147483648 by omega)⟩
    · refine List.pairwise_cons.2 ⟨?_, pairwise_dropLineStarts InputText 0⟩
      intro y hy
      obtain ⟨s, hs, _, _⟩ := dropLineStarts_bounds InputText 0 y hy
      rw [hs]
      exact Int.natCast_nonneg s
    · intro x hx
      have hx2 : x = 0 ∨ x ∈ dropLineStarts InputText 0 := List.mem_cons.1 hx
      show 0 ≤ x ∧ x ≤ ((nonWhitespace InputText).length : Int)
      rcases hx2 with hx2 | hx2
      · rw [hx2]
        exact ⟨le_refl _, Int.natCast_nonneg _⟩
      · obtain ⟨s, hs, _, h2⟩ := dropLineStarts_bounds InputText 0 x hx2
        rw [hs]
        omega

/-- Witness of C30 on the text `a`, CR, LF, `b`: Keep-Whitespace gives the line starts
`[0, 2]` and the line counts `[2, 2]`, Drop-Whitespace the line starts `[0, 1]` and the line
counts `[1, 1]`, and the upload keeps these values. -/
theorem line_arrays_in_order_witness :
    (samplePositions 4).length = textCRLF.length ∧ textCRLF.length < 2147483648 ∧
      ((∃ r, ProcessTextWithWhitespace textCRLF (samplePositions 4) = some r ∧
          LineArraysInOrder r) ∧
        (∃ r, ProcessTextWithoutWhitespace textCRLF (samplePositions 4) = some r ∧
          LineArraysInOrder r)) ∧
      (ProcessTextWithWhitespace textCRLF (samplePositions 4)).map
          (fun r => (r.LineStartIndices, r.LineCharacterCounts,
            uploadUInt32 r.LineStartIndices, uploadUInt32 r.LineCharacterCounts)) =
        some ([0, 2], [2, 2], [0, 2], [2, 2]) ∧
      (ProcessTextWithoutWhitespace textCRLF (samplePositions 4)).map
          (fun r => (r.LineStartIndices, r.LineCharacterCounts,
            uploadUInt32 r.LineStartIndices, uploadUInt32 r.LineCharacterCounts)) =
        some ([0, 1], [1, 1], [0, 1], [1, 1]) :=
  ⟨by decide, by decide,
    line_arrays_in_order textCRLF (samplePositions 4) (by decide) (by decide),
    by rfl, by rfl⟩

end NTP
